import Mathlib

/-!
Shallow embedding of the prioritization engine of `src/lib/prioritization.ts`
(teamwork-linear-optimizer).  JavaScript numbers are modelled as rationals
(`ℚ`); `number | null` fields are modelled as `Option ℚ` (with `none` also
standing for the non-numeric values that `Number(...)` coerces to `NaN`, since
the code immediately collapses those to `0` exactly like `null`).  JavaScript
objects used as string-keyed maps are modelled as association lists with
unique keys (`Obj`), insertion-ordered like JS objects.  `Array.prototype.sort`
with a comparator is modelled by a stable insertion sort (`sortBy`); modern JS
engines guarantee stability, and a comparator returning `NaN` is treated as a
tie (`0`) per the ECMAScript `SortCompare` specification.
-/

namespace TLO

open scoped List

/-- JS-object-as-map: association list, insertion ordered, keys kept unique by
construction through `objSet`. -/
abbrev Obj (α : Type) := List (String × α)

/-- Property read `m[k]`: `undefined` (here `none`) when the key is absent. -/
def objGet {α : Type} (m : Obj α) (k : String) : Option α :=
  List.lookup k m

/-- Property write `m[k] = v`: overwrites the value in place if the key exists
(JS objects keep the original key position), otherwise appends. -/
def objSet {α : Type} (m : Obj α) (k : String) (v : α) : Obj α :=
  if (List.lookup k m).isSome then
    m.map (fun e => if e.1 = k then (e.1, v) else e)
  else
    m ++ [(k, v)]

/-- In-place update of an existing entry (`m[k] -= 1`, `m[k].push(x)`, ...);
a no-op when the key is absent. -/
def objModify {α : Type} (m : Obj α) (k : String) (f : α → α) : Obj α :=
  m.map (fun e => if e.1 = k then (e.1, f e.2) else e)

/-- Code-point lexicographic comparison of character lists (the model of
`String.prototype.localeCompare`): `charListLe a b` iff `a` compares `≤ b`. -/
def charListLe : List Char → List Char → Bool
  | [], _ => true
  | _ :: _, [] => false
  | c :: cs, d :: ds =>
    if c.val.toNat < d.val.toNat then true
    else if d.val.toNat < c.val.toNat then false
    else charListLe cs ds

/-- `a.localeCompare(b) <= 0`, modelled as code-point lexicographic order. -/
def strLe (a b : String) : Bool := charListLe a.data b.data

/-- Stable insertion of `x` into `l`: `x` goes after every element `y` with
`le y x` (so later-arriving equal elements stay behind, as in a stable sort). -/
def insertBy {α : Type} (le : α → α → Bool) (x : α) : List α → List α
  | [] => [x]
  | y :: ys => if le y x then y :: insertBy le x ys else x :: y :: ys

/-- Stable sort modelling `Array.prototype.sort(comparator)`; `le a b` means
"the comparator allows `a` to precede `b`" (comparator value `≤ 0` or `NaN`). -/
def sortBy {α : Type} (le : α → α → Bool) (l : List α) : List α :=
  l.foldl (fun acc x => insertBy le x acc) []

/-! ### Data model (`src/lib/types.ts`) -/

/-- `Project` of `src/lib/types.ts` (`title` stands for all display-only
fields; `effort`/`value` are `number | null`). -/
structure Project where
  id : String
  teamId : String
  title : String
  effort : Option ℚ
  value : Option ℚ
deriving DecidableEq, Repr

/-- `Team` of `src/lib/types.ts`. -/
structure Team where
  id : String
  name : String
  capacity : ℚ
deriving DecidableEq, Repr

/-- `Dependency` of `src/lib/types.ts`: `sourceId` is a prerequisite of
`targetId`. -/
structure Dependency where
  sourceId : String
  targetId : String
deriving DecidableEq, Repr

/-- `TeamSummary` of `src/lib/types.ts`. -/
structure TeamSummary where
  allocated : ℚ
  value : ℚ
deriving DecidableEq, Repr

/-- The internal `OptimizationProject` interface of `src/lib/prioritization.ts`.
`team` is the team *name* produced by `teamIdToName[project.teamId]`, which is
`undefined` (`none`) when the team id is unknown. -/
structure OptimizationProject where
  id : String
  team : Option String
  value : ℚ
  effort : ℚ
  dependencies : List String
deriving DecidableEq, Repr

/-- A planner's return value `{ sequence, value }`. -/
structure PlanResult where
  sequence : List String
  value : ℚ
deriving DecidableEq, Repr

/-- `PrioritizationResult` of `src/lib/prioritization.ts`. -/
structure PrioritizationResult where
  selectedProjects : List Project
  unselectedProjects : List Project
  teamSummaries : Obj TeamSummary
deriving DecidableEq, Repr

/-- The id comparator `(a, b) => a.id.localeCompare(b.id)` as a Boolean
"may precede" test. -/
def idLeB (a b : OptimizationProject) : Bool := strLe a.id b.id

/-! ### Dependency graph utilities: `topologicalSort` (Kahn's algorithm) -/

/-- The dependent-update loop shared by `topologicalSort` and
`planProjectsNaive`: for each id in the neighbor list, decrement its indegree;
when it reaches exactly `0`, look the project up in `projs` and add it to the
ready/available list with `pushOp` (the two call sites differ only in whether
the list is re-sorted after the push). -/
def neighborsFold (projs : List OptimizationProject)
    (pushOp : List OptimizationProject → OptimizationProject → List OptimizationProject) :
    List String → Obj Int × List OptimizationProject → Obj Int × List OptimizationProject
  | [], st => st
  | nid :: rest, st =>
    let ind := objModify st.1 nid (fun v => v - 1)
    if objGet ind nid = some 0 then
      match projs.find? (fun p => p.id = nid) with
      | some np => neighborsFold projs pushOp rest (ind, pushOp st.2 np)
      | none => neighborsFold projs pushOp rest (ind, st.2)
    else neighborsFold projs pushOp rest (ind, st.2)

/-- One pass of the neighbor loop of Kahn's algorithm: push onto the ready
list and re-sort by id (`ready.sort((a, b) => a.id.localeCompare(b.id))`). -/
def kahnNeighbors (projs : List OptimizationProject) (neighbors : List String)
    (st : Obj Int × List OptimizationProject) : Obj Int × List OptimizationProject :=
  neighborsFold projs
    (fun acc x => sortBy idLeB (acc ++ [x])) neighbors st

/-- The `while (ready.length > 0)` loop of `topologicalSort`, with fuel for
structural termination; the fuel passed by `topologicalSort` strictly exceeds
the number of iterations of any run. -/
def kahnLoop (projs : List OptimizationProject) (adj : Obj (List String)) :
    Nat → Obj Int → List OptimizationProject → List OptimizationProject →
    List OptimizationProject
  | 0, _, _, acc => acc
  | _ + 1, _, [], acc => acc
  | fuel + 1, ind, cur :: rest, acc =>
    let st := kahnNeighbors projs ((objGet adj cur.id).getD []) (ind, rest)
    kahnLoop projs adj fuel st.1 st.2 (acc ++ [cur])

/-- The indegree map built by both `topologicalSort` and `planProjectsNaive`:
`indegree[proj.id] = proj.dependencies.length` for each project, in order
(a later project with the same id overwrites). -/
def indegree0 (projs : List OptimizationProject) : Obj Int :=
  projs.foldl (fun m p => objSet m p.id (p.dependencies.length : Int)) []

/-- The empty adjacency map `adjList[proj.id] = []`. -/
def adjInit (projs : List OptimizationProject) : Obj (List String) :=
  projs.foldl (fun m p => objSet m p.id ([] : List String)) []

/-- The adjacency build of `topologicalSort`: `adjList[dep].push(proj.id)`
for every dependency occurrence (every `dep` is a present project id there,
and `objModify` on an absent key is a no-op anyway). -/
def kahnAdjBuild (projs : List OptimizationProject) : Obj (List String) :=
  projs.foldl
    (fun m p => p.dependencies.foldl (fun m d => objModify m d (fun l => l ++ [p.id])) m)
    (adjInit projs)

/-- `topologicalSort` of `src/lib/prioritization.ts` (lines 24-84).  Each
project's dependency list is first filtered to ids present in the node set
(the source mutates `proj.dependencies`; here the returned projects carry the
filtered lists).  Kahn's algorithm then emits ready projects in ascending id
order. -/
def topologicalSort (projects : List OptimizationProject) : List OptimizationProject :=
  let projectIds := projects.map (·.id)
  let projs := projects.map (fun p =>
    { p with dependencies := p.dependencies.filter (fun d => projectIds.contains d) })
  let ready := sortBy idLeB
    (projs.filter (fun p => objGet (indegree0 projs) p.id = some 0))
  kahnLoop projs (kahnAdjBuild projs)
    (projs.length + (projs.map (·.dependencies.length)).sum + 1) (indegree0 projs) ready []

/-- Acyclicity of the dependency graph, stated as the existence of a
topological numbering: every dependency edge strictly decreases the rank.
For finite graphs this is the standard equivalent of "no dependency
cycle". -/
def DepAcyclic (projects : List OptimizationProject) : Prop :=
  ∃ rank : String → ℕ, ∀ p ∈ projects, ∀ d ∈ p.dependencies, rank d < rank p.id

/-! ### Exhaustive planner: `planProjectsBruteforce` -/

/-- The recursive include/exclude DFS of `planProjectsBruteforce`
(lines 104-142).  `best` is the `(bestValue, bestSelectedSet)` accumulator
(the source mutates closure variables; here it is threaded: the skip branch
runs first, the include branch continues from its result).  The capacity test
`remainingCap[proj.team] >= proj.effort` is false when the team name is
`undefined` or absent from the map. -/
def dfs : List OptimizationProject → ℚ → Obj ℚ → List String → ℚ × List String →
    ℚ × List String
  | [], currentValue, _, selected, best =>
    if best.1 < currentValue then (currentValue, selected) else best
  | proj :: rest, currentValue, remainingCap, selected, best =>
    if proj.dependencies.all (fun d => selected.contains d) then
      let best1 := dfs rest currentValue remainingCap selected best
      match proj.team with
      | some t =>
        match objGet remainingCap t with
        | some c =>
          if proj.effort ≤ c then
            dfs rest (currentValue + proj.value)
              (objModify remainingCap t (· - proj.effort))
              (selected ++ [proj.id]) best1
          else best1
        | none => best1
      | none => best1
    else
      dfs rest currentValue remainingCap selected best

/-- `planProjectsBruteforce` of `src/lib/prioritization.ts` (lines 91-153):
topologically sort, DFS over include/exclude decisions, return the best
selection in topological order together with its total value. -/
def planProjectsBruteforce (teamCapacities : Obj ℚ)
    (projects : List OptimizationProject) : PlanResult :=
  let topoOrder := topologicalSort projects
  let best := dfs topoOrder 0 teamCapacities [] (0, [])
  ⟨(topoOrder.filter (fun p => best.2.contains p.id)).map (·.id), best.1⟩

/-! ### Greedy-with-dependencies planner: `planProjectsNaive` -/

/-- JS extended numbers as produced by `value / effort`: finite, `±Infinity`
or `NaN`. -/
inductive ExtQ where
  | nan
  | ninf
  | fin (q : ℚ)
  | pinf
deriving DecidableEq, Repr

/-- JS division `v / e` (with `e` possibly `0`). -/
def jsDiv (v e : ℚ) : ExtQ :=
  if e = 0 then (if 0 < v then .pinf else if v < 0 then .ninf else .nan)
  else .fin (v / e)

/-- The `ratio` helper of `planProjectsNaive` (line 186). -/
def ratioOf (p : OptimizationProject) : ExtQ := jsDiv p.value p.effort

/-- Whether the comparator `(a, b) => ratio(b) - ratio(a)` allows `a` to
precede `b`: the difference is `≤ 0` or `NaN` (ECMAScript treats a `NaN`
comparator value as `0`). -/
def ratioLeB (ra rb : ExtQ) : Bool :=
  match ra, rb with
  | .nan, _ => true
  | _, .nan => true
  | .pinf, _ => true
  | .ninf, .ninf => true
  | .ninf, _ => false
  | .fin _, .pinf => false
  | .fin _, .ninf => true
  | .fin a, .fin b => b ≤ a

/-- The ratio comparator of the frontier sort,
`(a, b) => ratio(b) - ratio(a)`, as a Boolean "may precede" test. -/
def ratioCmp (a b : OptimizationProject) : Bool := ratioLeB (ratioOf a) (ratioOf b)

/-- The scan `for (const proj of available) if (remainingCap[proj.team] >=
proj.effort)`: first project of the (sorted) list whose team has enough
remaining capacity. -/
def pickFirstFitting (cap : Obj ℚ) : List OptimizationProject → Option OptimizationProject
  | [] => none
  | p :: rest =>
    match p.team with
    | some t =>
      match objGet cap t with
      | some c => if p.effort ≤ c then some p else pickFirstFitting cap rest
      | none => pickFirstFitting cap rest
    | none => pickFirstFitting cap rest

/-- The dependent-update loop after a selection in `planProjectsNaive`
(lines 210-217): decrement each dependent's indegree, appending the dependent
project to `available` when it reaches `0` (no re-sort here; the list is
re-sorted at the top of the main loop). -/
def naiveNeighbors (projs : List OptimizationProject) (neighbors : List String)
    (st : Obj Int × List OptimizationProject) : Obj Int × List OptimizationProject :=
  neighborsFold projs (fun acc x => acc ++ [x]) neighbors st

/-- The `while (true)` loop of `planProjectsNaive` (lines 188-219), fueled;
the fuel passed by `planProjectsNaive` strictly exceeds the number of
iterations of any run.  Each iteration sorts `available` by descending
value/effort ratio (in place, as in the source), picks the first project that
fits its team's remaining capacity, and updates capacities, the sequence and
the dependents' indegrees. -/
def naiveLoop (projs : List OptimizationProject) (adj : Obj (List String)) :
    Nat → Obj ℚ → Obj Int → List OptimizationProject → List String × ℚ →
    List String × ℚ
  | 0, _, _, _, acc => acc
  | fuel + 1, cap, ind, available, acc =>
    let sorted := sortBy ratioCmp available
    match pickFirstFitting cap sorted with
    | none => acc
    | some chosen =>
      let cap' := match chosen.team with
        | some t => objModify cap t (· - chosen.effort)
        | none => cap
      let remaining := sorted.filter (fun p => p.id ≠ chosen.id)
      let st := naiveNeighbors projs ((objGet adj chosen.id).getD []) (ind, remaining)
      naiveLoop projs adj fuel cap' st.1 st.2 (acc.1 ++ [chosen.id], acc.2 + chosen.value)

/-- The adjacency build of `planProjectsNaive`: `adjList[dep]?.push(proj.id)`
— the optional chaining makes the push a no-op for dependency ids that are
not project ids. -/
def naiveAdjBuild (projs : List OptimizationProject) : Obj (List String) :=
  projs.foldl
    (fun m p => p.dependencies.foldl
      (fun m d => if (objGet m d).isSome then objModify m d (fun l => l ++ [p.id]) else m) m)
    (adjInit projs)

/-- `planProjectsNaive` of `src/lib/prioritization.ts` (lines 160-222): greedy
selection by descending value/effort ratio over a frontier of
dependency-satisfied projects.  Indegrees count the *unfiltered* dependency
lists; the adjacency push `adjList[dep]?.push(...)` is a no-op for ids that
are not projects, so such dependencies never get decremented. -/
def planProjectsNaive (teamCapacities : Obj ℚ)
    (projects : List OptimizationProject) : PlanResult :=
  let available := projects.filter (fun p => objGet (indegree0 projects) p.id = some 0)
  let r := naiveLoop projects (naiveAdjBuild projects)
    (projects.length + (projects.map (·.dependencies.length)).sum + 1)
    teamCapacities (indegree0 projects) available ([], 0)
  ⟨r.1, r.2⟩

/-! ### Sequential planner: `planProjectsSequential` -/

/-- One iteration of the `while ((project = sortedProjects.shift()))` loop of
`planProjectsSequential`: take the project when its team's remaining capacity
covers its effort (`remainingCap[team] >= effort` is false for an unknown
team). -/
def seqStep (st : List OptimizationProject × Obj ℚ) (p : OptimizationProject) :
    List OptimizationProject × Obj ℚ :=
  match p.team with
  | some t =>
    match objGet st.2 t with
    | some c =>
      if p.effort ≤ c then (st.1 ++ [p], objModify st.2 t (· - p.effort)) else st
    | none => st
  | none => st

/-- `planProjectsSequential` of `src/lib/prioritization.ts` (lines 312-334):
sort by descending value (stable), then greedily take each project whose
team's remaining capacity covers its effort. -/
def planProjectsSequential (teamCapacities : Obj ℚ)
    (projects : List OptimizationProject) : PlanResult :=
  let sorted := sortBy (fun a b => decide (b.value ≤ a.value)) projects
  let st := sorted.foldl seqStep ([], teamCapacities)
  ⟨st.1.map (·.id), st.1.foldl (fun a p => a + p.value) 0⟩

/-! ### MIP planner: `planProjectsMIP` -/

/-- One `{ name, coef }` entry of a GLPK model. -/
structure LPTerm where
  name : String
  coef : ℚ
deriving DecidableEq, Repr

/-- One `subjectTo` row; every constraint the code emits is a `GLP_UP` bound
`sum ≤ ub`. -/
structure LPConstraint where
  name : String
  vars : List LPTerm
  ub : ℚ
deriving DecidableEq, Repr

/-- The GLPK model the code builds: maximize `objVars`, subject to
`constraints`, with `binaries` as 0/1 variables. -/
structure LPModel where
  objVars : List LPTerm
  constraints : List LPConstraint
  binaries : List String
deriving DecidableEq, Repr

/-- Solver status as the code distinguishes it: `GLP_OPT`, `GLP_FEAS`, or
anything else. -/
inductive SolverStatus where
  | opt
  | feas
  | other
deriving DecidableEq, Repr

/-- The solver's `result.result`: status, objective value `z`, and the
variable assignment. -/
structure SolverResult where
  status : SolverStatus
  z : ℚ
  vars : Obj ℚ
deriving DecidableEq, Repr

/-- The LP/MIP model construction of `planProjectsMIP` (lines 233-268):
objective coefficients are project values; one capacity constraint per entry
of `teamCapacities` (`sum of effort ≤ capacity`); one constraint
`x_target - x_source ≤ 0` per dependency. -/
def buildLPModel (teamCapacities : Obj ℚ)
    (projects : List OptimizationProject) : LPModel where
  objVars := projects.map (fun p => ⟨p.id, p.value⟩)
  constraints :=
    teamCapacities.map (fun tc =>
      ⟨"cap_" ++ tc.1,
       (projects.filter (fun p => p.team = some tc.1)).map (fun p => ⟨p.id, p.effort⟩),
       tc.2⟩)
    ++ projects.foldl
      (fun acc p => acc ++ p.dependencies.map (fun d =>
        ⟨"dep_" ++ p.id ++ "_requires_" ++ d, [⟨p.id, 1⟩, ⟨d, -1⟩], 0⟩))
      []
  binaries := projects.map (·.id)

/-- `Array.from(new Set(l))`: first occurrences, in order. -/
def jsSetDedup (l : List String) : List String :=
  l.foldl (fun acc x => if acc.contains x then acc else acc ++ [x]) []

/-- `planProjectsMIP` of `src/lib/prioritization.ts` (lines 224-310), with the
external GLPK solver abstracted as the function argument `solve`.  On an
optimal or feasible status the sequence is the deduplicated list of variables
assigned `1` and the value is the solver's `z`; on any other status the
result is exactly `planProjectsNaive` on the same inputs (the fallback). -/
def planProjectsMIP (solve : LPModel → SolverResult) (teamCapacities : Obj ℚ)
    (projects : List OptimizationProject) : PlanResult :=
  let result := solve (buildLPModel teamCapacities projects)
  if result.status = .opt ∨ result.status = .feas then
    ⟨jsSetDedup ((result.vars.filter (fun v => v.2 = 1)).map (·.1)), result.z⟩
  else
    planProjectsNaive teamCapacities projects

/-! ### Orchestrator: `prioritizeProjects` -/

/-- The planner mode union type `"naive" | "naive-deps" | "optimized"`. -/
inductive Mode where
  | naive
  | naiveDeps
  | optimized
deriving DecidableEq, Repr

/-- `Number(x)` with the subsequent `Number.isNaN(..) ? 0 : ..` guard:
`null` (and `NaN`) coerce to `0`. -/
def coerceNum (x : Option ℚ) : ℚ := x.getD 0

/-- The per-project coercion of `prioritizeProjects` (lines 342-350): replace
`effort`/`value` by their numeric coercions, keeping every other field. -/
def coerceProject (p : Project) : Project :=
  { p with effort := some (coerceNum p.effort), value := some (coerceNum p.value) }

/-- The `validProjects` filter (lines 360-366): effort and value set (always
true after coercion), effort ≥ 0, value > 0. -/
def isValidProject (p : Project) : Bool :=
  p.effort.isSome && p.value.isSome && decide (0 ≤ coerceNum p.effort)
    && decide (0 < coerceNum p.value)

/-- The `actionableProjectIds` filter (lines 368-377): effort and value set
(always true after coercion) and effort ≥ 0 — note: no `value > 0` test. -/
def isActionableIdProject (p : Project) : Bool :=
  p.effort.isSome && p.value.isSome && decide (0 ≤ coerceNum p.effort)

/-- The `teamCapacities` map (lines 380-386): team name ↦ capacity
(a later team with the same name overwrites the capacity). -/
def teamCapacitiesOf (teams : List Team) : Obj ℚ :=
  teams.foldl (fun m t => objSet m t.name t.capacity) []

/-- The `teamIdToName` map (lines 380-386). -/
def teamIdToNameOf (teams : List Team) : Obj String :=
  teams.foldl (fun m t => objSet m t.id t.name) []

/-- The `optimizationProjects` construction (lines 388-408): each valid
(coerced) project becomes an `OptimizationProject` whose dependency list keeps
exactly the incoming edges whose source passes the `actionableProjectIds`
test. -/
def optimizationProjectsOf (teams : List Team) (allProjects : List Project)
    (dependencies : List Dependency) : List OptimizationProject :=
  (allProjects.filter isValidProject).map (fun p =>
    { id := p.id
      team := objGet (teamIdToNameOf teams) p.teamId
      value := coerceNum p.value
      effort := coerceNum p.effort
      dependencies :=
        ((dependencies.filter (fun dep =>
          dep.targetId = p.id &&
          ((allProjects.filter isActionableIdProject).map (·.id)).contains
            dep.sourceId)).map (·.sourceId)) })

/-- The mode dispatch (lines 410-424); the `default: throw` branch is
unreachable for the closed mode type. -/
def runPlanner (solve : LPModel → SolverResult) (mode : Mode)
    (teamCapacities : Obj ℚ) (projects : List OptimizationProject) : PlanResult :=
  match mode with
  | .naive => planProjectsSequential teamCapacities projects
  | .naiveDeps => planProjectsNaive teamCapacities projects
  | .optimized => planProjectsMIP solve teamCapacities projects

/-- The reassembly of `selectedProjects` (lines 427-437): for each sequence id
in planner order, push the first (coerced) project with that id, skipping ids
that match no project. -/
def selectedProjectsOf (allProjects : List Project) (sequence : List String) :
    List Project :=
  sequence.foldl
    (fun acc pid =>
      match allProjects.find? (fun p => p.id = pid) with
      | some p => acc ++ [p]
      | none => acc)
    []

/-- The team-summary computation (lines 446-464): every team starts at
`{allocated: 0, value: 0}`; each selected project with set effort and value
(always true after coercion) adds to its team's entry when the team id is
known. -/
def teamSummariesOf (teams : List Team) (selectedProjects : List Project) :
    Obj TeamSummary :=
  selectedProjects.foldl
    (fun m p =>
      if p.effort.isSome && p.value.isSome then
        objModify m p.teamId
          (fun s => ⟨s.allocated + coerceNum p.effort, s.value + coerceNum p.value⟩)
      else m)
    (teams.foldl (fun m t => objSet m t.id ⟨0, 0⟩) [])

/-- `prioritizeProjects` of `src/lib/prioritization.ts` (lines 336-471), with
the external solver passed explicitly.  `Number(team.capacity)` is the
identity on the rational model of `number` capacities. -/
def prioritizeProjects (solve : LPModel → SolverResult) (mode : Mode)
    (inputProjects : List Project) (inputTeams : List Team)
    (dependencies : List Dependency) : PrioritizationResult :=
  let allProjects := inputProjects.map coerceProject
  let optimizationProjects := optimizationProjectsOf inputTeams allProjects dependencies
  let result := runPlanner solve mode (teamCapacitiesOf inputTeams) optimizationProjects
  let selectedProjects := selectedProjectsOf allProjects result.sequence
  { selectedProjects := selectedProjects
    unselectedProjects := allProjects.filter (fun p => !result.sequence.contains p.id)
    teamSummaries := teamSummariesOf inputTeams selectedProjects }

/-- A solver stub that always reports an unusable status, for concrete
evaluations of the non-optimized paths and of the fallback. -/
def dummySolve : LPModel → SolverResult := fun _ => ⟨.other, 0, []⟩

/-- Honesty of the external GLPK solver (what `glpk.js` guarantees): any
result reported optimal or feasible assigns each variable at most once,
assigns only the model's binary variables, gives each the value `0` or `1`,
and satisfies every `GLP_UP` row `sum ≤ ub` of the model. -/
def SolverFaithful (solve : LPModel → SolverResult) : Prop :=
  ∀ model : LPModel,
    (solve model).status = SolverStatus.opt ∨
      (solve model).status = SolverStatus.feas →
    ((solve model).vars.map Prod.fst).Nodup ∧
    (∀ v ∈ (solve model).vars, v.1 ∈ model.binaries ∧ (v.2 = 0 ∨ v.2 = 1)) ∧
    (∀ c ∈ model.constraints,
      (c.vars.map (fun term =>
        term.coef * ((objGet (solve model).vars term.name).getD 0))).sum ≤ c.ub)

/-! ## General lemmas about the embedding -/

theorem selectedProjectsOf_eq_filterMap (allProjects : List Project)
    (sequence : List String) :
    selectedProjectsOf allProjects sequence
      = sequence.filterMap (fun i => allProjects.find? (fun p => p.id = i)) := by
  suffices h : ∀ acc : List Project,
      sequence.foldl
        (fun acc pid =>
          match allProjects.find? (fun p => p.id = pid) with
          | some p => acc ++ [p]
          | none => acc) acc
      = acc ++ sequence.filterMap (fun i => allProjects.find? (fun p => p.id = i)) by
    simpa [selectedProjectsOf] using h []
  induction sequence with
  | nil => intro acc; simp
  | cons i is ih =>
    intro acc
    cases hfind : allProjects.find? (fun p => p.id = i) <;>
      simp [hfind, ih, List.filterMap_cons]

theorem mem_selectedProjectsOf {allProjects : List Project} {sequence : List String}
    {q : Project} :
    q ∈ selectedProjectsOf allProjects sequence
      ↔ ∃ i ∈ sequence, allProjects.find? (fun p => p.id = i) = some q := by
  simp [selectedProjectsOf_eq_filterMap, List.mem_filterMap]

theorem selectedProjectsOf_subset {allProjects : List Project} {sequence : List String}
    {q : Project} (hq : q ∈ selectedProjectsOf allProjects sequence) : q ∈ allProjects := by
  rcases mem_selectedProjectsOf.mp hq with ⟨i, _, hfind⟩
  exact List.mem_of_find?_eq_some hfind

theorem id_mem_sequence_of_mem_selectedProjectsOf {allProjects : List Project}
    {sequence : List String} {q : Project}
    (hq : q ∈ selectedProjectsOf allProjects sequence) : q.id ∈ sequence := by
  rcases mem_selectedProjectsOf.mp hq with ⟨i, hi, hfind⟩
  have h1 : q.id = i := by simpa using List.find?_some hfind
  rwa [h1]

theorem coerceProject_id (p : Project) : (coerceProject p).id = p.id := rfl

/-! ### Lemmas about `Obj` maps -/

theorem objGet_nil {α : Type} (k : String) : objGet ([] : Obj α) k = none := rfl

theorem lookup_cons' {α : Type} (a k' : String) (c : α) (rest : List (String × α)) :
    List.lookup k' ((a, c) :: rest) = if k' = a then some c else List.lookup k' rest := by
  rw [List.lookup_cons]
  by_cases h : k' = a
  · have hb : (k' == a) = true := beq_iff_eq.mpr h
    simp [hb, h]
  · have hb : (k' == a) = false := beq_eq_false_iff_ne.mpr h
    simp [hb, h]

theorem lookup_map_ite {α : Type} (g : α → α) (k : String) :
    ∀ (es : List (String × α)) (k' : String),
      List.lookup k' (es.map (fun e => if e.1 = k then (e.1, g e.2) else e))
        = if k' = k then (List.lookup k es).map g else List.lookup k' es := by
  intro es
  induction es with
  | nil => intro k'; by_cases h : k' = k <;> simp [h]
  | cons e es ih =>
    intro k'
    obtain ⟨a, b⟩ := e
    by_cases hak : a = k
    · subst hak
      by_cases hk' : k' = a
      · subst hk'
        simp [lookup_cons', ih]
      · simp [lookup_cons', hk', ih]
    · by_cases hk'a : k' = a
      · subst hk'a
        simp [lookup_cons', hak, Ne.symm hak, ih]
      · by_cases hk'k : k' = k
        · subst hk'k
          simp [lookup_cons', hak, hk'a, ih]
        · simp [lookup_cons', hak, hk'a, hk'k, ih]

theorem objGet_objModify {α : Type} (m : Obj α) (k : String) (f : α → α)
    (k' : String) :
    objGet (objModify m k f) k'
      = if k' = k then (objGet m k).map f else objGet m k' :=
  lookup_map_ite f k m k'

theorem objGet_objSet {α : Type} (m : Obj α) (k : String) (v : α) (k' : String) :
    objGet (objSet m k v) k' = if k' = k then some v else objGet m k' := by
  unfold objSet objGet
  split
  · rename_i hsome
    rw [show (fun (e : String × α) => if e.1 = k then (e.1, v) else e)
        = (fun (e : String × α) => if e.1 = k then (e.1, (fun _ => v) e.2) else e) from rfl]
    rw [lookup_map_ite (fun _ => v) k m k']
    by_cases hk' : k' = k
    · subst hk'
      rcases Option.isSome_iff_exists.mp hsome with ⟨w, hw⟩
      simp [hw]
    · simp [hk']
  · rename_i hnone
    have hn : List.lookup k m = none := by
      cases h : List.lookup k m
      · rfl
      · rw [h] at hnone; simp at hnone
    rw [List.lookup_append]
    by_cases hk' : k' = k
    · subst hk'
      simp [hn, lookup_cons']
    · cases h : List.lookup k' m <;> simp [h, lookup_cons', hk']

theorem objModify_keys {α : Type} (m : Obj α) (k : String) (f : α → α) :
    (objModify m k f).map Prod.fst = m.map Prod.fst := by
  unfold objModify
  induction m with
  | nil => rfl
  | cons e es ih =>
    by_cases hek : e.1 = k <;> simp_all

theorem objGet_isSome_iff_mem_keys {α : Type} (m : Obj α) (k : String) :
    (objGet m k).isSome ↔ k ∈ m.map Prod.fst := by
  induction m with
  | nil => simp [objGet]
  | cons e es ih =>
    obtain ⟨a, b⟩ := e
    by_cases hak : k = a
    · subst hak
      simp [objGet, lookup_cons']
    · simp only [objGet, lookup_cons', if_neg hak, List.map_cons, List.mem_cons]
      rw [show (List.lookup k es).isSome ↔ k ∈ es.map Prod.fst from ih]
      simp [hak]

theorem objGet_eq_none_iff {α : Type} (m : Obj α) (k : String) :
    objGet m k = none ↔ ¬ k ∈ m.map Prod.fst := by
  rw [← objGet_isSome_iff_mem_keys]
  cases objGet m k <;> simp

/-- Lookup in a map built by folding `objSet` over a list with pairwise
distinct keys: the first (unique) matching element wins, and absent keys fall
through to the initial map. -/
theorem objGet_foldl_objSet {γ β : Type} (key : γ → String) (val : γ → β)
    (k : String) :
    ∀ (l : List γ) (m₀ : Obj β), (l.map key).Nodup →
      objGet (l.foldl (fun m x => objSet m (key x) (val x)) m₀) k
        = match l.find? (fun x => key x = k) with
          | some x => some (val x)
          | none => objGet m₀ k := by
  intro l
  induction l with
  | nil => intro m₀ _; simp
  | cons x xs ih =>
    intro m₀ hnd
    have hnd' : (xs.map key).Nodup := (List.nodup_cons.mp (by simpa using hnd)).2
    have hkx : ∀ y ∈ xs, key y ≠ key x :=
      fun y hy h =>
        (List.nodup_cons.mp (by simpa using hnd)).1 (h ▸ List.mem_map_of_mem key hy)
    by_cases hxk : key x = k
    · subst hxk
      have hnone : xs.find? (fun y => key y = key x) = none :=
        List.find?_eq_none.mpr (fun y hy => by simpa using hkx y hy)
      have : ∀ m₁ : Obj β, objGet m₁ (key x) = some (val x) →
          objGet (xs.foldl (fun m y => objSet m (key y) (val y)) m₁) (key x)
            = some (val x) := by
        intro m₁ hm₁
        rw [ih m₁ hnd', hnone]
        exact hm₁
      simpa [List.find?_cons, hnone] using
        this (objSet m₀ (key x) (val x)) (by simp [objGet_objSet])
    · have hfind : (x :: xs).find? (fun y => key y = k)
          = xs.find? (fun y => key y = k) := by
        simp [List.find?_cons, hxk]
      have hstep : objGet ((x :: xs).foldl (fun m y => objSet m (key y) (val y)) m₀) k
          = match xs.find? (fun y => key y = k) with
            | some y => some (val y)
            | none => objGet (objSet m₀ (key x) (val x)) k := by
        rw [List.foldl_cons]
        exact ih _ hnd'
      rw [hstep, hfind]
      cases hf : xs.find? (fun y => key y = k)
      · simp only [objGet_objSet]
        rw [if_neg (fun h => hxk h.symm)]
      · rfl

/-! ### The string order used for tie-breaking -/

theorem charListLe_total (a b : List Char) : charListLe a b = true ∨ charListLe b a = true := by
  induction a generalizing b with
  | nil => left; cases b <;> rfl
  | cons c cs ih =>
    cases b with
    | nil => right; rfl
    | cons d ds =>
      rcases Nat.lt_trichotomy c.val.toNat d.val.toNat with h | h | h
      · left; simp [charListLe, h]
      · have hns : ¬ c.val.toNat < d.val.toNat := by omega
        have hns' : ¬ d.val.toNat < c.val.toNat := by omega
        rcases ih ds with hc | hc
        · left; simp [charListLe, hns, hns', hc]
        · right; simp [charListLe, hns, hns', h, hc]
      · right; simp [charListLe, h]

theorem charListLe_trans {a b c : List Char} (hab : charListLe a b = true)
    (hbc : charListLe b c = true) : charListLe a c = true := by
  induction a generalizing b c with
  | nil => cases c <;> rfl
  | cons x xs ih =>
    cases b with
    | nil => simp [charListLe] at hab
    | cons y ys =>
      cases c with
      | nil => simp [charListLe] at hbc
      | cons z zs =>
        by_cases hxy : x.val.toNat < y.val.toNat <;>
          by_cases hyz : y.val.toNat < z.val.toNat
        · simp [charListLe, show x.val.toNat < z.val.toNat by omega]
        · by_cases hzy : z.val.toNat < y.val.toNat
          · simp [charListLe, hyz, hzy] at hbc
          · have hyz' : y.val.toNat = z.val.toNat := by omega
            simp [charListLe, show x.val.toNat < z.val.toNat by omega]
        · by_cases hyx : y.val.toNat < x.val.toNat
          · simp [charListLe, hxy, hyx] at hab
          · have hxy' : x.val.toNat = y.val.toNat := by omega
            simp [charListLe, show x.val.toNat < z.val.toNat by omega]
        · by_cases hyx : y.val.toNat < x.val.toNat
          · simp [charListLe, hxy, hyx] at hab
          · by_cases hzy : z.val.toNat < y.val.toNat
            · simp [charListLe, hyz, hzy] at hbc
            · have h1 : x.val.toNat = y.val.toNat := by omega
              have h2 : y.val.toNat = z.val.toNat := by omega
              have hab' : charListLe xs ys = true := by
                simpa [charListLe, hxy, hyx] using hab
              have hbc' : charListLe ys zs = true := by
                simpa [charListLe, hyz, hzy] using hbc
              simp [charListLe, h1, h2, ih hab' hbc']

theorem charListLe_antisymm {a b : List Char} (hab : charListLe a b = true)
    (hba : charListLe b a = true) : a = b := by
  induction a generalizing b with
  | nil => cases b with
    | nil => rfl
    | cons d ds => simp [charListLe] at hba
  | cons c cs ih =>
    cases b with
    | nil => simp [charListLe] at hab
    | cons d ds =>
      by_cases hcd : c.val.toNat < d.val.toNat
      · simp [charListLe, hcd, show ¬ d.val.toNat < c.val.toNat by omega] at hba
      · by_cases hdc : d.val.toNat < c.val.toNat
        · simp [charListLe, hcd, hdc] at hab
        · have hv : c.val.toNat = d.val.toNat := by omega
          have hch : c = d := Char.ext (UInt32.ext hv)
          have hab' : charListLe cs ds = true := by simpa [charListLe, hcd, hdc] using hab
          have hba' : charListLe ds cs = true := by simpa [charListLe, hdc, hcd] using hba
          rw [hch, ih hab' hba']

theorem strLe_total (a b : String) : strLe a b = true ∨ strLe b a = true :=
  charListLe_total a.data b.data

theorem strLe_trans {a b c : String} (hab : strLe a b = true)
    (hbc : strLe b c = true) : strLe a c = true :=
  charListLe_trans hab hbc

theorem strLe_antisymm {a b : String} (hab : strLe a b = true)
    (hba : strLe b a = true) : a = b := by
  cases a; cases b
  simpa using congrArg String.mk (charListLe_antisymm hab hba)

/-! ### Lemmas about the stable sort -/

theorem insertBy_perm {α : Type} (le : α → α → Bool) (x : α) (l : List α) :
    insertBy le x l ~ x :: l := by
  induction l with
  | nil => rfl
  | cons y ys ih =>
    by_cases h : le y x = true
    · simp only [insertBy, h, if_true]
      exact (ih.cons y).trans (List.Perm.swap x y ys)
    · simp [insertBy, h]

theorem sortBy_perm {α : Type} (le : α → α → Bool) (l : List α) :
    sortBy le l ~ l := by
  suffices h : ∀ acc : List α, l.foldl (fun acc x => insertBy le x acc) acc ~ acc ++ l by
    simpa [sortBy] using h []
  induction l with
  | nil => intro acc; simp
  | cons x xs ih =>
    intro acc
    have h1 : xs.foldl (fun acc x => insertBy le x acc) (insertBy le x acc)
        ~ insertBy le x acc ++ xs := ih _
    have h2 : insertBy le x acc ++ xs ~ (x :: acc) ++ xs :=
      (insertBy_perm le x acc).append_right xs
    have h3 : (x :: acc) ++ xs ~ acc ++ x :: xs := List.perm_middle.symm
    exact (h1.trans h2).trans h3

theorem mem_sortBy {α : Type} {le : α → α → Bool} {l : List α} {a : α} :
    a ∈ sortBy le l ↔ a ∈ l :=
  (sortBy_perm le l).mem_iff

theorem insertBy_sorted {α : Type} {le : α → α → Bool} {u : List α}
    (htot : ∀ a ∈ u, ∀ b ∈ u, le a b = true ∨ le b a = true)
    (htrans : ∀ a ∈ u, ∀ b ∈ u, ∀ c ∈ u,
      le a b = true → le b c = true → le a c = true)
    {x : α} (hx : x ∈ u) :
    ∀ {acc : List α}, (∀ a ∈ acc, a ∈ u) →
      List.Pairwise (fun a b => le a b = true) acc →
      List.Pairwise (fun a b => le a b = true) (insertBy le x acc) := by
  intro acc
  induction acc with
  | nil => intro _ _; simp [insertBy]
  | cons y ys ih =>
    intro hsub hs
    have hy : y ∈ u := hsub y (by simp)
    have hys : ∀ a ∈ ys, a ∈ u := fun a ha => hsub a (by simp [ha])
    rcases List.pairwise_cons.mp hs with ⟨hyall, hsys⟩
    by_cases hle : le y x = true
    · simp only [insertBy, hle, if_true]
      refine List.pairwise_cons.mpr ⟨?_, ih hys hsys⟩
      intro b hb
      rcases List.mem_cons.mp ((insertBy_perm le x ys).mem_iff.mp hb) with rfl | hb'
      · exact hle
      · exact hyall b hb'
    · simp only [insertBy, hle, if_false]
      have hxy : le x y = true := by
        rcases htot x hx y hy with h | h
        · exact h
        · exact absurd h hle
      refine List.pairwise_cons.mpr ⟨?_, hs⟩
      intro b hb
      rcases List.mem_cons.mp hb with rfl | hb'
      · exact hxy
      · exact htrans x hx y hy b (hys b hb') hxy (hyall b hb')

theorem sortBy_sorted {α : Type} {le : α → α → Bool} {l : List α}
    (htot : ∀ a ∈ l, ∀ b ∈ l, le a b = true ∨ le b a = true)
    (htrans : ∀ a ∈ l, ∀ b ∈ l, ∀ c ∈ l,
      le a b = true → le b c = true → le a c = true) :
    List.Pairwise (fun a b => le a b = true) (sortBy le l) := by
  suffices h : ∀ (s : List α) (acc : List α), (∀ a ∈ s, a ∈ l) → (∀ a ∈ acc, a ∈ l) →
      List.Pairwise (fun a b => le a b = true) acc →
      List.Pairwise (fun a b => le a b = true)
        (s.foldl (fun acc x => insertBy le x acc) acc) by
    exact h l [] (fun _ ha => ha) (by simp) (by simp)
  intro s
  induction s with
  | nil => intro acc _ _ hs; exact hs
  | cons x xs ih =>
    intro acc hsub hacc hs
    refine ih (insertBy le x acc) (fun a ha => hsub a (by simp [ha])) ?_ ?_
    · intro a ha
      rcases List.mem_cons.mp ((insertBy_perm le x acc).mem_iff.mp ha) with rfl | ha'
      · exact hsub a (by simp)
      · exact hacc a ha'
    · exact insertBy_sorted htot htrans (hsub x (by simp)) hacc hs

/-! ### Nodup and permutation helpers -/

theorem inj_on_of_ids_nodup {α β : Type} [DecidableEq β] {l : List α} {f : α → β}
    (h : (l.map f).Nodup) : ∀ x ∈ l, ∀ y ∈ l, f x = f y → x = y :=
  fun _ hx _ hy hf => List.inj_on_of_nodup_map h hx hy hf

theorem perm_of_map_perm {α β : Type} [DecidableEq α] [DecidableEq β]
    {l P : List α} {f : α → β} (hP : (P.map f).Nodup)
    (hsub : ∀ a ∈ l, a ∈ P) (hids : l.map f ~ P.map f) : l ~ P := by
  have hlnd : (l.map f).Nodup := hids.nodup_iff.mpr hP
  have hlnodup : l.Nodup := List.Nodup.of_map f hlnd
  have hPnodup : P.Nodup := List.Nodup.of_map f hP
  refine List.perm_of_nodup_nodup_toFinset_eq hlnodup hPnodup ?_
  ext a
  simp only [List.mem_toFinset]
  constructor
  · exact hsub a
  · intro haP
    have : f a ∈ l.map f := hids.mem_iff.mpr (List.mem_map_of_mem f haP)
    rcases List.mem_map.mp this with ⟨b, hb, hfb⟩
    have : b = a := inj_on_of_ids_nodup hP b (hsub b hb) a haP hfb
    exact this ▸ hb

theorem find?_eq_some_of_mem_nodup {l : List OptimizationProject}
    {p : OptimizationProject} (hnd : (l.map (fun q => q.id)).Nodup)
    (hp : p ∈ l) : l.find? (fun q => q.id = p.id) = some p := by
  induction l with
  | nil => cases hp
  | cons x xs ih =>
    have hnd' := hnd
    rw [List.map_cons, List.nodup_cons] at hnd'
    rcases List.mem_cons.mp hp with rfl | hp'
    · simp [List.find?_cons]
    · have hne : x.id ≠ p.id :=
        fun h => hnd'.1 (h ▸ List.mem_map_of_mem (fun q => q.id) hp')
      simp [List.find?_cons, hne, ih hnd'.2 hp']

theorem find?_key_eq_some_of_mem_nodup {α β : Type} [DecidableEq β] {f : α → β}
    {l : List α} {x : α} (hnd : (l.map f).Nodup) (hx : x ∈ l) :
    l.find? (fun y => f y = f x) = some x := by
  induction l with
  | nil => cases hx
  | cons a as ih =>
    have hnd' := hnd
    rw [List.map_cons, List.nodup_cons] at hnd'
    rcases List.mem_cons.mp hx with rfl | hx'
    · simp [List.find?_cons]
    · have hne : f a ≠ f x := fun h => hnd'.1 (h ▸ List.mem_map_of_mem f hx')
      simp [List.find?_cons, hne, ih hnd'.2 hx']

/-! ### Capacity bookkeeping of the greedy planners -/

/-- Total effort of the projects of `σ` whose team name is `t`. -/
def sumEffortFor (σ : List OptimizationProject) (t : String) : ℚ :=
  ((σ.filter (fun p => p.team = some t)).map (fun p => p.effort)).sum

theorem sumEffortFor_nil (t : String) : sumEffortFor [] t = 0 := rfl

theorem sumEffortFor_append (σ τ : List OptimizationProject) (t : String) :
    sumEffortFor (σ ++ τ) t = sumEffortFor σ t + sumEffortFor τ t := by
  simp [sumEffortFor, List.filter_append]

theorem sumEffortFor_singleton (p : OptimizationProject) (t : String) :
    sumEffortFor [p] t = if p.team = some t then p.effort else 0 := by
  by_cases h : p.team = some t <;> simp [sumEffortFor, h]

/-- The remaining-capacity invariant shared by the greedy planners: the
evolving map is the original capacities minus the selected efforts, and each
team's budget was never overdrawn (unless untouched). -/
def CapInv (caps : Obj ℚ) (σ : List OptimizationProject) (cap : Obj ℚ) : Prop :=
  (∀ k, objGet cap k = (objGet caps k).map (fun c => c - sumEffortFor σ k)) ∧
  (∀ k c, objGet caps k = some c →
    (sumEffortFor σ k = 0 ∨ 0 ≤ c - sumEffortFor σ k))

theorem capInv_init (caps : Obj ℚ) : CapInv caps [] caps := by
  constructor
  · intro k
    cases objGet caps k <;> simp [sumEffortFor_nil]
  · intro k c _
    exact Or.inl (sumEffortFor_nil k)

/-- Selecting a fitting project preserves the capacity invariant. -/
theorem capInv_select {caps : Obj ℚ} {σ : List OptimizationProject} {cap : Obj ℚ}
    (hInv : CapInv caps σ cap) {p : OptimizationProject} {t : String} {c' : ℚ}
    (hteam : p.team = some t) (hc : objGet cap t = some c') (hfit : p.effort ≤ c') :
    CapInv caps (σ ++ [p]) (objModify cap t (fun x => x - p.effort)) := by
  obtain ⟨h1, h2⟩ := hInv
  constructor
  · intro k
    rw [objGet_objModify]
    by_cases hk : k = t
    · subst hk
      rw [h1 k, if_pos rfl]
      cases hck : objGet caps k
      · simp
      · simp [sumEffortFor_append, sumEffortFor_singleton, hteam,
          Option.map_map, Function.comp]
        ring_nf
    · rw [if_neg hk, h1 k]
      have : sumEffortFor (σ ++ [p]) k = sumEffortFor σ k := by
        rw [sumEffortFor_append, sumEffortFor_singleton]
        have : ¬ p.team = some k := by
          rw [hteam]
          exact fun h => hk (by injection h with h; exact h.symm) |>.elim
        simp [this]
      rw [this]
  · intro k c hck
    by_cases hk : k = t
    · subst hk
      right
      have hc' : c' = c - sumEffortFor σ k := by
        have := h1 k
        rw [hc, hck] at this
        simpa using this
      have : sumEffortFor (σ ++ [p]) k = sumEffortFor σ k + p.effort := by
        rw [sumEffortFor_append, sumEffortFor_singleton]
        simp [hteam]
      rw [this]
      have := hfit
      rw [hc'] at this
      linarith
    · have : sumEffortFor (σ ++ [p]) k = sumEffortFor σ k := by
        rw [sumEffortFor_append, sumEffortFor_singleton]
        have : ¬ p.team = some k := by
          rw [hteam]
          exact fun h => hk (by injection h with h; exact h.symm) |>.elim
        simp [this]
      rw [this]
      exact h2 k c hck

theorem capInv_team_isSome {caps : Obj ℚ} {σ : List OptimizationProject}
    {cap : Obj ℚ} (hInv : CapInv caps σ cap) {t : String} {c' : ℚ}
    (hc : objGet cap t = some c') : (objGet caps t).isSome := by
  have := hInv.1 t
  rw [hc] at this
  cases h : objGet caps t
  · rw [h] at this; simp at this
  · simp

/-- The sequential planner's fold preserves the capacity invariant, selects a
sublist of its input, and only ever selects projects whose team is a known
capacity key. -/
theorem seqFold_spec (caps : Obj ℚ) :
    ∀ (l σ₀ : List OptimizationProject) (cap₀ : Obj ℚ), CapInv caps σ₀ cap₀ →
      ∃ σ' : List OptimizationProject,
        (l.foldl seqStep (σ₀, cap₀)).1 = σ₀ ++ σ' ∧ σ'.Sublist l ∧
        (∀ q ∈ σ', ∃ t, q.team = some t ∧ (objGet caps t).isSome) ∧
        CapInv caps (σ₀ ++ σ') (l.foldl seqStep (σ₀, cap₀)).2 := by
  intro l
  induction l with
  | nil =>
    intro σ₀ cap₀ hInv
    exact ⟨[], by simp, List.Sublist.refl [], by simp, by simpa using hInv⟩
  | cons x xs ih =>
    intro σ₀ cap₀ hInv
    match hstep : seqStep (σ₀, cap₀) x with
    | (σ₁, cap₁) =>
      have hfold : (x :: xs).foldl seqStep (σ₀, cap₀) = xs.foldl seqStep (σ₁, cap₁) := by
        rw [List.foldl_cons, hstep]
      rcases hx : x.team with _ | t
      · have hid : seqStep (σ₀, cap₀) x = (σ₀, cap₀) := by simp [seqStep, hx]
        rw [hid] at hstep
        injection hstep with h1 h2
        subst h1; subst h2
        rcases ih σ₀ cap₀ hInv with ⟨σ', ha, hb, hc, hd⟩
        exact ⟨σ', by rw [hfold]; exact ha, hb.cons x, hc, by rw [hfold]; exact hd⟩
      · rcases hcap : objGet cap₀ t with _ | c'
        · have hid : seqStep (σ₀, cap₀) x = (σ₀, cap₀) := by simp [seqStep, hx, hcap]
          rw [hid] at hstep
          injection hstep with h1 h2
          subst h1; subst h2
          rcases ih σ₀ cap₀ hInv with ⟨σ', ha, hb, hc, hd⟩
          exact ⟨σ', by rw [hfold]; exact ha, hb.cons x, hc, by rw [hfold]; exact hd⟩
        · by_cases hfit : x.effort ≤ c'
          · have hid : seqStep (σ₀, cap₀) x
                = (σ₀ ++ [x], objModify cap₀ t (fun v => v - x.effort)) := by
              simp [seqStep, hx, hcap, hfit]
            rw [hid] at hstep
            injection hstep with h1 h2
            subst h1; subst h2
            have hInv' := capInv_select hInv hx hcap hfit
            rcases ih (σ₀ ++ [x]) _ hInv' with ⟨σ', ha, hb, hc, hd⟩
            refine ⟨x :: σ', ?_, hb.cons₂ x, ?_, ?_⟩
            · rw [hfold, ha, List.append_assoc]
              rfl
            · intro q hq
              rcases List.mem_cons.mp hq with rfl | hq'
              · exact ⟨t, hx, capInv_team_isSome hInv hcap⟩
              · exact hc q hq'
            · rw [hfold]
              have : σ₀ ++ x :: σ' = (σ₀ ++ [x]) ++ σ' := by
                rw [List.append_assoc]; rfl
              rw [this]
              exact hd
          · have hid : seqStep (σ₀, cap₀) x = (σ₀, cap₀) := by
              simp [seqStep, hx, hcap, hfit]
            rw [hid] at hstep
            injection hstep with h1 h2
            subst h1; subst h2
            rcases ih σ₀ cap₀ hInv with ⟨σ', ha, hb, hc, hd⟩
            exact ⟨σ', by rw [hfold]; exact ha, hb.cons x, hc, by rw [hfold]; exact hd⟩

/-! ### The dependent-update (neighbor) loops

`neighborsFold_spec` characterizes the shared decrement-and-push loop for any
push operation that appends up to permutation: indegree entries drop by the
number of occurrences in the neighbor list, and a project is pushed exactly
once iff its indegree entry lies between `1` and its occurrence count. -/

theorem neighborsFold_spec (P : List OptimizationProject)
    (hP : (P.map (fun q => q.id)).Nodup)
    (pushOp : List OptimizationProject → OptimizationProject → List OptimizationProject)
    (hpush : ∀ acc x, List.Perm (pushOp acc x) (acc ++ [x])) :
    ∀ (L : List String) (ind : Obj Int) (avail : List OptimizationProject),
      ∃ pushed : List OptimizationProject,
        (∀ k, objGet (neighborsFold P pushOp L (ind, avail)).1 k
          = (objGet ind k).map (fun v => v - (L.count k : Int)))
        ∧ List.Perm (neighborsFold P pushOp L (ind, avail)).2 (avail ++ pushed)
        ∧ (pushed.map (fun q => q.id)).Nodup
        ∧ (∀ q, q ∈ pushed ↔ q ∈ P ∧ ∃ m : Int,
            objGet ind q.id = some m ∧ 1 ≤ m ∧ m ≤ (L.count q.id : Int)) := by
  intro L
  induction L with
  | nil =>
    intro ind avail
    refine ⟨[], ?_, by simp [neighborsFold], by simp, ?_⟩
    · intro k
      cases h : objGet ind k <;> simp [neighborsFold, h]
    · intro q
      simp only [List.not_mem_nil, false_iff, not_and]
      intro _
      rintro ⟨m, _, h1, h2⟩
      simp only [List.count_nil, Nat.cast_zero] at h2
      omega
  | cons nid L' ih =>
    intro ind avail
    have hlk : ∀ k, objGet (objModify ind nid (fun v => v - 1)) k
        = if k = nid then (objGet ind nid).map (fun v => v - 1) else objGet ind k := by
      intro k
      rw [objGet_objModify]
    have hcount_self : ((nid :: L').count nid : Int) = (L'.count nid : Int) + 1 := by
      have : (nid :: L').count nid = L'.count nid + 1 := by simp [List.count_cons]
      rw [this]; push_cast; ring
    have hcount_ne : ∀ k, k ≠ nid → ((nid :: L').count k : Int) = (L'.count k : Int) := by
      intro k hk
      have : (nid :: L').count k = L'.count k := by simp [List.count_cons, Ne.symm hk]
      rw [this]
    by_cases hpc : objGet (objModify ind nid (fun v => v - 1)) nid = some 0
    · have hone : objGet ind nid = some 1 := by
        have h0 := hlk nid
        rw [if_pos rfl] at h0
        rw [h0] at hpc
        cases h : objGet ind nid
        · rw [h] at hpc; simp at hpc
        · rw [h] at hpc
          simp only [Option.map_some'] at hpc
          injection hpc with hv
          congr
          omega
      cases hfind : P.find? (fun p => p.id = nid) with
      | some np =>
        have hnp_mem : np ∈ P := List.mem_of_find?_eq_some hfind
        have hnp_id : np.id = nid := by simpa using List.find?_some hfind
        have hunf : neighborsFold P pushOp (nid :: L') (ind, avail)
            = neighborsFold P pushOp L'
                (objModify ind nid (fun v => v - 1),
                 pushOp avail np) := by
          simp [neighborsFold, hpc, hfind]
        rcases ih (objModify ind nid (fun v => v - 1)) (pushOp avail np) with
          ⟨pushed', hInd, hPerm, hNd, hMem⟩
        refine ⟨np :: pushed', ?_, ?_, ?_, ?_⟩
        · intro k
          rw [hunf, hInd k, hlk k]
          by_cases hk : k = nid
          · subst hk
            rw [if_pos rfl, hone, hcount_self]
            simp only [Option.map_some']
            congr 1
            ring
          · rw [if_neg hk, hcount_ne k hk]
        · rw [hunf]
          refine hPerm.trans ?_
          have h1 : List.Perm (pushOp avail np ++ pushed') ((avail ++ [np]) ++ pushed') :=
            (hpush avail np).append_right pushed'
          have h2 : (avail ++ [np]) ++ pushed' = avail ++ (np :: pushed') := by
            rw [List.append_assoc]; rfl
          rw [h2] at h1
          exact h1
        · have hnotin : ∀ q ∈ pushed', q.id ≠ nid := by
            intro q hq hqid
            rcases (hMem q).mp hq with ⟨_, m, hm, h1, _⟩
            rw [hqid] at hm
            rw [hpc] at hm
            injection hm with hm
            omega
          simp only [List.map_cons, List.nodup_cons]
          refine ⟨fun h => ?_, hNd⟩
          rcases List.mem_map.mp h with ⟨q, hq, hqid⟩
          exact hnotin q hq (by rw [hqid, hnp_id])
        · intro q
          simp only [List.mem_cons]
          constructor
          · rintro (rfl | hq)
            · refine ⟨hnp_mem, 1, ?_, le_refl 1, ?_⟩
              · rw [hnp_id]; exact hone
              · rw [hnp_id, hcount_self]
                have : (0 : Int) ≤ (L'.count nid : Int) := by positivity
                omega
            · rcases (hMem q).mp hq with ⟨hqP, m, hm, h1, h2⟩
              have hqnid : q.id ≠ nid := by
                intro hqid
                rw [hqid, hpc] at hm
                injection hm with hm
                omega
              refine ⟨hqP, m, ?_, h1, ?_⟩
              · have h0 := hlk q.id
                rw [if_neg hqnid] at h0
                rw [← h0]; exact hm
              · rw [hcount_ne q.id hqnid]; exact h2
          · rintro ⟨hqP, m, hm, h1, h2⟩
            by_cases hqnid : q.id = nid
            · left
              exact inj_on_of_ids_nodup hP q hqP np hnp_mem (by rw [hqnid, hnp_id])
            · right
              refine (hMem q).mpr ⟨hqP, m, ?_, h1, ?_⟩
              · have h0 := hlk q.id
                rw [if_neg hqnid] at h0
                rw [h0]; exact hm
              · rw [← hcount_ne q.id hqnid]; exact h2
      | none =>
        have hnone : ∀ x ∈ P, x.id ≠ nid := by
          intro x hx
          have := List.find?_eq_none.mp hfind x hx
          simpa using this
        have hunf : neighborsFold P pushOp (nid :: L') (ind, avail)
            = neighborsFold P pushOp L'
                (objModify ind nid (fun v => v - 1), avail) := by
          simp [neighborsFold, hpc, hfind]
        rcases ih (objModify ind nid (fun v => v - 1)) avail with
          ⟨pushed', hInd, hPerm, hNd, hMem⟩
        refine ⟨pushed', ?_, by rw [hunf]; exact hPerm, hNd, ?_⟩
        · intro k
          rw [hunf, hInd k, hlk k]
          by_cases hk : k = nid
          · subst hk
            rw [if_pos rfl, hone, hcount_self]
            simp only [Option.map_some']
            congr 1
            ring
          · rw [if_neg hk, hcount_ne k hk]
        · intro q
          rw [hMem q]
          constructor
          · rintro ⟨hqP, m, hm, h1, h2⟩
            have hqnid : q.id ≠ nid := hnone q hqP
            refine ⟨hqP, m, ?_, h1, ?_⟩
            · have h0 := hlk q.id
              rw [if_neg hqnid] at h0
              rw [← h0]; exact hm
            · rw [hcount_ne q.id hqnid]; exact h2
          · rintro ⟨hqP, m, hm, h1, h2⟩
            have hqnid : q.id ≠ nid := hnone q hqP
            refine ⟨hqP, m, ?_, h1, ?_⟩
            · have h0 := hlk q.id
              rw [if_neg hqnid] at h0
              rw [h0]; exact hm
            · rw [← hcount_ne q.id hqnid]; exact h2
    · have hunf : neighborsFold P pushOp (nid :: L') (ind, avail)
          = neighborsFold P pushOp L'
              (objModify ind nid (fun v => v - 1), avail) := by
        simp [neighborsFold, hpc]
      rcases ih (objModify ind nid (fun v => v - 1)) avail with
        ⟨pushed', hInd, hPerm, hNd, hMem⟩
      refine ⟨pushed', ?_, by rw [hunf]; exact hPerm, hNd, ?_⟩
      · intro k
        rw [hunf, hInd k, hlk k]
        by_cases hk : k = nid
        · rw [if_pos hk, hk, hcount_self]
          cases h : objGet ind nid
          · simp
          · simp only [Option.map_some']
            congr 1
            ring
        · rw [if_neg hk, hcount_ne k hk]
      · intro q
        rw [hMem q]
        by_cases hqnid : q.id = nid
        · rw [hqnid]
          have h0 := hlk nid
          rw [if_pos rfl] at h0
          cases h : objGet ind nid with
          | none =>
            rw [h] at h0
            simp only [Option.map_none'] at h0
            rw [h0]
            constructor
            · rintro ⟨_, m, hm, _, _⟩; cases hm
            · rintro ⟨_, m, hm, _, _⟩; cases hm
          | some m =>
            rw [h] at h0
            simp only [Option.map_some'] at h0
            have hm1 : m ≠ 1 := by
              intro hm1
              apply hpc
              rw [h0, hm1]
              norm_num
            rw [h0, hcount_self]
            constructor
            · rintro ⟨hqP, m', hm', h1, h2⟩
              injection hm' with hm'
              exact ⟨hqP, m, rfl, by omega, by omega⟩
            · rintro ⟨hqP, m', hm', h1, h2⟩
              injection hm' with hm'
              exact ⟨hqP, m - 1, rfl, by omega, by omega⟩
        · have h0 := hlk q.id
          rw [if_neg hqnid] at h0
          rw [h0, hcount_ne q.id hqnid]

/-! ### Adjacency characterization -/

/-- The contents of an adjacency entry at key `i`: each project contributes
its id once per occurrence of `i` in its dependency list, in project order. -/
def adjListFor (projs : List OptimizationProject) (i : String) : List String :=
  (projs.map (fun p => List.replicate (p.dependencies.count i) p.id)).flatten

theorem adjInner_lookup_guarded (pid : String) :
    ∀ (deps : List String) (m : Obj (List String)) (k : String),
      objGet (deps.foldl
        (fun m d => if (objGet m d).isSome then objModify m d (fun l => l ++ [pid]) else m)
        m) k
        = (objGet m k).map (fun l => l ++ List.replicate (deps.count k) pid) := by
  intro deps
  induction deps with
  | nil => intro m k; cases h : objGet m k <;> simp [h]
  | cons d ds ih =>
    intro m k
    simp only [List.foldl_cons]
    by_cases hsome : (objGet m d).isSome
    · rw [if_pos hsome, ih, objGet_objModify]
      by_cases hk : k = d
      · subst hk
        rw [if_pos rfl]
        have hcnt : (k :: ds).count k = ds.count k + 1 := by simp [List.count_cons]
        rw [hcnt]
        cases h : objGet m k
        · simp
        · simp [List.replicate_succ, List.append_assoc]
      · rw [if_neg hk]
        have hcnt : (d :: ds).count k = ds.count k := by
          simp [List.count_cons, Ne.symm hk]
        rw [hcnt]
    · rw [if_neg hsome, ih]
      by_cases hk : k = d
      · subst hk
        have hnone : objGet m k = none := by
          cases h : objGet m k
          · rfl
          · rw [h] at hsome; simp at hsome
        rw [hnone]
        simp
      · have hcnt : (d :: ds).count k = ds.count k := by
          simp [List.count_cons, Ne.symm hk]
        rw [hcnt]

theorem adjInner_lookup_plain (pid : String) :
    ∀ (deps : List String) (m : Obj (List String)) (k : String),
      objGet (deps.foldl (fun m d => objModify m d (fun l => l ++ [pid])) m) k
        = (objGet m k).map (fun l => l ++ List.replicate (deps.count k) pid) := by
  intro deps
  induction deps with
  | nil => intro m k; cases h : objGet m k <;> simp [h]
  | cons d ds ih =>
    intro m k
    simp only [List.foldl_cons]
    rw [ih, objGet_objModify]
    by_cases hk : k = d
    · subst hk
      rw [if_pos rfl]
      have hcnt : (k :: ds).count k = ds.count k + 1 := by simp [List.count_cons]
      rw [hcnt]
      cases h : objGet m k
      · simp
      · simp [List.replicate_succ, List.append_assoc]
    · rw [if_neg hk]
      have hcnt : (d :: ds).count k = ds.count k := by
        simp [List.count_cons, Ne.symm hk]
      rw [hcnt]

theorem adjOuter_lookup
    (innerApply : Obj (List String) → OptimizationProject → Obj (List String))
    (hinner : ∀ m p k, objGet (innerApply m p) k
      = (objGet m k).map (fun l => l ++ List.replicate (p.dependencies.count k) p.id)) :
    ∀ (projs : List OptimizationProject) (m : Obj (List String)) (k : String),
      objGet (projs.foldl innerApply m) k
        = (objGet m k).map (fun l => l ++ adjListFor projs k) := by
  intro projs
  induction projs with
  | nil =>
    intro m k
    cases h : objGet m k <;> simp [adjListFor, h]
  | cons p ps ih =>
    intro m k
    simp only [List.foldl_cons]
    rw [ih, hinner]
    have : adjListFor (p :: ps) k
        = List.replicate (p.dependencies.count k) p.id ++ adjListFor ps k := by
      simp [adjListFor]
    rw [this]
    cases h : objGet m k
    · simp
    · simp [List.append_assoc]

theorem naiveAdjBuild_lookup (projs : List OptimizationProject) (k : String) :
    objGet (naiveAdjBuild projs) k
      = (objGet (adjInit projs) k).map (fun l => l ++ adjListFor projs k) :=
  adjOuter_lookup _
    (fun m p k => adjInner_lookup_guarded p.id p.dependencies m k) projs (adjInit projs) k

theorem kahnAdjBuild_lookup (projs : List OptimizationProject) (k : String) :
    objGet (kahnAdjBuild projs) k
      = (objGet (adjInit projs) k).map (fun l => l ++ adjListFor projs k) :=
  adjOuter_lookup _
    (fun m p k => adjInner_lookup_plain p.id p.dependencies m k) projs (adjInit projs) k

theorem adjInit_lookup (projs : List OptimizationProject)
    (hP : (projs.map (fun q => q.id)).Nodup) (k : String) :
    objGet (adjInit projs) k
      = (projs.find? (fun p => p.id = k)).map (fun _ => ([] : List String)) := by
  unfold adjInit
  rw [objGet_foldl_objSet (fun p : OptimizationProject => p.id)
    (fun _ => ([] : List String)) k projs [] hP]
  cases h : projs.find? (fun p => p.id = k) <;> simp [h, objGet_nil]

theorem indegree0_lookup (projs : List OptimizationProject)
    (hP : (projs.map (fun q => q.id)).Nodup) (k : String) :
    objGet (indegree0 projs) k
      = (projs.find? (fun p => p.id = k)).map
          (fun p => (p.dependencies.length : Int)) := by
  unfold indegree0
  rw [objGet_foldl_objSet (fun p : OptimizationProject => p.id)
    (fun p => (p.dependencies.length : Int)) k projs [] hP]
  cases h : projs.find? (fun p => p.id = k) <;> simp [h, objGet_nil]

theorem filter_id_eq_singleton {P : List OptimizationProject}
    {q : OptimizationProject} (hP : (P.map (fun r => r.id)).Nodup) (hq : q ∈ P) :
    P.filter (fun p => p.id = q.id) = [q] := by
  induction P with
  | nil => cases hq
  | cons x xs ih =>
    have hnd' := hP
    rw [List.map_cons, List.nodup_cons] at hnd'
    rcases List.mem_cons.mp hq with rfl | hq'
    · have : xs.filter (fun p => p.id = q.id) = [] := by
        rw [List.filter_eq_nil_iff]
        intro r hr hrid
        exact hnd'.1 ((by simpa using hrid : r.id = q.id) ▸
          List.mem_map_of_mem (fun r => r.id) hr)
      simp [List.filter_cons, this]
    · have hne : x.id ≠ q.id :=
        fun h => hnd'.1 (h ▸ List.mem_map_of_mem (fun r => r.id) hq')
      simp [List.filter_cons, hne, ih hnd'.2 hq']

theorem count_adjListFor (projs : List OptimizationProject) (i j : String) :
    (adjListFor projs i).count j
      = ((projs.filter (fun p => p.id = j)).map
          (fun p => p.dependencies.count i)).sum := by
  induction projs with
  | nil => simp [adjListFor]
  | cons p ps ih =>
    have hsplit : adjListFor (p :: ps) i
        = List.replicate (p.dependencies.count i) p.id ++ adjListFor ps i := by
      simp [adjListFor]
    rw [hsplit, List.count_append]
    by_cases hp : p.id = j
    · subst hp
      simp [List.filter_cons, List.count_replicate, ih]
    · have hrep : (List.replicate (p.dependencies.count i) p.id).count j = 0 := by
        simp only [List.count_replicate]
        have hb : (p.id == j) = false := beq_eq_false_iff_ne.mpr hp
        rw [hb]
        simp
      simp [List.filter_cons, hp, hrep, ih]

theorem count_adjListFor_of_mem {P : List OptimizationProject}
    {q : OptimizationProject} (hP : (P.map (fun r => r.id)).Nodup) (hq : q ∈ P)
    (i : String) :
    (adjListFor P i).count q.id = q.dependencies.count i := by
  rw [count_adjListFor, filter_id_eq_singleton hP hq]
  simp

/-! ### The capacity-fit scan of `planProjectsNaive` -/

/-- The per-project test of the selection scan:
`remainingCap[proj.team] >= proj.effort`. -/
def FitsB (cap : Obj ℚ) (p : OptimizationProject) : Bool :=
  ((p.team.bind (objGet cap)).map (fun c => decide (p.effort ≤ c))).getD false

theorem pickFirstFitting_eq_find? (cap : Obj ℚ) :
    ∀ l : List OptimizationProject, pickFirstFitting cap l = l.find? (FitsB cap) := by
  intro l
  induction l with
  | nil => rfl
  | cons p rest ih =>
    rcases hteam : p.team with _ | t
    · simp [pickFirstFitting, List.find?_cons, FitsB, hteam, ih]
    · rcases hc : objGet cap t with _ | c
      · simp [pickFirstFitting, List.find?_cons, FitsB, hteam, hc, ih]
      · by_cases hf : p.effort ≤ c
        · simp [pickFirstFitting, List.find?_cons, FitsB, hteam, hc, hf]
        · simp [pickFirstFitting, List.find?_cons, FitsB, hteam, hc, hf, ih]

theorem find?_some_split {α : Type} {p : α → Bool} :
    ∀ {l : List α} {a : α}, l.find? p = some a →
      ∃ l1 l2, l = l1 ++ a :: l2 ∧ (∀ x ∈ l1, p x = false) ∧ p a = true := by
  intro l
  induction l with
  | nil => intro a h; cases h
  | cons x xs ih =>
    intro a h
    cases hx : p x
    · rw [List.find?_cons, hx] at h
      rcases ih h with ⟨l1, l2, hsplit, hall, hpa⟩
      exact ⟨x :: l1, l2, by rw [hsplit]; rfl, by
        intro y hy
        rcases List.mem_cons.mp hy with rfl | hy'
        · exact hx
        · exact hall y hy', hpa⟩
    · rw [List.find?_cons, hx] at h
      injection h with h
      subst h
      exact ⟨[], xs, rfl, by simp, hx⟩

theorem fitsB_true_elim {cap : Obj ℚ} {p : OptimizationProject}
    (h : FitsB cap p = true) :
    ∃ t c, p.team = some t ∧ objGet cap t = some c ∧ p.effort ≤ c := by
  unfold FitsB at h
  rcases hteam : p.team with _ | t
  · rw [hteam] at h
    simp at h
  · rw [hteam] at h
    rcases hc : objGet cap t with _ | c
    · rw [Option.some_bind, hc] at h
      simp at h
    · rw [Option.some_bind, hc] at h
      refine ⟨t, c, rfl, hc, by simpa using h⟩

/-! ### Counting unsatisfied dependencies -/

theorem filter_notmem_length_split (s : List String) (c : String)
    (hc : c ∉ s) :
    ∀ l : List String,
    (l.filter (fun d => ¬ d ∈ s)).length
      = (l.filter (fun d => ¬ d ∈ s ++ [c])).length + l.count c := by
  have hfne : ¬ (false = true) := by simp
  intro l
  induction l with
  | nil => simp
  | cons d ds ih =>
    rw [List.filter_cons, List.filter_cons, List.count_cons]
    by_cases hds : d ∈ s
    · have hb1 : (decide (¬ d ∈ s)) = false := by simp [hds]
      have hb2 : (decide (¬ d ∈ s ++ [c])) = false := by simp [hds]
      have hbc : (d == c) = false := beq_eq_false_iff_ne.mpr (fun h => hc (h ▸ hds))
      rw [hb1, hb2, hbc]
      rw [if_neg hfne, if_neg hfne]
      simp only [if_neg hfne]
      omega
    · by_cases hdc : d = c
      · have hb1 : (decide (¬ d ∈ s)) = true := by simp [hds]
        have hb2 : (decide (¬ d ∈ s ++ [c])) = false := by simp [hdc]
        have hbc : (d == c) = true := beq_iff_eq.mpr hdc
        rw [hb1, hb2, hbc]
        rw [if_pos rfl, if_neg hfne, if_pos rfl]
        simp only [List.length_cons]
        omega
      · have hb1 : (decide (¬ d ∈ s)) = true := by simp [hds]
        have hb2 : (decide (¬ d ∈ s ++ [c])) = true := by simp [hds, hdc]
        have hbc : (d == c) = false := beq_eq_false_iff_ne.mpr hdc
        rw [hb1, hb2, hbc]
        rw [if_pos rfl, if_pos rfl, if_neg hfne]
        simp only [List.length_cons]
        omega

theorem count_le_filter_notmem (l : List String) (s : List String) (c : String)
    (hc : c ∉ s) :
    l.count c ≤ (l.filter (fun d => ¬ d ∈ s)).length := by
  have h1 : (l.filter (fun d => ¬ d ∈ s)).count c = l.count c :=
    List.count_filter (by simpa using hc)
  rw [← h1]
  exact List.count_le_length c _

theorem filter_notmem_eq_count_iff (l : List String) (s : List String) (c : String)
    (hc : c ∉ s) :
    (l.filter (fun d => ¬ d ∈ s)).length = l.count c
      ↔ ∀ d ∈ l, ¬ d ∈ s → d = c := by
  constructor
  · intro h d hd hds
    have h1 : (l.filter (fun d => ¬ d ∈ s)).count c = l.count c :=
      List.count_filter (by simpa using hc)
    have h2 : (l.filter (fun d => ¬ d ∈ s)).count c
        = (l.filter (fun d => ¬ d ∈ s)).length := by rw [h1, h]
    have h3 := List.count_eq_length.mp h2
    have hdf : d ∈ l.filter (fun d => ¬ d ∈ s) :=
      List.mem_filter.mpr ⟨hd, by simpa using hds⟩
    exact (h3 d hdf).symm
  · intro h
    have hall : ∀ b ∈ l.filter (fun d => ¬ d ∈ s), c = b := by
      intro b hb
      rcases List.mem_filter.mp hb with ⟨hbl, hbs⟩
      exact (h b hbl (by simpa using hbs)).symm
    have h2 := List.count_eq_length.mpr hall
    rw [← h2]
    exact List.count_filter (by simpa using hc)

/-! ### The invariant of the greedy-with-dependencies loop -/

/-- The state invariant of `naiveLoop`: `σ` is the list of selected projects
in selection order. -/
structure NaiveInv (caps : Obj ℚ) (P σ : List OptimizationProject)
    (cap : Obj ℚ) (ind : Obj Int) (avail : List OptimizationProject) : Prop where
  selMem : ∀ q ∈ σ, q ∈ P
  selNodup : (σ.map (fun r => r.id)).Nodup
  indUnsel : ∀ q ∈ P, ¬ q.id ∈ σ.map (fun r => r.id) →
    objGet ind q.id
      = some (((q.dependencies.filter
          (fun d => ¬ d ∈ σ.map (fun r => r.id))).length : Int))
  indSel : ∀ q ∈ P, q.id ∈ σ.map (fun r => r.id) → objGet ind q.id = some 0
  availNodup : (avail.map (fun r => r.id)).Nodup
  availMem : ∀ q, q ∈ avail ↔ q ∈ P ∧ ¬ q.id ∈ σ.map (fun r => r.id) ∧
    ∀ d ∈ q.dependencies, d ∈ σ.map (fun r => r.id)
  capInv : CapInv caps σ cap
  selTeams : ∀ q ∈ σ, ∃ t, q.team = some t ∧ (objGet caps t).isSome
  selClosure : ∀ q ∈ σ, ∀ d ∈ q.dependencies, d ∈ σ.map (fun r => r.id)

theorem naiveInv_init (caps : Obj ℚ) (P : List OptimizationProject)
    (hP : (P.map (fun r => r.id)).Nodup) :
    NaiveInv caps P [] caps (indegree0 P)
      (P.filter (fun p => objGet (indegree0 P) p.id = some 0)) := by
  have hind : ∀ q ∈ P, objGet (indegree0 P) q.id
      = some ((q.dependencies.length : Int)) := by
    intro q hq
    rw [indegree0_lookup P hP q.id, find?_key_eq_some_of_mem_nodup hP hq]
    rfl
  refine ⟨?_, ?_, ?_, ?_, ?_, ?_, capInv_init caps, ?_, ?_⟩
  · intro q hq; cases hq
  · simp
  · intro q hq _
    rw [hind q hq]
    congr 2
    rw [List.filter_eq_self.mpr]
    intro d _
    simp
  · intro q _ hq
    simp at hq
  · exact ((List.filter_sublist P).map (fun r => r.id)).nodup hP
  · intro q
    constructor
    · intro hq
      rcases List.mem_filter.mp hq with ⟨hqP, hq0⟩
      have hq0' : objGet (indegree0 P) q.id = some 0 := by simpa using hq0
      rw [hind q hqP] at hq0'
      have hlen : q.dependencies.length = 0 := by
        injection hq0' with h
        exact_mod_cast h
      refine ⟨hqP, by simp, ?_⟩
      intro d hd
      rw [List.length_eq_zero.mp hlen] at hd
      cases hd
    · rintro ⟨hqP, _, hdeps⟩
      refine List.mem_filter.mpr ⟨hqP, ?_⟩
      have hlen : q.dependencies = [] := by
        cases hdep : q.dependencies with
        | nil => rfl
        | cons d ds =>
          have := hdeps d (by rw [hdep]; simp)
          simp at this
      rw [hind q hqP, hlen]
      simp
  · intro q hq; cases hq
  · intro q hq; cases hq

/-- One selection step of `naiveLoop` preserves the invariant. -/
theorem naiveStep_spec {caps : Obj ℚ} {P : List OptimizationProject}
    (hP : (P.map (fun r => r.id)).Nodup) {adj : Obj (List String)}
    (hadj : ∀ i ∈ P.map (fun r => r.id), ∀ q ∈ P,
      ((objGet adj i).getD []).count q.id = q.dependencies.count i)
    {σ : List OptimizationProject} {cap : Obj ℚ} {ind : Obj Int}
    {avail : List OptimizationProject}
    (inv : NaiveInv caps P σ cap ind avail) {chosen : OptimizationProject}
    (hpick : pickFirstFitting cap (sortBy ratioCmp avail) = some chosen) :
    ∃ t, chosen.team = some t ∧ chosen ∈ avail ∧
      NaiveInv caps P (σ ++ [chosen])
        (objModify cap t (fun v => v - chosen.effort))
        (naiveNeighbors P ((objGet adj chosen.id).getD [])
          (ind, (sortBy ratioCmp avail).filter (fun p => p.id ≠ chosen.id))).1
        (naiveNeighbors P ((objGet adj chosen.id).getD [])
          (ind, (sortBy ratioCmp avail).filter (fun p => p.id ≠ chosen.id))).2 := by
  rw [pickFirstFitting_eq_find?] at hpick
  have hchosen_sorted : chosen ∈ sortBy ratioCmp avail := by
    rcases find?_some_split hpick with ⟨l1, l2, hsplit, _, _⟩
    rw [hsplit]
    exact List.mem_append.mpr (Or.inr (by simp))
  have hfit : FitsB cap chosen = true := List.find?_some hpick
  have hchosen_avail : chosen ∈ avail := mem_sortBy.mp hchosen_sorted
  obtain ⟨hcP, hcUnsel, hcDeps⟩ := (inv.availMem chosen).mp hchosen_avail
  obtain ⟨t, c, hteam, hcapt, heff⟩ := fitsB_true_elim hfit
  refine ⟨t, hteam, hchosen_avail, ?_⟩
  simp only [naiveNeighbors]
  have hcid_notin : chosen.id ∉ σ.map (fun r => r.id) := hcUnsel
  set L := (objGet adj chosen.id).getD [] with hL
  have hLcount : ∀ q ∈ P, L.count q.id = q.dependencies.count chosen.id :=
    fun q hq => hadj chosen.id (List.mem_map_of_mem (fun r => r.id) hcP) q hq
  set remaining := (sortBy ratioCmp avail).filter (fun p => p.id ≠ chosen.id) with hrem
  have hremMem : ∀ q, q ∈ remaining ↔ q ∈ avail ∧ ¬ q.id = chosen.id := by
    intro q
    rw [hrem, List.mem_filter, mem_sortBy]
    simp
  have hremNodup : (remaining.map (fun r => r.id)).Nodup := by
    have h1 : List.Perm ((sortBy ratioCmp avail).map (fun r => r.id))
        (avail.map (fun r => r.id)) := (sortBy_perm ratioCmp avail).map _
    have h2 : ((sortBy ratioCmp avail).map (fun r => r.id)).Nodup :=
      h1.nodup_iff.mpr inv.availNodup
    have h3 : remaining.Sublist (sortBy ratioCmp avail) := by
      rw [hrem]
      exact List.filter_sublist _
    exact (h3.map (fun r => r.id)).nodup h2
  obtain ⟨pushed, hInd, hPerm, hpushNd, hpushMem⟩ :=
    neighborsFold_spec P hP (fun acc x => acc ++ [x])
      (fun acc x => List.Perm.refl _) L ind remaining
  have hQeq : ∀ q1 ∈ P, ∀ q2 ∈ P, q1.id = q2.id → q1 = q2 :=
    inj_on_of_ids_nodup hP
  have hmemσ : ∀ q ∈ P, q.id ∈ σ.map (fun r => r.id) → ∀ d ∈ q.dependencies, d ∈ σ.map (fun r => r.id) := by
    intro q hq hqid
    rcases List.mem_map.mp hqid with ⟨q0, hq0, hq0id⟩
    have : q0 = q := hQeq q0 (inv.selMem q0 hq0) q hq hq0id
    subst this
    exact inv.selClosure q0 hq0
  have hcnt0 : ∀ q ∈ P, (∀ d ∈ q.dependencies, d ∈ σ.map (fun r => r.id)) →
      q.dependencies.count chosen.id = 0 := by
    intro q _ hdeps
    by_contra hne
    have : chosen.id ∈ q.dependencies :=
      List.count_pos_iff.mp (Nat.pos_of_ne_zero hne)
    exact hcid_notin (hdeps chosen.id this)
  have hfilter0 : ∀ q : OptimizationProject, (∀ d ∈ q.dependencies, d ∈ σ.map (fun r => r.id)) →
      (q.dependencies.filter (fun d => ¬ d ∈ σ.map (fun r => r.id))).length = 0 := by
    intro q hdeps
    rw [List.length_eq_zero, List.filter_eq_nil_iff]
    intro d hd
    simp [hdeps d hd]
  -- semantic characterization of the pushed projects
  have hpushSem : ∀ q, q ∈ pushed ↔ q ∈ P ∧ ¬ q.id ∈ σ.map (fun r => r.id) ∧ ¬ q.id = chosen.id ∧
      (∀ d ∈ q.dependencies, ¬ d ∈ σ.map (fun r => r.id) → d = chosen.id) ∧
      (∃ d ∈ q.dependencies, ¬ d ∈ σ.map (fun r => r.id)) := by
    intro q
    rw [hpushMem q]
    constructor
    · rintro ⟨hqP, m, hm, h1, h2⟩
      have hqUnsel : ¬ q.id ∈ σ.map (fun r => r.id) := by
        intro hin
        rw [inv.indSel q hqP hin] at hm
        injection hm with hm
        omega
      have hmval : m = ((q.dependencies.filter (fun d => ¬ d ∈ σ.map (fun r => r.id))).length : Int) := by
        rw [inv.indUnsel q hqP hqUnsel] at hm
        injection hm with hm
        omega
      rw [hLcount q hqP] at h2
      have hge := count_le_filter_notmem q.dependencies (σ.map (fun r => r.id)) chosen.id hcid_notin
      have hlen_eq : (q.dependencies.filter (fun d => ¬ d ∈ σ.map (fun r => r.id))).length
          = q.dependencies.count chosen.id := by omega
      have hqne : ¬ q.id = chosen.id := by
        intro hqid
        have : q = chosen := hQeq q hqP chosen hcP hqid
        subst this
        have h0 := hfilter0 q hcDeps
        omega
      refine ⟨hqP, hqUnsel, hqne,
        (filter_notmem_eq_count_iff q.dependencies (σ.map (fun r => r.id)) chosen.id hcid_notin).mp
          hlen_eq, ?_⟩
      have hpos : 0 < (q.dependencies.filter (fun d => ¬ d ∈ σ.map (fun r => r.id))).length := by omega
      rcases List.exists_mem_of_length_pos hpos with ⟨d, hd⟩
      rcases List.mem_filter.mp hd with ⟨hdl, hds⟩
      exact ⟨d, hdl, by simpa using hds⟩
    · rintro ⟨hqP, hqUnsel, hqne, hAll, d, hd, hdUnsat⟩
      refine ⟨hqP, ((q.dependencies.filter (fun d => ¬ d ∈ σ.map (fun r => r.id))).length : Int),
        inv.indUnsel q hqP hqUnsel, ?_, ?_⟩
      · have : d ∈ q.dependencies.filter (fun d => ¬ d ∈ σ.map (fun r => r.id)) :=
          List.mem_filter.mpr ⟨hd, by simpa using hdUnsat⟩
        have := List.length_pos_of_mem this
        omega
      · rw [hLcount q hqP]
        have := (filter_notmem_eq_count_iff q.dependencies (σ.map (fun r => r.id)) chosen.id
          hcid_notin).mpr hAll
        omega
  have hσ'ids : (σ ++ [chosen]).map (fun r => r.id) = σ.map (fun r => r.id) ++ [chosen.id] := by
    rw [List.map_append]
    rfl
  refine ⟨?_, ?_, ?_, ?_, ?_, ?_, ?_, ?_, ?_⟩
  · intro q hq
    rcases List.mem_append.mp hq with hq | hq
    · exact inv.selMem q hq
    · rw [List.mem_singleton.mp hq]; exact hcP
  · rw [hσ'ids]
    have hperm : List.Perm (σ.map (fun r => r.id) ++ [chosen.id]) (chosen.id :: σ.map (fun r => r.id)) :=
      List.perm_append_singleton chosen.id (σ.map (fun r => r.id))
    rw [hperm.nodup_iff]
    exact List.nodup_cons.mpr ⟨hcid_notin, inv.selNodup⟩
  · intro q hqP hqUnsel
    rw [hσ'ids] at hqUnsel
    have hq1 : ¬ q.id ∈ σ.map (fun r => r.id) := fun h => hqUnsel (List.mem_append.mpr (Or.inl h))
    have hq2 : ¬ q.id = chosen.id := fun h => hqUnsel (List.mem_append.mpr (Or.inr (by simp [h])))
    rw [hInd q.id, inv.indUnsel q hqP hq1, hLcount q hqP]
    simp only [Option.map_some']
    rw [hσ'ids]
    have hsplit := filter_notmem_length_split (σ.map (fun r => r.id)) chosen.id hcid_notin q.dependencies
    congr 1
    omega
  · intro q hqP hqSel
    rw [hσ'ids] at hqSel
    rw [hInd q.id]
    rcases List.mem_append.mp hqSel with hin | hin
    · rw [inv.indSel q hqP hin, hLcount q hqP,
        hcnt0 q hqP (hmemσ q hqP hin)]
      simp
    · have hqc : q.id = chosen.id := by simpa using hin
      have hq_eq : q = chosen := hQeq q hqP chosen hcP hqc
      subst hq_eq
      rw [inv.indUnsel q hqP hcUnsel, hLcount q hqP, hcnt0 q hqP hcDeps,
        hfilter0 q hcDeps]
      simp
  · have hmap : List.Perm
        ((neighborsFold P (fun acc x => acc ++ [x]) L (ind, remaining)).2.map
          (fun r => r.id))
        ((remaining ++ pushed).map (fun r => r.id)) := hPerm.map _
    rw [hmap.nodup_iff, List.map_append, List.nodup_append]
    refine ⟨hremNodup, hpushNd, ?_⟩
    intro a ha hapush
    rcases List.mem_map.mp ha with ⟨q1, hq1, rfl⟩
    rcases List.mem_map.mp hapush with ⟨q2, hq2, hq2id⟩
    rcases (hremMem q1).mp hq1 with ⟨hq1avail, _⟩
    rcases (inv.availMem q1).mp hq1avail with ⟨hq1P, _, hq1deps⟩
    rcases (hpushSem q2).mp hq2 with ⟨hq2P, _, _, _, d, hd, hdUnsat⟩
    have : q2 = q1 := hQeq q2 hq2P q1 hq1P hq2id
    subst this
    exact hdUnsat (hq1deps d hd)
  · intro q
    rw [hPerm.mem_iff, List.mem_append, hσ'ids]
    constructor
    · rintro (hq | hq)
      · rcases (hremMem q).mp hq with ⟨hqavail, hqne⟩
        rcases (inv.availMem q).mp hqavail with ⟨hqP, hqUnsel, hqdeps⟩
        refine ⟨hqP, ?_, ?_⟩
        · intro h
          rcases List.mem_append.mp h with h | h
          · exact hqUnsel h
          · exact hqne (by simpa using h)
        · intro d hd
          exact List.mem_append.mpr (Or.inl (hqdeps d hd))
      · rcases (hpushSem q).mp hq with ⟨hqP, hqUnsel, hqne, hAll, _⟩
        refine ⟨hqP, ?_, ?_⟩
        · intro h
          rcases List.mem_append.mp h with h | h
          · exact hqUnsel h
          · exact hqne (by simpa using h)
        · intro d hd
          by_cases hds : d ∈ σ.map (fun r => r.id)
          · exact List.mem_append.mpr (Or.inl hds)
          · exact List.mem_append.mpr (Or.inr (by simp [hAll d hd hds]))
    · rintro ⟨hqP, hqUnsel, hqdeps⟩
      have hq1 : ¬ q.id ∈ σ.map (fun r => r.id) := fun h => hqUnsel (List.mem_append.mpr (Or.inl h))
      have hq2 : ¬ q.id = chosen.id :=
        fun h => hqUnsel (List.mem_append.mpr (Or.inr (by simp [h])))
      by_cases hall : ∀ d ∈ q.dependencies, d ∈ σ.map (fun r => r.id)
      · left
        refine (hremMem q).mpr ⟨(inv.availMem q).mpr ⟨hqP, hq1, hall⟩, hq2⟩
      · right
        push_neg at hall
        rcases hall with ⟨d, hd, hdUnsat⟩
        refine (hpushSem q).mpr ⟨hqP, hq1, hq2, ?_, d, hd, hdUnsat⟩
        intro d' hd' hd'Unsat
        rcases List.mem_append.mp (hqdeps d' hd') with h | h
        · exact absurd h hd'Unsat
        · simpa using h
  · exact capInv_select inv.capInv hteam hcapt heff
  · intro q hq
    rcases List.mem_append.mp hq with hq | hq
    · exact inv.selTeams q hq
    · rw [List.mem_singleton.mp hq]
      exact ⟨t, hteam, capInv_team_isSome inv.capInv hcapt⟩
  · intro q hq d hd
    rw [hσ'ids]
    rcases List.mem_append.mp hq with hq | hq
    · exact List.mem_append.mpr (Or.inl (inv.selClosure q hq d hd))
    · rw [List.mem_singleton.mp hq] at hd
      exact List.mem_append.mpr (Or.inl (hcDeps d hd))

/-- The greedy loop, run with enough fuel from an invariant state, ends in an
invariant state in which no available project fits, having extended the
selection. -/
theorem naiveLoop_spec {caps : Obj ℚ} {P : List OptimizationProject}
    (hP : (P.map (fun r => r.id)).Nodup) {adj : Obj (List String)}
    (hadj : ∀ i ∈ P.map (fun r => r.id), ∀ q ∈ P,
      ((objGet adj i).getD []).count q.id = q.dependencies.count i) :
    ∀ (fuel : ℕ) (σ : List OptimizationProject) (cap : Obj ℚ) (ind : Obj Int)
      (avail : List OptimizationProject) (v : ℚ),
      NaiveInv caps P σ cap ind avail →
      P.length + 1 ≤ fuel + σ.length →
      ∃ (σfin : List OptimizationProject) (capfin : Obj ℚ) (indfin : Obj Int)
        (availfin : List OptimizationProject),
        (naiveLoop P adj fuel cap ind avail (σ.map (fun r => r.id), v)).1
          = σfin.map (fun r => r.id) ∧
        (∃ σadd, σfin = σ ++ σadd) ∧
        NaiveInv caps P σfin capfin indfin availfin ∧
        pickFirstFitting capfin (sortBy ratioCmp availfin) = none := by
  intro fuel
  induction fuel with
  | zero =>
    intro σ cap ind avail v inv hfuel
    exfalso
    have hsub : (σ.map (fun r => r.id)) ⊆ (P.map (fun r => r.id)) := by
      intro a ha
      rcases List.mem_map.mp ha with ⟨q, hq, rfl⟩
      exact List.mem_map_of_mem _ (inv.selMem q hq)
    have hlen := (List.subperm_of_subset inv.selNodup hsub).length_le
    simp only [List.length_map] at hlen
    omega
  | succ fuel ih =>
    intro σ cap ind avail v inv hfuel
    cases hpick : pickFirstFitting cap (sortBy ratioCmp avail) with
    | none =>
      refine ⟨σ, cap, ind, avail, ?_, ⟨[], by simp⟩, inv, hpick⟩
      simp [naiveLoop, hpick]
    | some chosen =>
      obtain ⟨t, hteam, hchosen_avail, inv'⟩ := naiveStep_spec hP hadj inv hpick
      have hunf : naiveLoop P adj (fuel + 1) cap ind avail (σ.map (fun r => r.id), v)
          = naiveLoop P adj fuel
              (objModify cap t (fun x => x - chosen.effort))
              (naiveNeighbors P ((objGet adj chosen.id).getD [])
                (ind, (sortBy ratioCmp avail).filter (fun p => p.id ≠ chosen.id))).1
              (naiveNeighbors P ((objGet adj chosen.id).getD [])
                (ind, (sortBy ratioCmp avail).filter (fun p => p.id ≠ chosen.id))).2
              ((σ.map (fun r => r.id)) ++ [chosen.id], v + chosen.value) := by
        simp [naiveLoop, hpick, hteam]
      have hmap : (σ.map (fun r => r.id)) ++ [chosen.id]
          = (σ ++ [chosen]).map (fun r => r.id) := by
        rw [List.map_append]
        rfl
      have hfuel' : P.length + 1 ≤ fuel + (σ ++ [chosen]).length := by
        rw [List.length_append, List.length_singleton]
        omega
      rcases ih (σ ++ [chosen])
          (objModify cap t (fun x => x - chosen.effort))
          (naiveNeighbors P ((objGet adj chosen.id).getD [])
            (ind, (sortBy ratioCmp avail).filter (fun p => p.id ≠ chosen.id))).1
          (naiveNeighbors P ((objGet adj chosen.id).getD [])
            (ind, (sortBy ratioCmp avail).filter (fun p => p.id ≠ chosen.id))).2
          (v + chosen.value) inv' hfuel' with
        ⟨σfin, capfin, indfin, availfin, h1, ⟨σadd, h2⟩, h3, h4⟩
      refine ⟨σfin, capfin, indfin, availfin, ?_, ⟨chosen :: σadd, ?_⟩, h3, h4⟩
      · rw [hunf, hmap]
        exact h1
      · rw [h2, List.append_assoc]
        rfl

theorem naiveAdjBuild_count (P : List OptimizationProject)
    (hP : (P.map (fun r => r.id)).Nodup) :
    ∀ i ∈ P.map (fun r => r.id), ∀ q ∈ P,
      ((objGet (naiveAdjBuild P) i).getD []).count q.id = q.dependencies.count i := by
  intro i hi q hq
  rcases List.mem_map.mp hi with ⟨p, hp, rfl⟩
  have h1 : objGet (adjInit P) p.id = some [] := by
    rw [adjInit_lookup P hP, find?_key_eq_some_of_mem_nodup hP hp]
    rfl
  have h2 : objGet (naiveAdjBuild P) p.id = some (adjListFor P p.id) := by
    rw [naiveAdjBuild_lookup, h1]
    rfl
  rw [h2]
  exact count_adjListFor_of_mem hP hq p.id

/-- Summary of a full `planProjectsNaive` run: the sequence lists the ids of a
set of selected input projects, without duplicates, closed under (present)
dependencies, with known teams, within capacities; and at the end no
still-available project fits its team's remaining capacity. -/
theorem planProjectsNaive_spec (caps : Obj ℚ) (P : List OptimizationProject)
    (hP : (P.map (fun r => r.id)).Nodup) :
    ∃ (σfin : List OptimizationProject) (capfin : Obj ℚ),
      (planProjectsNaive caps P).sequence = σfin.map (fun r => r.id) ∧
      (∀ q ∈ σfin, q ∈ P) ∧
      (σfin.map (fun r => r.id)).Nodup ∧
      (∀ q ∈ σfin, ∀ d ∈ q.dependencies, d ∈ σfin.map (fun r => r.id)) ∧
      (∀ q ∈ σfin, ∃ t, q.team = some t ∧ (objGet caps t).isSome) ∧
      CapInv caps σfin capfin ∧
      (∀ q ∈ P, ¬ q.id ∈ σfin.map (fun r => r.id) →
        (∀ d ∈ q.dependencies, d ∈ σfin.map (fun r => r.id)) →
        FitsB capfin q = false) := by
  have hfuel : P.length + 1
      ≤ (P.length + (P.map (fun r => r.dependencies.length)).sum + 1)
        + ([] : List OptimizationProject).length := by
    simp
  rcases naiveLoop_spec hP (naiveAdjBuild_count P hP)
      (P.length + (P.map (fun r => r.dependencies.length)).sum + 1)
      [] caps (indegree0 P)
      (P.filter (fun p => objGet (indegree0 P) p.id = some 0)) 0
      (naiveInv_init caps P hP) hfuel with
    ⟨σfin, capfin, indfin, availfin, h1, _, inv, hpick⟩
  refine ⟨σfin, capfin, ?_, inv.selMem, inv.selNodup, inv.selClosure,
    inv.selTeams, inv.capInv, ?_⟩
  · exact h1
  · intro q hqP hqUnsel hqDeps
    have hqAvail : q ∈ availfin := (inv.availMem q).mpr ⟨hqP, hqUnsel, hqDeps⟩
    have hqSorted : q ∈ sortBy ratioCmp availfin := mem_sortBy.mpr hqAvail
    rw [pickFirstFitting_eq_find?] at hpick
    have := List.find?_eq_none.mp hpick q hqSorted
    simpa using this

/-! ### Ratio-order facts for the zero-effort analysis -/

theorem ratioLeB_total (a b : ExtQ) : ratioLeB a b = true ∨ ratioLeB b a = true := by
  cases a <;> cases b <;> simp [ratioLeB]
  exact le_total _ _

theorem ratioCmp_total (a b : OptimizationProject) :
    ratioCmp a b = true ∨ ratioCmp b a = true := ratioLeB_total _ _

theorem ratioOf_pos_val (p : OptimizationProject) (hv : 0 < p.value) :
    ratioOf p = ExtQ.pinf ∨ ∃ q : ℚ, ratioOf p = ExtQ.fin q := by
  unfold ratioOf jsDiv
  by_cases he : p.effort = 0
  · left; simp [he, hv]
  · right; exact ⟨p.value / p.effort, by simp [he]⟩

theorem ratioCmp_trans_of_pos {a b c : OptimizationProject} (ha : 0 < a.value)
    (hb : 0 < b.value) (hc : 0 < c.value) (hab : ratioCmp a b = true)
    (hbc : ratioCmp b c = true) : ratioCmp a c = true := by
  unfold ratioCmp at *
  rcases ratioOf_pos_val a ha with hra | ⟨ra, hra⟩
  · rw [hra]
    cases ratioOf c <;> simp [ratioLeB]
  · rcases ratioOf_pos_val b hb with hrb | ⟨rb, hrb⟩
    · rw [hra, hrb] at hab
      simp [ratioLeB] at hab
    · rcases ratioOf_pos_val c hc with hrc | ⟨rc, hrc⟩
      · rw [hrb, hrc] at hbc
        simp [ratioLeB] at hbc
      · rw [hra, hrb] at hab
        rw [hrb, hrc] at hbc
        rw [hra, hrc]
        simp only [ratioLeB] at *
        have h1 : rb ≤ ra := by simpa using hab
        have h2 : rc ≤ rb := by simpa using hbc
        simpa using le_trans h2 h1

theorem ratioOf_pinf_of {p : OptimizationProject} (hv : 0 < p.value)
    (he : p.effort = 0) : ratioOf p = ExtQ.pinf := by
  simp [ratioOf, jsDiv, he, hv]

theorem effort_zero_of_ratioLeB_pinf {x : OptimizationProject}
    (h : ratioLeB (ratioOf x) ExtQ.pinf = true) : x.effort = 0 := by
  by_contra hne
  have : ratioOf x = ExtQ.fin (x.value / x.effort) := by
    simp [ratioOf, jsDiv, hne]
  rw [this] at h
  simp [ratioLeB] at h

theorem sumEffortFor_zero {σ : List OptimizationProject}
    (h : ∀ q ∈ σ, q.effort = 0) (t : String) : sumEffortFor σ t = 0 := by
  unfold sumEffortFor
  apply List.sum_eq_zero
  intro x hx
  rcases List.mem_map.mp hx with ⟨q, hq, rfl⟩
  exact h q (List.mem_of_mem_filter hq)

theorem fits_of_zero_effort {caps cap : Obj ℚ} {σ : List OptimizationProject}
    (hcap : CapInv caps σ cap) (hσ0 : ∀ q ∈ σ, q.effort = 0)
    {p : OptimizationProject} {t : String} {c : ℚ} (hpt : p.team = some t)
    (hct : objGet caps t = some c) (hc0 : 0 ≤ c) (hpe : p.effort = 0) :
    FitsB cap p = true := by
  have h1 : objGet cap t = some c := by
    rw [hcap.1 t, hct, sumEffortFor_zero hσ0]
    simp
  unfold FitsB
  rw [hpt, Option.some_bind, h1]
  simp [hpe, hc0]

/-- While a dependency-free, zero-effort, positive-value project whose team
has non-negative capacity remains unselected, every project the greedy loop
selects has effort `0`, and the loop does select it in the end. -/
theorem naiveLoop_zero_effort_first {caps : Obj ℚ} {P : List OptimizationProject}
    (hP : (P.map (fun r => r.id)).Nodup) {adj : Obj (List String)}
    (hadj : ∀ i ∈ P.map (fun r => r.id), ∀ q ∈ P,
      ((objGet adj i).getD []).count q.id = q.dependencies.count i)
    (hval : ∀ q ∈ P, 0 < q.value)
    {p : OptimizationProject} (hpP : p ∈ P) (hpe : p.effort = 0)
    (hpdeps : p.dependencies = []) {t : String} {c : ℚ} (hpt : p.team = some t)
    (hct : objGet caps t = some c) (hc0 : 0 ≤ c) :
    ∀ (fuel : ℕ) (σ : List OptimizationProject) (cap : Obj ℚ) (ind : Obj Int)
      (avail : List OptimizationProject) (v : ℚ),
      NaiveInv caps P σ cap ind avail →
      P.length + 1 ≤ fuel + σ.length →
      ¬ p.id ∈ σ.map (fun r => r.id) →
      (∀ q ∈ σ, q.effort = 0) →
      ∃ σadd : List OptimizationProject,
        (naiveLoop P adj fuel cap ind avail (σ.map (fun r => r.id), v)).1
          = (σ ++ σadd).map (fun r => r.id) ∧
        p.id ∈ σadd.map (fun r => r.id) ∧
        (∀ q ∈ σadd.takeWhile (fun q => q.id ≠ p.id), q.effort = 0) ∧
        (∀ q ∈ σadd, q ∈ P) := by
  intro fuel
  induction fuel with
  | zero =>
    intro σ cap ind avail v inv hfuel _ _
    exfalso
    have hsub : (σ.map (fun r => r.id)) ⊆ (P.map (fun r => r.id)) := by
      intro a ha
      rcases List.mem_map.mp ha with ⟨q, hq, rfl⟩
      exact List.mem_map_of_mem _ (inv.selMem q hq)
    have hlen := (List.subperm_of_subset inv.selNodup hsub).length_le
    simp only [List.length_map] at hlen
    omega
  | succ fuel ih =>
    intro σ cap ind avail v inv hfuel hpUnsel hσ0
    have hpAvail : p ∈ avail := by
      refine (inv.availMem p).mpr ⟨hpP, hpUnsel, ?_⟩
      rw [hpdeps]
      intro d hd
      cases hd
    have hpFits : FitsB cap p = true :=
      fits_of_zero_effort inv.capInv hσ0 hpt hct hc0 hpe
    cases hpick : pickFirstFitting cap (sortBy ratioCmp avail) with
    | none =>
      exfalso
      rw [pickFirstFitting_eq_find?] at hpick
      have := List.find?_eq_none.mp hpick p (mem_sortBy.mpr hpAvail)
      rw [hpFits] at this
      exact this rfl
    | some chosen =>
      obtain ⟨tc, hteamc, hchosen_avail, inv'⟩ := naiveStep_spec hP hadj inv hpick
      have hchosenP : chosen ∈ P := ((inv.availMem chosen).mp hchosen_avail).1
      have hunf : naiveLoop P adj (fuel + 1) cap ind avail (σ.map (fun r => r.id), v)
          = naiveLoop P adj fuel
              (objModify cap tc (fun x => x - chosen.effort))
              (naiveNeighbors P ((objGet adj chosen.id).getD [])
                (ind, (sortBy ratioCmp avail).filter (fun q => q.id ≠ chosen.id))).1
              (naiveNeighbors P ((objGet adj chosen.id).getD [])
                (ind, (sortBy ratioCmp avail).filter (fun q => q.id ≠ chosen.id))).2
              ((σ.map (fun r => r.id)) ++ [chosen.id], v + chosen.value) := by
        simp [naiveLoop, hpick, hteamc]
      have hmapσ : (σ.map (fun r => r.id)) ++ [chosen.id]
          = (σ ++ [chosen]).map (fun r => r.id) := by
        rw [List.map_append]
        rfl
      have hfuel' : P.length + 1 ≤ fuel + (σ ++ [chosen]).length := by
        rw [List.length_append, List.length_singleton]
        omega
      by_cases hcp : chosen.id = p.id
      · -- the zero-effort project itself is selected: run the loop to its end
        rcases naiveLoop_spec hP hadj fuel (σ ++ [chosen])
            (objModify cap tc (fun x => x - chosen.effort))
            (naiveNeighbors P ((objGet adj chosen.id).getD [])
              (ind, (sortBy ratioCmp avail).filter (fun q => q.id ≠ chosen.id))).1
            (naiveNeighbors P ((objGet adj chosen.id).getD [])
              (ind, (sortBy ratioCmp avail).filter (fun q => q.id ≠ chosen.id))).2
            (v + chosen.value) inv' hfuel' with
          ⟨σfin, capfin, indfin, availfin, h1, ⟨σrest, h2⟩, invfin, _⟩
        refine ⟨chosen :: σrest, ?_, ?_, ?_, ?_⟩
        · rw [hunf, hmapσ, h1, h2, List.append_assoc]
          rfl
        · exact List.mem_map.mpr ⟨chosen, by simp, hcp⟩
        · intro q hq
          have : (chosen :: σrest).takeWhile (fun q => q.id ≠ p.id) = [] := by
            rw [List.takeWhile_cons]
            simp [hcp]
          rw [this] at hq
          cases hq
        · intro q hq
          rcases List.mem_cons.mp hq with rfl | hq'
          · exact hchosenP
          · have : q ∈ σfin := by
              rw [h2]
              exact List.mem_append.mpr (Or.inr hq')
            exact invfin.selMem q this
      · -- a different project was taken first: it must itself have effort 0
        have hchosen0 : chosen.effort = 0 := by
          rw [pickFirstFitting_eq_find?] at hpick
          rcases find?_some_split hpick with ⟨l1, l2, hsplit, hl1, _⟩
          have hsorted : List.Pairwise (fun a b => ratioCmp a b = true)
              (sortBy ratioCmp avail) := by
            apply sortBy_sorted
            · intro a _ b _
              exact ratioCmp_total a b
            · intro a ha b hb c' hc'
              have haP := ((inv.availMem a).mp ha).1
              have hbP := ((inv.availMem b).mp hb).1
              have hcP' := ((inv.availMem c').mp hc').1
              exact ratioCmp_trans_of_pos (hval a haP) (hval b hbP) (hval c' hcP')
          have hpsorted : p ∈ sortBy ratioCmp avail := mem_sortBy.mpr hpAvail
          have hpl2 : p ∈ l2 := by
            rw [hsplit] at hpsorted
            rcases List.mem_append.mp hpsorted with h | h
            · exact absurd hpFits (by simp [hl1 p h])
            · rcases List.mem_cons.mp h with h | h
              · exact absurd (congrArg (fun r => r.id) h).symm hcp
              · exact h
          have hrel : ratioCmp chosen p = true := by
            rw [hsplit] at hsorted
            have := (List.pairwise_append.mp hsorted).2.1
            exact (List.pairwise_cons.mp this).1 p hpl2
          have hppinf : ratioOf p = ExtQ.pinf := ratioOf_pinf_of (hval p hpP) hpe
          unfold ratioCmp at hrel
          rw [hppinf] at hrel
          exact effort_zero_of_ratioLeB_pinf hrel
        have hpUnsel' : ¬ p.id ∈ (σ ++ [chosen]).map (fun r => r.id) := by
          rw [List.map_append]
          intro h
          rcases List.mem_append.mp h with h | h
          · exact hpUnsel h
          · have hpc : p.id = chosen.id := by simpa using h
            exact hcp hpc.symm
        have hσ0' : ∀ q ∈ σ ++ [chosen], q.effort = 0 := by
          intro q hq
          rcases List.mem_append.mp hq with hq | hq
          · exact hσ0 q hq
          · rw [List.mem_singleton.mp hq]
            exact hchosen0
        rcases ih (σ ++ [chosen])
            (objModify cap tc (fun x => x - chosen.effort))
            (naiveNeighbors P ((objGet adj chosen.id).getD [])
              (ind, (sortBy ratioCmp avail).filter (fun q => q.id ≠ chosen.id))).1
            (naiveNeighbors P ((objGet adj chosen.id).getD [])
              (ind, (sortBy ratioCmp avail).filter (fun q => q.id ≠ chosen.id))).2
            (v + chosen.value) inv' hfuel' hpUnsel' hσ0' with
          ⟨σadd, h1, h2, h3, h4⟩
        refine ⟨chosen :: σadd, ?_, ?_, ?_, ?_⟩
        · rw [hunf, hmapσ, h1, List.append_assoc]
          rfl
        · exact List.mem_cons.mpr (Or.inr h2)
        · intro q hq
          rw [List.takeWhile_cons] at hq
          have hcne : (chosen.id ≠ p.id) = True := by simp [hcp]
          rw [if_pos (by simp [hcp])] at hq
          rcases List.mem_cons.mp hq with rfl | hq'
          · exact hchosen0
          · exact h3 q hq'
        · intro q hq
          rcases List.mem_cons.mp hq with rfl | hq'
          · exact hchosenP
          · exact h4 q hq'

theorem dropWhile_head_false {α : Type} (p : α → Bool) :
    ∀ (l : List α) {x : α} {xs : List α}, l.dropWhile p = x :: xs → p x = false := by
  intro l
  induction l with
  | nil => intro x xs h; cases h
  | cons a as ih =>
    intro x xs h
    rw [List.dropWhile_cons] at h
    by_cases hpa : p a = true
    · rw [if_pos hpa] at h
      exact ih h
    · rw [if_neg hpa] at h
      cases h
      exact eq_false_of_ne_true hpa

/-- Planner-level zero-effort-first property: if `p` has effort `0`,
positive value, no dependencies and a team with non-negative capacity, the
naive planner's sequence contains `p.id` and every earlier id belongs to a
project of effort `0`. -/
theorem planProjectsNaive_zero_effort_first (caps : Obj ℚ)
    (P : List OptimizationProject) (hP : (P.map (fun r => r.id)).Nodup)
    (hval : ∀ q ∈ P, 0 < q.value)
    {p : OptimizationProject} (hpP : p ∈ P) (hpe : p.effort = 0)
    (hpdeps : p.dependencies = []) {t : String} {c : ℚ} (hpt : p.team = some t)
    (hct : objGet caps t = some c) (hc0 : 0 ≤ c) :
    ∃ ids1 ids2, (planProjectsNaive caps P).sequence = ids1 ++ p.id :: ids2 ∧
      ∀ i ∈ ids1, ∃ q ∈ P, q.id = i ∧ q.effort = 0 := by
  rcases naiveLoop_zero_effort_first hP (naiveAdjBuild_count P hP) hval hpP hpe hpdeps
      hpt hct hc0 (P.length + (P.map (·.dependencies.length)).sum + 1) [] caps
      (indegree0 P) (P.filter (fun r => objGet (indegree0 P) r.id = some 0)) 0
      (naiveInv_init caps P hP)
      (by simp only [List.length_nil]; omega) (by simp) (by simp) with
    ⟨σadd, h1, h2, h3, h4⟩
  have hseq : (planProjectsNaive caps P).sequence
      = (naiveLoop P (naiveAdjBuild P)
          (P.length + (P.map (·.dependencies.length)).sum + 1)
          caps (indegree0 P)
          (P.filter (fun r => objGet (indegree0 P) r.id = some 0))
          (([] : List OptimizationProject).map (fun r => r.id), 0)).1 := rfl
  rcases List.mem_map.mp h2 with ⟨r0, hr0, hr0id⟩
  have hdw : σadd.dropWhile (fun q => q.id ≠ p.id) ≠ [] := by
    intro hcon
    have := List.dropWhile_eq_nil_iff.mp hcon r0 hr0
    simp [hr0id] at this
  cases hdwe : σadd.dropWhile (fun q => q.id ≠ p.id) with
  | nil => exact absurd hdwe hdw
  | cons x xs =>
    have hxid : x.id = p.id := by
      have := dropWhile_head_false (fun q => q.id ≠ p.id) σadd hdwe
      simpa using this
    refine ⟨(σadd.takeWhile (fun q => q.id ≠ p.id)).map (fun r => r.id),
      xs.map (fun r => r.id), ?_, ?_⟩
    · rw [hseq, h1]
      have hsplit : σadd = σadd.takeWhile (fun q => q.id ≠ p.id)
          ++ x :: xs := by
        rw [← hdwe]
        exact (List.takeWhile_append_dropWhile _ _).symm
      rw [List.nil_append]
      nth_rewrite 1 [hsplit]
      rw [List.map_append, List.map_cons, hxid]
    · intro i hi
      rcases List.mem_map.mp hi with ⟨q, hq, rfl⟩
      have hqσ : q ∈ σadd := (List.takeWhile_sublist _).subset hq
      exact ⟨q, h4 q hqσ, rfl, h3 q hq⟩

/-! ### Orchestrator bridge lemmas -/

theorem teamIdToNameOf_lookup {teams : List Team}
    (hids : (teams.map (fun t => t.id)).Nodup) {T : Team} (hT : T ∈ teams) :
    objGet (teamIdToNameOf teams) T.id = some T.name := by
  unfold teamIdToNameOf
  rw [objGet_foldl_objSet (fun t : Team => t.id) (fun t => t.name) T.id teams [] hids]
  rw [find?_key_eq_some_of_mem_nodup hids hT]

theorem teamCapacitiesOf_lookup {teams : List Team}
    (hnames : (teams.map (fun t => t.name)).Nodup) {T : Team} (hT : T ∈ teams) :
    objGet (teamCapacitiesOf teams) T.name = some T.capacity := by
  unfold teamCapacitiesOf
  rw [objGet_foldl_objSet (fun t : Team => t.name) (fun t => t.capacity)
    T.name teams [] hnames]
  rw [find?_key_eq_some_of_mem_nodup hnames hT]

theorem optimizationProjectsOf_ids (teams : List Team) (A : List Project)
    (deps : List Dependency) :
    (optimizationProjectsOf teams A deps).map (fun r => r.id)
      = (A.filter isValidProject).map (fun a => a.id) := by
  unfold optimizationProjectsOf
  rw [List.map_map]
  rfl

theorem coerce_map_ids (inputProjects : List Project) :
    (inputProjects.map coerceProject).map (fun a => a.id)
      = inputProjects.map (fun a => a.id) := by
  rw [List.map_map]
  rfl

theorem optimizationProjectsOf_ids_nodup {teams : List Team}
    {deps : List Dependency} {inputProjects : List Project}
    (h : (inputProjects.map (fun a => a.id)).Nodup) :
    ((optimizationProjectsOf teams (inputProjects.map coerceProject) deps).map
      (fun r => r.id)).Nodup := by
  rw [optimizationProjectsOf_ids]
  have h1 : ((inputProjects.map coerceProject).map (fun a => a.id)).Nodup := by
    rw [coerce_map_ids]
    exact h
  exact List.Nodup.sublist ((List.filter_sublist _).map _) h1

theorem optimizationProjectsOf_mem_shape {teams : List Team} {A : List Project}
    {deps : List Dependency} {r : OptimizationProject}
    (hr : r ∈ optimizationProjectsOf teams A deps) :
    ∃ a ∈ A, isValidProject a = true ∧ r.id = a.id ∧
      r.team = objGet (teamIdToNameOf teams) a.teamId ∧
      r.value = coerceNum a.value ∧ r.effort = coerceNum a.effort := by
  unfold optimizationProjectsOf at hr
  rcases List.mem_map.mp hr with ⟨a, ha, rfl⟩
  exact ⟨a, List.mem_of_mem_filter ha, List.of_mem_filter ha, rfl, rfl, rfl, rfl⟩

theorem optimizationProjectsOf_mem_of {teams : List Team} {A : List Project}
    {deps : List Dependency} {a : Project} (ha : a ∈ A)
    (hv : isValidProject a = true) :
    ({ id := a.id
       team := objGet (teamIdToNameOf teams) a.teamId
       value := coerceNum a.value
       effort := coerceNum a.effort
       dependencies :=
         ((deps.filter (fun dep =>
           dep.targetId = a.id &&
           ((A.filter isActionableIdProject).map (·.id)).contains
             dep.sourceId)).map (·.sourceId)) } : OptimizationProject)
      ∈ optimizationProjectsOf teams A deps := by
  unfold optimizationProjectsOf
  exact List.mem_map.mpr ⟨a, List.mem_filter.mpr ⟨ha, hv⟩, rfl⟩

theorem valid_value_pos {a : Project} (hv : isValidProject a = true) :
    0 < coerceNum a.value := by
  unfold isValidProject at hv
  simp only [Bool.and_eq_true, decide_eq_true_eq] at hv
  exact hv.2

theorem valid_effort_nonneg {a : Project} (hv : isValidProject a = true) :
    0 ≤ coerceNum a.effort := by
  unfold isValidProject at hv
  simp only [Bool.and_eq_true, decide_eq_true_eq] at hv
  exact hv.1.2

theorem optimizationProjectsOf_value_pos {teams : List Team} {A : List Project}
    {deps : List Dependency} :
    ∀ r ∈ optimizationProjectsOf teams A deps, 0 < r.value := by
  intro r hr
  rcases optimizationProjectsOf_mem_shape hr with ⟨a, _, hv, _, _, hval, _⟩
  rw [hval]
  exact valid_value_pos hv

theorem find?_coerce_eq {inputProjects : List Project}
    (hids : (inputProjects.map (fun a => a.id)).Nodup)
    {p : Project} (hp : p ∈ inputProjects) :
    (inputProjects.map coerceProject).find? (fun q => q.id = p.id)
      = some (coerceProject p) := by
  have h1 : ((inputProjects.map coerceProject).map (fun a => a.id)).Nodup := by
    rw [coerce_map_ids]
    exact hids
  have h3 := find?_key_eq_some_of_mem_nodup h1 (List.mem_map_of_mem coerceProject hp)
  simpa [coerceProject_id] using h3

theorem coerced_effort_eq {b : Project} :
    (coerceProject b).effort = some (coerceNum (coerceProject b).effort) := by
  simp [coerceProject, coerceNum]

theorem coerced_value_eq {b : Project} :
    (coerceProject b).value = some (coerceNum (coerceProject b).value) := by
  simp [coerceProject, coerceNum]

theorem objGet_foldl_objSet_none {γ β : Type} (key : γ → String) (val : γ → β)
    (k : String) :
    ∀ (l : List γ) (m₀ : Obj β), (∀ x ∈ l, key x ≠ k) →
      objGet (l.foldl (fun m x => objSet m (key x) (val x)) m₀) k = objGet m₀ k := by
  intro l
  induction l with
  | nil => intro m₀ _; rfl
  | cons x xs ih =>
    intro m₀ h
    rw [List.foldl_cons, ih _ (fun y hy => h y (List.mem_cons_of_mem x hy)),
      objGet_objSet, if_neg (fun hk => h x (List.mem_cons_self x xs) hk.symm)]

theorem teamIdToNameOf_none {teams : List Team} {k : String}
    (h : ∀ T ∈ teams, T.id ≠ k) :
    objGet (teamIdToNameOf teams) k = none := by
  unfold teamIdToNameOf
  rw [objGet_foldl_objSet_none (fun t : Team => t.id) (fun t => t.name) k teams [] h]
  rfl

/-- Every id emitted by the sequential planner belongs to a project whose
team name is set and known to the capacity map. -/
theorem planProjectsSequential_selected_team_known (caps : Obj ℚ)
    (P : List OptimizationProject) :
    ∀ i ∈ (planProjectsSequential caps P).sequence,
      ∃ q ∈ P, q.id = i ∧ ∃ t, q.team = some t ∧ (objGet caps t).isSome := by
  intro i hi
  rcases seqFold_spec caps (sortBy (fun a b => decide (b.value ≤ a.value)) P) [] caps
      (capInv_init caps) with ⟨σ', h1, hsub, hteam, _⟩
  have hseq : (planProjectsSequential caps P).sequence
      = ((sortBy (fun a b => decide (b.value ≤ a.value)) P).foldl seqStep
          ([], caps)).1.map (fun r => r.id) := rfl
  rw [hseq, h1, List.nil_append] at hi
  rcases List.mem_map.mp hi with ⟨q, hq, rfl⟩
  exact ⟨q, (sortBy_perm _ P).subset (hsub.subset hq), rfl, hteam q hq⟩

/-- Every id emitted by the naive planner belongs to a project whose team
name is set and known to the capacity map. -/
theorem planProjectsNaive_selected_team_known (caps : Obj ℚ)
    (P : List OptimizationProject) (hP : (P.map (fun r => r.id)).Nodup) :
    ∀ i ∈ (planProjectsNaive caps P).sequence,
      ∃ q ∈ P, q.id = i ∧ ∃ t, q.team = some t ∧ (objGet caps t).isSome := by
  intro i hi
  rcases planProjectsNaive_spec caps P hP with
    ⟨σfin, capfin, h1, hmem, _, _, hteam, _, _⟩
  rw [h1] at hi
  rcases List.mem_map.mp hi with ⟨q, hq, rfl⟩
  exact ⟨q, hmem q hq, rfl, hteam q hq⟩

theorem lookup_eq_of_mem_nodup {β : Type} :
    ∀ {l : List (String × β)}, (l.map Prod.fst).Nodup →
      ∀ {k : String} {v : β}, (k, v) ∈ l → List.lookup k l = some v := by
  intro l
  induction l with
  | nil => intro _ k v h; cases h
  | cons x xs ih =>
    intro hnd k v h
    obtain ⟨a, c⟩ := x
    rw [lookup_cons']
    rw [List.map_cons, List.nodup_cons] at hnd
    rcases List.mem_cons.mp h with heq | h'
    · cases heq
      rw [if_pos rfl]
    · have hka : k ≠ a := by
        intro hk
        apply hnd.1
        rw [← hk]
        exact List.mem_map.mpr ⟨(k, v), h', rfl⟩
      rw [if_neg hka]
      exact ih hnd.2 h'

theorem mem_of_lookup {β : Type} :
    ∀ {l : List (String × β)} {k : String} {v : β},
      List.lookup k l = some v → (k, v) ∈ l := by
  intro l
  induction l with
  | nil => intro k v h; cases h
  | cons x xs ih =>
    intro k v h
    obtain ⟨a, c⟩ := x
    rw [lookup_cons'] at h
    by_cases hk : k = a
    · rw [if_pos hk] at h
      injection h with h1
      rw [hk, ← h1]
      exact List.mem_cons_self _ _
    · rw [if_neg hk] at h
      exact List.mem_cons_of_mem _ (ih h)

theorem mem_jsSetDedup_fold (x : String) :
    ∀ (l acc : List String),
      (x ∈ l.foldl (fun acc y => if acc.contains y then acc else acc ++ [y]) acc
        ↔ x ∈ acc ∨ x ∈ l) := by
  intro l
  induction l with
  | nil => intro acc; simp
  | cons a as ih =>
    intro acc
    rw [List.foldl_cons]
    by_cases hc : acc.contains a = true
    · rw [if_pos hc, ih]
      have ha : a ∈ acc := by simpa using hc
      constructor
      · rintro (h | h)
        · exact Or.inl h
        · exact Or.inr (List.mem_cons_of_mem a h)
      · rintro (h | h)
        · exact Or.inl h
        · rcases List.mem_cons.mp h with rfl | h'
          · exact Or.inl ha
          · exact Or.inr h'
    · rw [if_neg hc, ih]
      constructor
      · rintro (h | h)
        · rcases List.mem_append.mp h with h' | h'
          · exact Or.inl h'
          · have hxa : x = a := List.mem_singleton.mp h'
            exact Or.inr (hxa ▸ List.mem_cons_self a as)
        · exact Or.inr (List.mem_cons_of_mem a h)
      · rintro (h | h)
        · exact Or.inl (List.mem_append.mpr (Or.inl h))
        · rcases List.mem_cons.mp h with rfl | h'
          · exact Or.inl (List.mem_append.mpr (Or.inr (List.mem_singleton.mpr rfl)))
          · exact Or.inr h'

theorem mem_jsSetDedup {l : List String} {x : String} :
    x ∈ jsSetDedup l ↔ x ∈ l := by
  unfold jsSetDedup
  rw [mem_jsSetDedup_fold]
  simp

theorem foldl_append_flatten {α β : Type} (f : α → List β) :
    ∀ (l : List α) (acc : List β),
      l.foldl (fun acc x => acc ++ f x) acc = acc ++ (l.map f).flatten := by
  intro l
  induction l with
  | nil => intro acc; simp
  | cons x xs ih =>
    intro acc
    rw [List.foldl_cons, ih, List.map_cons, List.flatten_cons, List.append_assoc]

/-- Each dependency of each project yields the `x_target - x_source ≤ 0` row
in the model `planProjectsMIP` builds. -/
theorem buildLPModel_dep_constraint_mem {caps : Obj ℚ}
    {P : List OptimizationProject} {q : OptimizationProject} (hq : q ∈ P)
    {d : String} (hd : d ∈ q.dependencies) :
    (⟨"dep_" ++ q.id ++ "_requires_" ++ d, [⟨q.id, 1⟩, ⟨d, -1⟩], 0⟩ : LPConstraint)
      ∈ (buildLPModel caps P).constraints := by
  have hcon : (buildLPModel caps P).constraints
      = caps.map (fun tc => (⟨"cap_" ++ tc.1,
          (P.filter (fun p => p.team = some tc.1)).map (fun p => ⟨p.id, p.effort⟩),
          tc.2⟩ : LPConstraint))
        ++ P.foldl (fun acc p => acc ++ p.dependencies.map (fun d =>
            (⟨"dep_" ++ p.id ++ "_requires_" ++ d,
              [⟨p.id, 1⟩, ⟨d, -1⟩], 0⟩ : LPConstraint))) [] := rfl
  rw [hcon, foldl_append_flatten (fun p => p.dependencies.map (fun d =>
    (⟨"dep_" ++ p.id ++ "_requires_" ++ d,
      [⟨p.id, 1⟩, ⟨d, -1⟩], 0⟩ : LPConstraint))) P [], List.nil_append]
  apply List.mem_append.mpr
  right
  apply List.mem_flatten.mpr
  exact ⟨_, List.mem_map_of_mem _ hq, List.mem_map_of_mem _ hd⟩

theorem actionable_of_valid {a : Project} (hv : isValidProject a = true) :
    isActionableIdProject a = true := by
  unfold isValidProject at hv
  unfold isActionableIdProject
  simp only [Bool.and_eq_true, decide_eq_true_eq] at *
  exact hv.1

/-- The naive planner's output is closed under the projects' dependency
lists. -/
theorem planProjectsNaive_closed (caps : Obj ℚ) (P : List OptimizationProject)
    (hP : (P.map (fun r => r.id)).Nodup) {q : OptimizationProject} (hq : q ∈ P)
    (hqsel : q.id ∈ (planProjectsNaive caps P).sequence) :
    ∀ d ∈ q.dependencies, d ∈ (planProjectsNaive caps P).sequence := by
  intro d hd
  rcases planProjectsNaive_spec caps P hP with
    ⟨σfin, capfin, h1, hmem, _, hclos, _, _, _⟩
  rw [h1] at hqsel ⊢
  rcases List.mem_map.mp hqsel with ⟨r, hr, hrid⟩
  have hrq : r = q := inj_on_of_ids_nodup hP r (hmem r hr) q hq hrid
  exact hclos q (hrq ▸ hr) d hd

theorem sumEffortFor_cons (p : OptimizationProject) (σ : List OptimizationProject)
    (t : String) :
    sumEffortFor (p :: σ) t
      = (if p.team = some t then p.effort else 0) + sumEffortFor σ t := by
  by_cases h : p.team = some t <;> simp [sumEffortFor, List.filter_cons, h]

theorem capInv_bound {caps : Obj ℚ} {σ : List OptimizationProject} {cap : Obj ℚ}
    (h : CapInv caps σ cap) {t : String} {c : ℚ} (hc : objGet caps t = some c)
    (hc0 : 0 ≤ c) : sumEffortFor σ t ≤ c := by
  rcases h.2 t c hc with h0 | h1
  · rw [h0]
    exact hc0
  · linarith

/-- Effect of the team-summary accumulation loop on one key, when every
selected project has set effort and value. -/
theorem summaries_fold (k : String) :
    ∀ (sel : List Project) (m : Obj TeamSummary) (s0 : TeamSummary),
      (∀ p ∈ sel, p.effort.isSome ∧ p.value.isSome) →
      objGet m k = some s0 →
      objGet (sel.foldl (fun m p =>
          if p.effort.isSome && p.value.isSome then
            objModify m p.teamId (fun s =>
              ⟨s.allocated + coerceNum p.effort, s.value + coerceNum p.value⟩)
          else m) m) k
        = some ⟨s0.allocated + (((sel.filter (fun p => p.teamId = k)).map
              (fun p => coerceNum p.effort)).sum),
            s0.value + (((sel.filter (fun p => p.teamId = k)).map
              (fun p => coerceNum p.value)).sum)⟩ := by
  intro sel
  induction sel with
  | nil =>
    intro m s0 _ hm
    simpa using hm
  | cons p rest ih =>
    intro m s0 hsome hm
    have hp := hsome p (List.mem_cons_self p rest)
    rw [List.foldl_cons, if_pos (by rw [hp.1, hp.2]; rfl)]
    by_cases hpk : p.teamId = k
    · have hm' : objGet (objModify m p.teamId (fun s =>
          (⟨s.allocated + coerceNum p.effort, s.value + coerceNum p.value⟩
            : TeamSummary))) k
          = some ⟨s0.allocated + coerceNum p.effort,
              s0.value + coerceNum p.value⟩ := by
        rw [objGet_objModify, if_pos hpk.symm, hpk, hm]
        rfl
      rw [ih _ _ (fun q hq => hsome q (List.mem_cons_of_mem p hq)) hm']
      rw [List.filter_cons, if_pos (decide_eq_true hpk), List.map_cons,
        List.sum_cons, List.map_cons, List.sum_cons, add_assoc, add_assoc]
    · have hm' : objGet (objModify m p.teamId (fun s =>
          (⟨s.allocated + coerceNum p.effort, s.value + coerceNum p.value⟩
            : TeamSummary))) k = some s0 := by
        rw [objGet_objModify, if_neg (fun h => hpk h.symm), hm]
      rw [ih _ _ (fun q hq => hsome q (List.mem_cons_of_mem p hq)) hm']
      rw [List.filter_cons, if_neg (by simpa using hpk)]

/-- The summaries entry of an input team, for a selection whose projects all
carry set effort and value, is the pair of filtered sums. -/
theorem teamSummariesOf_lookup {teams : List Team}
    (htid : (teams.map (fun t => t.id)).Nodup) {T : Team} (hT : T ∈ teams)
    {sel : List Project} (hsome : ∀ p ∈ sel, p.effort.isSome ∧ p.value.isSome) :
    objGet (teamSummariesOf teams sel) T.id
      = some ⟨(((sel.filter (fun p => p.teamId = T.id)).map
            (fun p => coerceNum p.effort)).sum),
          (((sel.filter (fun p => p.teamId = T.id)).map
            (fun p => coerceNum p.value)).sum)⟩ := by
  have hinit : objGet (teams.foldl
      (fun m t => objSet m t.id (⟨0, 0⟩ : TeamSummary)) []) T.id
      = some ⟨0, 0⟩ := by
    rw [objGet_foldl_objSet (fun t : Team => t.id)
      (fun _ => (⟨0, 0⟩ : TeamSummary)) T.id teams [] htid]
    rw [find?_key_eq_some_of_mem_nodup htid hT]
  have h := summaries_fold T.id sel _ _ hsome hinit
  unfold teamSummariesOf
  rw [h]
  simp

theorem teamIdToNameOf_rev {teams : List Team}
    (htid : (teams.map (fun t => t.id)).Nodup) {k n : String}
    (h : objGet (teamIdToNameOf teams) k = some n) :
    ∃ T' ∈ teams, T'.id = k ∧ T'.name = n := by
  unfold teamIdToNameOf at h
  rw [objGet_foldl_objSet (fun t : Team => t.id) (fun t => t.name) k teams []
    htid] at h
  cases hf : teams.find? (fun t => t.id = k) with
  | none =>
    rw [hf, objGet_nil] at h
    cases h
  | some T' =>
    rw [hf] at h
    injection h with h1
    exact ⟨T', List.mem_of_find?_eq_some hf, by simpa using List.find?_some hf, h1⟩

theorem teamId_iff_teamName {teams : List Team}
    (htid : (teams.map (fun t => t.id)).Nodup)
    (htname : (teams.map (fun t => t.name)).Nodup) {T : Team} (hT : T ∈ teams)
    (k : String) :
    k = T.id ↔ objGet (teamIdToNameOf teams) k = some T.name := by
  constructor
  · intro h
    rw [h]
    exact teamIdToNameOf_lookup htid hT
  · intro h
    rcases teamIdToNameOf_rev htid h with ⟨T', hT', hid, hname⟩
    have hTT : T' = T := inj_on_of_ids_nodup htname T' hT' T hT hname
    rw [← hid, hTT]

theorem optimizationProjectsOf_effort_nonneg {teams : List Team}
    {A : List Project} {deps : List Dependency} :
    ∀ r ∈ optimizationProjectsOf teams A deps, 0 ≤ r.effort := by
  intro r hr
  rcases optimizationProjectsOf_mem_shape hr with ⟨a, _, hv, _, _, _, heff⟩
  rw [heff]
  exact valid_effort_nonneg hv

theorem selected_isSome {inputProjects : List Project} {seq : List String} :
    ∀ p ∈ selectedProjectsOf (inputProjects.map coerceProject) seq,
      p.effort.isSome ∧ p.value.isSome := by
  intro p hp
  have hmem := selectedProjectsOf_subset hp
  rcases List.mem_map.mp hmem with ⟨b, _, rfl⟩
  constructor
  · rw [coerced_effort_eq]
    rfl
  · rw [coerced_value_eq]
    rfl

/-- The `allocated` sum of the reassembled selection equals the effort sum of
the corresponding optimization projects, measured on the team's name. -/
theorem selected_alloc_eq_sumEffort {inputProjects : List Project}
    {inputTeams : List Team} {dependencies : List Dependency}
    (hids : (inputProjects.map (fun a => a.id)).Nodup)
    (htid : (inputTeams.map (fun t => t.id)).Nodup)
    (htname : (inputTeams.map (fun t => t.name)).Nodup)
    {T : Team} (hT : T ∈ inputTeams) :
    ∀ seq : List String,
      (∀ i ∈ seq, ∃ r ∈ optimizationProjectsOf inputTeams
          (inputProjects.map coerceProject) dependencies, r.id = i) →
      ((((selectedProjectsOf (inputProjects.map coerceProject) seq).filter
          (fun p => p.teamId = T.id)).map (fun p => coerceNum p.effort)).sum)
        = sumEffortFor (seq.filterMap (fun i =>
            (optimizationProjectsOf inputTeams (inputProjects.map coerceProject)
              dependencies).find? (fun r => r.id = i))) T.name := by
  have hAids : ((inputProjects.map coerceProject).map (fun a => a.id)).Nodup := by
    rw [coerce_map_ids]
    exact hids
  have hPnd := @optimizationProjectsOf_ids_nodup inputTeams dependencies
    inputProjects hids
  intro seq
  induction seq with
  | nil =>
    intro _
    simp [selectedProjectsOf, sumEffortFor]
  | cons i rest ih =>
    intro hall
    rcases hall i (List.mem_cons_self i rest) with ⟨r, hrP, hri⟩
    have hfp : (optimizationProjectsOf inputTeams (inputProjects.map coerceProject)
        dependencies).find? (fun q => q.id = i) = some r := by
      have h := find?_eq_some_of_mem_nodup hPnd hrP
      rwa [hri] at h
    rcases optimizationProjectsOf_mem_shape hrP with
      ⟨a, haA, _, hraid, hrateam, _, hraeff⟩
    have hfa : (inputProjects.map coerceProject).find? (fun p => p.id = i)
        = some a := by
      have h := find?_key_eq_some_of_mem_nodup hAids haA
      rwa [← hraid, hri] at h
    have hselcons : selectedProjectsOf (inputProjects.map coerceProject) (i :: rest)
        = a :: selectedProjectsOf (inputProjects.map coerceProject) rest := by
      rw [selectedProjectsOf_eq_filterMap, selectedProjectsOf_eq_filterMap]
      simp only [List.filterMap_cons, hfa]
    have hrest := ih (fun j hj => hall j (List.mem_cons_of_mem i hj))
    have hteamiff : (a.teamId = T.id) ↔ (r.team = some T.name) := by
      rw [hrateam]
      exact teamId_iff_teamName htid htname hT a.teamId
    rw [hselcons]
    simp only [List.filterMap_cons, hfp]
    by_cases hcond : a.teamId = T.id
    · rw [List.filter_cons, if_pos (decide_eq_true hcond), List.map_cons,
        List.sum_cons, sumEffortFor_cons, if_pos (hteamiff.mp hcond), hrest, hraeff]
    · rw [List.filter_cons, if_neg (by simpa using hcond), sumEffortFor_cons,
        if_neg (fun h => hcond (hteamiff.mpr h)), hrest, zero_add]

/-- Looking the planner's own selection back up by id is the identity. -/
theorem filterMap_find_ids {P : List OptimizationProject}
    (hPnd : (P.map (fun r => r.id)).Nodup) :
    ∀ {σ : List OptimizationProject}, (∀ q ∈ σ, q ∈ P) →
      (σ.map (fun r => r.id)).filterMap
        (fun i => P.find? (fun r => r.id = i)) = σ := by
  intro σ
  induction σ with
  | nil => intro _; rfl
  | cons q rest ih =>
    intro hsub
    have h1 := find?_eq_some_of_mem_nodup hPnd (hsub q (List.mem_cons_self q rest))
    simp only [List.map_cons, List.filterMap_cons, h1]
    rw [ih (fun x hx => hsub x (List.mem_cons_of_mem q hx))]

theorem mem_filterMap_find {P : List OptimizationProject}
    (hPnd : (P.map (fun r => r.id)).Nodup) {seq : List String}
    {p : OptimizationProject} :
    p ∈ seq.filterMap (fun i => P.find? (fun r => r.id = i))
      ↔ p ∈ P ∧ p.id ∈ seq := by
  constructor
  · intro h
    rcases List.mem_filterMap.mp h with ⟨i, hi, hf⟩
    have h1 : p.id = i := by simpa using List.find?_some hf
    exact ⟨List.mem_of_find?_eq_some hf, h1 ▸ hi⟩
  · intro ⟨hpP, hpid⟩
    exact List.mem_filterMap.mpr ⟨p.id, hpid, find?_eq_some_of_mem_nodup hPnd hpP⟩

theorem filterMap_find_ids_sublist {P : List OptimizationProject} :
    ∀ seq : List String,
      ((seq.filterMap (fun i => P.find? (fun r => r.id = i))).map
        (fun r => r.id)).Sublist seq := by
  intro seq
  induction seq with
  | nil => exact List.Sublist.refl []
  | cons i rest ih =>
    rw [List.filterMap_cons]
    cases hf : P.find? (fun r => r.id = i) with
    | none => exact ih.cons i
    | some r =>
      rw [List.map_cons]
      have h1 : r.id = i := by simpa using List.find?_some hf
      rw [h1]
      exact ih.cons₂ i

theorem jsSetDedup_nodup_fold :
    ∀ (l acc : List String), acc.Nodup →
      (l.foldl (fun acc y => if acc.contains y then acc else acc ++ [y])
        acc).Nodup := by
  intro l
  induction l with
  | nil => intro acc h; exact h
  | cons a as ih =>
    intro acc h
    rw [List.foldl_cons]
    by_cases hc : acc.contains a = true
    · rw [if_pos hc]
      exact ih acc h
    · rw [if_neg hc]
      apply ih
      have ha : ¬ a ∈ acc := by
        intro hmem
        exact hc (by simpa using hmem)
      simp [List.nodup_append, h, ha]

theorem jsSetDedup_nodup (l : List String) : (jsSetDedup l).Nodup :=
  jsSetDedup_nodup_fold l [] List.nodup_nil

/-- Selected efforts are dominated by the weighted row sum when weights are
non-negative and equal `1` on the selected ids. -/
theorem sum_effort_le_row {x : String → ℚ} {seq : List String} :
    ∀ l : List OptimizationProject, (∀ p ∈ l, 0 ≤ p.effort) →
      (∀ p ∈ l, 0 ≤ x p.id) → (∀ p ∈ l, p.id ∈ seq → x p.id = 1) →
      ((l.filter (fun p => decide (p.id ∈ seq))).map (fun p => p.effort)).sum
        ≤ (l.map (fun p => p.effort * x p.id)).sum := by
  intro l
  induction l with
  | nil => intro _ _ _; simp
  | cons p rest ih =>
    intro he hx h1
    have hrest := ih (fun q hq => he q (List.mem_cons_of_mem p hq))
      (fun q hq => hx q (List.mem_cons_of_mem p hq))
      (fun q hq => h1 q (List.mem_cons_of_mem p hq))
    rw [List.map_cons, List.sum_cons, List.filter_cons]
    by_cases hmem : p.id ∈ seq
    · rw [if_pos (decide_eq_true hmem), List.map_cons, List.sum_cons,
        h1 p (List.mem_cons_self p rest) hmem, mul_one]
      linarith
    · rw [if_neg (by simpa using hmem)]
      have h0 : 0 ≤ p.effort * x p.id :=
        mul_nonneg (he p (List.mem_cons_self p rest))
          (hx p (List.mem_cons_self p rest))
      linarith

theorem planProjectsSequential_bound (caps : Obj ℚ) (P : List OptimizationProject)
    (hPnd : (P.map (fun r => r.id)).Nodup)
    {t : String} {c : ℚ} (hc : objGet caps t = some c) (hc0 : 0 ≤ c) :
    (∀ i ∈ (planProjectsSequential caps P).sequence, ∃ r ∈ P, r.id = i) ∧
    sumEffortFor ((planProjectsSequential caps P).sequence.filterMap
      (fun i => P.find? (fun r => r.id = i))) t ≤ c := by
  rcases seqFold_spec caps (sortBy (fun a b => decide (b.value ≤ a.value)) P) []
      caps (capInv_init caps) with ⟨σ', h1, hsub, _, hcap⟩
  have hseq : (planProjectsSequential caps P).sequence
      = ((sortBy (fun a b => decide (b.value ≤ a.value)) P).foldl seqStep
          ([], caps)).1.map (fun r => r.id) := rfl
  have hsubP : ∀ q ∈ σ', q ∈ P := fun q hq =>
    (sortBy_perm _ P).subset (hsub.subset hq)
  rw [hseq, h1, List.nil_append]
  constructor
  · intro i hi
    rcases List.mem_map.mp hi with ⟨q, hq, rfl⟩
    exact ⟨q, hsubP q hq, rfl⟩
  · rw [filterMap_find_ids hPnd hsubP]
    rw [List.nil_append] at hcap
    exact capInv_bound hcap hc hc0

theorem planProjectsNaive_bound (caps : Obj ℚ) (P : List OptimizationProject)
    (hPnd : (P.map (fun r => r.id)).Nodup)
    {t : String} {c : ℚ} (hc : objGet caps t = some c) (hc0 : 0 ≤ c) :
    (∀ i ∈ (planProjectsNaive caps P).sequence, ∃ r ∈ P, r.id = i) ∧
    sumEffortFor ((planProjectsNaive caps P).sequence.filterMap
      (fun i => P.find? (fun r => r.id = i))) t ≤ c := by
  rcases planProjectsNaive_spec caps P hPnd with
    ⟨σfin, capfin, h1, hmem, _, _, _, hcap, _⟩
  rw [h1]
  constructor
  · intro i hi
    rcases List.mem_map.mp hi with ⟨q, hq, rfl⟩
    exact ⟨q, hmem q hq, rfl⟩
  · rw [filterMap_find_ids hPnd hmem]
    exact capInv_bound hcap hc hc0

theorem buildLPModel_cap_constraint_mem {caps : Obj ℚ}
    {P : List OptimizationProject} {t : String} {c : ℚ} (h : (t, c) ∈ caps) :
    (⟨"cap_" ++ t,
      (P.filter (fun p => p.team = some t)).map (fun p => ⟨p.id, p.effort⟩),
      c⟩ : LPConstraint) ∈ (buildLPModel caps P).constraints := by
  have hcon : (buildLPModel caps P).constraints
      = caps.map (fun tc => (⟨"cap_" ++ tc.1,
          (P.filter (fun p => p.team = some tc.1)).map (fun p => ⟨p.id, p.effort⟩),
          tc.2⟩ : LPConstraint))
        ++ P.foldl (fun acc p => acc ++ p.dependencies.map (fun d =>
            (⟨"dep_" ++ p.id ++ "_requires_" ++ d,
              [⟨p.id, 1⟩, ⟨d, -1⟩], 0⟩ : LPConstraint))) [] := rfl
  rw [hcon]
  apply List.mem_append.mpr
  left
  have hm := List.mem_map_of_mem (fun tc : String × ℚ => (⟨"cap_" ++ tc.1,
    (P.filter (fun p => p.team = some tc.1)).map (fun p => ⟨p.id, p.effort⟩),
    tc.2⟩ : LPConstraint)) h
  simpa using hm

/-- Capacity bound for the selection read off an honest MIP result. -/
theorem mip_selection_bound {P : List OptimizationProject}
    (hPnd : (P.map (fun r => r.id)).Nodup)
    (heff : ∀ r ∈ P, 0 ≤ r.effort)
    {vars : Obj ℚ} (hnd : (vars.map Prod.fst).Nodup)
    (hvals : ∀ v ∈ vars, v.2 = 0 ∨ v.2 = 1)
    {t : String} {c : ℚ}
    (hrow : (((P.filter (fun p => p.team = some t)).map
        (fun p => (⟨p.id, p.effort⟩ : LPTerm))).map (fun term =>
        term.coef * ((objGet vars term.name).getD 0))).sum ≤ c) :
    sumEffortFor ((jsSetDedup ((vars.filter (fun v => v.2 = 1)).map
      (fun v => v.1))).filterMap (fun i => P.find? (fun r => r.id = i))) t ≤ c := by
  rw [List.map_map] at hrow
  rw [show ((fun term : LPTerm => term.coef * (objGet vars term.name).getD 0)
      ∘ (fun p : OptimizationProject => (⟨p.id, p.effort⟩ : LPTerm)))
      = (fun p : OptimizationProject => p.effort * (objGet vars p.id).getD 0)
      from rfl] at hrow
  have hx0 : ∀ n : String, 0 ≤ (objGet vars n).getD 0 := by
    intro n
    cases hn : objGet vars n with
    | none => simp
    | some w =>
      have h2 : w = 0 ∨ w = 1 := hvals (n, w) (mem_of_lookup hn)
      rcases h2 with rfl | rfl <;> simp
  have hx1 : ∀ p : OptimizationProject,
      p.id ∈ jsSetDedup ((vars.filter (fun v => v.2 = 1)).map (fun v => v.1)) →
      (objGet vars p.id).getD 0 = 1 := by
    intro p hp
    rw [mem_jsSetDedup] at hp
    rcases List.mem_map.mp hp with ⟨v, hvmem, hv1⟩
    have hv2 : v.2 = 1 := by simpa using List.of_mem_filter hvmem
    have hvv : v ∈ vars := List.mem_of_mem_filter hvmem
    have hl : List.lookup v.1 vars = some v.2 :=
      lookup_eq_of_mem_nodup hnd (Prod.mk.eta ▸ hvv)
    rw [← hv1]
    rw [show objGet vars v.1 = List.lookup v.1 vars from rfl, hl, hv2]
    rfl
  have hnd2 : ((jsSetDedup ((vars.filter (fun v => v.2 = 1)).map
      (fun v => v.1))).filterMap (fun i => P.find? (fun r => r.id = i))).Nodup :=
    List.Nodup.of_map (fun r => r.id)
      (List.Nodup.sublist (filterMap_find_ids_sublist _) (jsSetDedup_nodup _))
  have hperm : ((jsSetDedup ((vars.filter (fun v => v.2 = 1)).map
        (fun v => v.1))).filterMap (fun i => P.find? (fun r => r.id = i))).filter
        (fun p => p.team = some t)
      ~ (P.filter (fun p => p.team = some t)).filter
        (fun p => decide (p.id ∈ jsSetDedup ((vars.filter (fun v => v.2 = 1)).map
          (fun v => v.1)))) := by
    apply List.perm_of_nodup_nodup_toFinset_eq
    · exact List.Nodup.filter _ hnd2
    · exact List.Nodup.filter _ (List.Nodup.filter _
        (List.Nodup.of_map (fun r => r.id) hPnd))
    · ext p
      simp only [List.mem_toFinset, List.mem_filter, mem_filterMap_find hPnd,
        decide_eq_true_eq]
      constructor
      · rintro ⟨⟨hpP, hpseq⟩, hpt⟩
        exact ⟨⟨hpP, hpt⟩, hpseq⟩
      · rintro ⟨⟨hpP, hpt⟩, hpseq⟩
        exact ⟨⟨hpP, hpseq⟩, hpt⟩
  have hdom := @sum_effort_le_row (fun n => (objGet vars n).getD 0)
    (jsSetDedup ((vars.filter (fun v => v.2 = 1)).map (fun v => v.1)))
    (P.filter (fun p => p.team = some t))
    (fun q hq => heff q (List.mem_of_mem_filter hq))
    (fun q _ => hx0 q.id)
    (fun q _ hq2 => hx1 q hq2)
  unfold sumEffortFor
  rw [(hperm.map (fun p => p.effort)).sum_eq]
  exact le_trans hdom hrow

/-! ### Kahn's algorithm: invariant and loop analysis -/

theorem strLe_refl (s : String) : strLe s s = true := by
  rcases strLe_total s s with h | h <;> exact h

theorem idLeB_total (a b : OptimizationProject) :
    idLeB a b = true ∨ idLeB b a = true := strLe_total a.id b.id

theorem idLeB_trans {a b c : OptimizationProject} (hab : idLeB a b = true)
    (hbc : idLeB b c = true) : idLeB a c = true := strLe_trans hab hbc

theorem kahnAdjBuild_count (P : List OptimizationProject)
    (hP : (P.map (fun r => r.id)).Nodup) :
    ∀ i ∈ P.map (fun r => r.id), ∀ q ∈ P,
      ((objGet (kahnAdjBuild P) i).getD []).count q.id = q.dependencies.count i := by
  intro i hi q hq
  rcases List.mem_map.mp hi with ⟨p, hp, rfl⟩
  have h1 : objGet (adjInit P) p.id = some [] := by
    rw [adjInit_lookup P hP, find?_key_eq_some_of_mem_nodup hP hp]
    rfl
  have h2 : objGet (kahnAdjBuild P) p.id = some (adjListFor P p.id) := by
    rw [kahnAdjBuild_lookup, h1]
    rfl
  rw [h2]
  exact count_adjListFor_of_mem hP hq p.id

/-- The Kahn neighbor pass keeps the ready list sorted by id. -/
theorem neighborsFold_sorted (P : List OptimizationProject) :
    ∀ (L : List String) (ind : Obj Int) (avail : List OptimizationProject),
      List.Pairwise (fun a b => idLeB a b = true) avail →
      List.Pairwise (fun a b => idLeB a b = true)
        (neighborsFold P (fun acc x => sortBy idLeB (acc ++ [x]))
          L (ind, avail)).2 := by
  intro L
  induction L with
  | nil =>
    intro ind avail h
    simpa [neighborsFold] using h
  | cons nid rest ih =>
    intro ind avail h
    by_cases h0 : objGet (objModify ind nid (fun v => v - 1)) nid = some 0
    · cases hf : P.find? (fun p => p.id = nid) with
      | some np =>
        simp only [neighborsFold, h0, if_pos, hf]
        exact ih _ _ (sortBy_sorted
          (fun a _ b _ => idLeB_total a b)
          (fun a _ b _ c _ hab hbc => idLeB_trans hab hbc))
      | none =>
        simp only [neighborsFold, h0, if_pos, hf]
        exact ih _ _ h
    · simp only [neighborsFold, if_neg h0]
      exact ih _ _ h

/-- The loop invariant of `topologicalSort`'s Kahn loop: `acc` is the emitted
prefix, `ind` counts unemitted dependency occurrences, and `ready` is exactly
the unemitted fully-satisfied nodes, sorted by id. -/
structure KahnInv (P acc : List OptimizationProject) (ind : Obj Int)
    (ready : List OptimizationProject) : Prop where
  accMem : ∀ q ∈ acc, q ∈ P
  accNodup : (acc.map (fun r => r.id)).Nodup
  indUnsel : ∀ q ∈ P, ¬ q.id ∈ acc.map (fun r => r.id) →
    objGet ind q.id
      = some (((q.dependencies.filter
          (fun d => ¬ d ∈ acc.map (fun r => r.id))).length : Int))
  indSel : ∀ q ∈ P, q.id ∈ acc.map (fun r => r.id) → objGet ind q.id = some 0
  readyNodup : (ready.map (fun r => r.id)).Nodup
  readyMem : ∀ q, q ∈ ready ↔ q ∈ P ∧ ¬ q.id ∈ acc.map (fun r => r.id) ∧
    ∀ d ∈ q.dependencies, d ∈ acc.map (fun r => r.id)
  readySorted : List.Pairwise (fun a b => idLeB a b = true) ready
  accClosure : ∀ q ∈ acc, ∀ d ∈ q.dependencies, d ∈ acc.map (fun r => r.id)

theorem kahnInv_init (P : List OptimizationProject)
    (hP : (P.map (fun r => r.id)).Nodup) :
    KahnInv P [] (indegree0 P)
      (sortBy idLeB (P.filter (fun p => objGet (indegree0 P) p.id = some 0))) := by
  have hind : ∀ q ∈ P, objGet (indegree0 P) q.id
      = some ((q.dependencies.length : Int)) := by
    intro q hq
    rw [indegree0_lookup P hP q.id, find?_key_eq_some_of_mem_nodup hP hq]
    rfl
  refine ⟨?_, ?_, ?_, ?_, ?_, ?_, ?_, ?_⟩
  · intro q hq; cases hq
  · simp
  · intro q hq _
    rw [hind q hq]
    congr 2
    rw [List.filter_eq_self.mpr]
    intro d _
    simp
  · intro q _ hq
    simp at hq
  · have h1 : List.Perm
        ((sortBy idLeB (P.filter (fun p => objGet (indegree0 P) p.id = some 0))).map
          (fun r => r.id))
        ((P.filter (fun p => objGet (indegree0 P) p.id = some 0)).map
          (fun r => r.id)) := (sortBy_perm _ _).map _
    rw [h1.nodup_iff]
    exact ((List.filter_sublist P).map (fun r => r.id)).nodup hP
  · intro q
    rw [mem_sortBy, List.mem_filter]
    constructor
    · rintro ⟨hqP, hq0⟩
      refine ⟨hqP, by simp, ?_⟩
      intro d hd
      have h0 : objGet (indegree0 P) q.id = some 0 := by simpa using hq0
      rw [hind q hqP] at h0
      injection h0 with h0
      have : q.dependencies.length = 0 := by omega
      rw [List.length_eq_zero] at this
      rw [this] at hd
      cases hd
    · rintro ⟨hqP, _, hdeps⟩
      refine ⟨hqP, ?_⟩
      have : q.dependencies = [] := by
        cases hq : q.dependencies with
        | nil => rfl
        | cons d ds =>
          have := hdeps d (by rw [hq]; exact List.mem_cons_self d ds)
          simp at this
      rw [hind q hqP, this]
      simp
  · exact sortBy_sorted (fun a _ b _ => idLeB_total a b)
      (fun a _ b _ c _ hab hbc => idLeB_trans hab hbc)
  · intro q hq; cases hq

/-- One iteration of the Kahn loop preserves the invariant, emitting the
head of the ready list. -/
theorem kahnStep_spec {P : List OptimizationProject}
    (hP : (P.map (fun r => r.id)).Nodup) {adj : Obj (List String)}
    (hadj : ∀ i ∈ P.map (fun r => r.id), ∀ q ∈ P,
      ((objGet adj i).getD []).count q.id = q.dependencies.count i)
    {acc : List OptimizationProject} {ind : Obj Int}
    {cur : OptimizationProject} {rest : List OptimizationProject}
    (inv : KahnInv P acc ind (cur :: rest)) :
    KahnInv P (acc ++ [cur])
      (kahnNeighbors P ((objGet adj cur.id).getD []) (ind, rest)).1
      (kahnNeighbors P ((objGet adj cur.id).getD []) (ind, rest)).2 := by
  have hchosen_ready : cur ∈ cur :: rest := List.mem_cons_self cur rest
  obtain ⟨hcP, hcUnsel, hcDeps⟩ := (inv.readyMem cur).mp hchosen_ready
  simp only [kahnNeighbors]
  have hcid_notin : cur.id ∉ acc.map (fun r => r.id) := hcUnsel
  set L := (objGet adj cur.id).getD [] with hL
  have hLcount : ∀ q ∈ P, L.count q.id = q.dependencies.count cur.id :=
    fun q hq => hadj cur.id (List.mem_map_of_mem (fun r => r.id) hcP) q hq
  have hreadyNd := inv.readyNodup
  rw [List.map_cons, List.nodup_cons] at hreadyNd
  have hremMem : ∀ q, q ∈ rest ↔ q ∈ (cur :: rest) ∧ ¬ q.id = cur.id := by
    intro q
    constructor
    · intro hq
      refine ⟨List.mem_cons_of_mem cur hq, ?_⟩
      intro hid
      exact hreadyNd.1 (hid ▸ List.mem_map_of_mem (fun r => r.id) hq)
    · rintro ⟨hq, hne⟩
      rcases List.mem_cons.mp hq with rfl | hq'
      · exact absurd rfl hne
      · exact hq'
  have hremNodup : (rest.map (fun r => r.id)).Nodup := hreadyNd.2
  obtain ⟨pushed, hInd, hPerm, hpushNd, hpushMem⟩ :=
    neighborsFold_spec P hP (fun acc x => sortBy idLeB (acc ++ [x]))
      (fun acc x => sortBy_perm idLeB (acc ++ [x])) L ind rest
  have hQeq : ∀ q1 ∈ P, ∀ q2 ∈ P, q1.id = q2.id → q1 = q2 :=
    inj_on_of_ids_nodup hP
  have hmemσ : ∀ q ∈ P, q.id ∈ acc.map (fun r => r.id) →
      ∀ d ∈ q.dependencies, d ∈ acc.map (fun r => r.id) := by
    intro q hq hqid
    rcases List.mem_map.mp hqid with ⟨q0, hq0, hq0id⟩
    have : q0 = q := hQeq q0 (inv.accMem q0 hq0) q hq hq0id
    subst this
    exact inv.accClosure q0 hq0
  have hcnt0 : ∀ q ∈ P, (∀ d ∈ q.dependencies, d ∈ acc.map (fun r => r.id)) →
      q.dependencies.count cur.id = 0 := by
    intro q _ hdeps
    by_contra hne
    have : cur.id ∈ q.dependencies :=
      List.count_pos_iff.mp (Nat.pos_of_ne_zero hne)
    exact hcid_notin (hdeps cur.id this)
  have hfilter0 : ∀ q : OptimizationProject,
      (∀ d ∈ q.dependencies, d ∈ acc.map (fun r => r.id)) →
      (q.dependencies.filter (fun d => ¬ d ∈ acc.map (fun r => r.id))).length = 0 := by
    intro q hdeps
    rw [List.length_eq_zero, List.filter_eq_nil_iff]
    intro d hd
    simp [hdeps d hd]
  have hpushSem : ∀ q, q ∈ pushed ↔ q ∈ P ∧ ¬ q.id ∈ acc.map (fun r => r.id) ∧
      ¬ q.id = cur.id ∧
      (∀ d ∈ q.dependencies, ¬ d ∈ acc.map (fun r => r.id) → d = cur.id) ∧
      (∃ d ∈ q.dependencies, ¬ d ∈ acc.map (fun r => r.id)) := by
    intro q
    rw [hpushMem q]
    constructor
    · rintro ⟨hqP, m, hm, h1, h2⟩
      have hqUnsel : ¬ q.id ∈ acc.map (fun r => r.id) := by
        intro hin
        rw [inv.indSel q hqP hin] at hm
        injection hm with hm
        omega
      have hmval : m = ((q.dependencies.filter
          (fun d => ¬ d ∈ acc.map (fun r => r.id))).length : Int) := by
        rw [inv.indUnsel q hqP hqUnsel] at hm
        injection hm with hm
        omega
      rw [hLcount q hqP] at h2
      have hge := count_le_filter_notmem q.dependencies (acc.map (fun r => r.id))
        cur.id hcid_notin
      have hlen_eq : (q.dependencies.filter
          (fun d => ¬ d ∈ acc.map (fun r => r.id))).length
          = q.dependencies.count cur.id := by omega
      have hqne : ¬ q.id = cur.id := by
        intro hqid
        have : q = cur := hQeq q hqP cur hcP hqid
        subst this
        have h0 := hfilter0 q hcDeps
        omega
      refine ⟨hqP, hqUnsel, hqne,
        (filter_notmem_eq_count_iff q.dependencies (acc.map (fun r => r.id))
          cur.id hcid_notin).mp hlen_eq, ?_⟩
      have hpos : 0 < (q.dependencies.filter
          (fun d => ¬ d ∈ acc.map (fun r => r.id))).length := by omega
      rcases List.exists_mem_of_length_pos hpos with ⟨d, hd⟩
      rcases List.mem_filter.mp hd with ⟨hdl, hds⟩
      exact ⟨d, hdl, by simpa using hds⟩
    · rintro ⟨hqP, hqUnsel, hqne, hAll, d, hd, hdUnsat⟩
      refine ⟨hqP, ((q.dependencies.filter
          (fun d => ¬ d ∈ acc.map (fun r => r.id))).length : Int),
        inv.indUnsel q hqP hqUnsel, ?_, ?_⟩
      · have : d ∈ q.dependencies.filter
            (fun d => ¬ d ∈ acc.map (fun r => r.id)) :=
          List.mem_filter.mpr ⟨hd, by simpa using hdUnsat⟩
        have := List.length_pos_of_mem this
        omega
      · rw [hLcount q hqP]
        have := (filter_notmem_eq_count_iff q.dependencies
          (acc.map (fun r => r.id)) cur.id hcid_notin).mpr hAll
        omega
  have hσ'ids : (acc ++ [cur]).map (fun r => r.id)
      = acc.map (fun r => r.id) ++ [cur.id] := by
    rw [List.map_append]
    rfl
  refine ⟨?_, ?_, ?_, ?_, ?_, ?_, ?_, ?_⟩
  · intro q hq
    rcases List.mem_append.mp hq with hq | hq
    · exact inv.accMem q hq
    · rw [List.mem_singleton.mp hq]; exact hcP
  · rw [hσ'ids]
    have hperm : List.Perm (acc.map (fun r => r.id) ++ [cur.id])
        (cur.id :: acc.map (fun r => r.id)) :=
      List.perm_append_singleton cur.id (acc.map (fun r => r.id))
    rw [hperm.nodup_iff]
    exact List.nodup_cons.mpr ⟨hcid_notin, inv.accNodup⟩
  · intro q hqP hqUnsel
    rw [hσ'ids] at hqUnsel
    have hq1 : ¬ q.id ∈ acc.map (fun r => r.id) :=
      fun h => hqUnsel (List.mem_append.mpr (Or.inl h))
    rw [hInd q.id, inv.indUnsel q hqP hq1, hLcount q hqP]
    simp only [Option.map_some']
    rw [hσ'ids]
    have hsplit := filter_notmem_length_split (acc.map (fun r => r.id)) cur.id
      hcid_notin q.dependencies
    congr 1
    omega
  · intro q hqP hqSel
    rw [hσ'ids] at hqSel
    rw [hInd q.id]
    rcases List.mem_append.mp hqSel with hin | hin
    · rw [inv.indSel q hqP hin, hLcount q hqP,
        hcnt0 q hqP (hmemσ q hqP hin)]
      simp
    · have hqc : q.id = cur.id := by simpa using hin
      have hq_eq : q = cur := hQeq q hqP cur hcP hqc
      subst hq_eq
      rw [inv.indUnsel q hqP hcUnsel, hLcount q hqP, hcnt0 q hqP hcDeps,
        hfilter0 q hcDeps]
      simp
  · have hmap : List.Perm
        ((neighborsFold P (fun acc x => sortBy idLeB (acc ++ [x]))
          L (ind, rest)).2.map (fun r => r.id))
        ((rest ++ pushed).map (fun r => r.id)) := hPerm.map _
    rw [hmap.nodup_iff, List.map_append, List.nodup_append]
    refine ⟨hremNodup, hpushNd, ?_⟩
    intro a ha hapush
    rcases List.mem_map.mp ha with ⟨q1, hq1, rfl⟩
    rcases List.mem_map.mp hapush with ⟨q2, hq2, hq2id⟩
    rcases (inv.readyMem q1).mp (List.mem_cons_of_mem cur hq1) with
      ⟨hq1P, _, hq1deps⟩
    rcases (hpushSem q2).mp hq2 with ⟨hq2P, _, _, _, d, hd, hdUnsat⟩
    have : q2 = q1 := hQeq q2 hq2P q1 hq1P hq2id
    subst this
    exact hdUnsat (hq1deps d hd)
  · intro q
    rw [hPerm.mem_iff, List.mem_append, hσ'ids]
    constructor
    · rintro (hq | hq)
      · have hqne : ¬ q.id = cur.id := ((hremMem q).mp hq).2
        rcases (inv.readyMem q).mp (List.mem_cons_of_mem cur hq) with
          ⟨hqP, hqUnsel, hqdeps⟩
        refine ⟨hqP, ?_, ?_⟩
        · intro h
          rcases List.mem_append.mp h with h | h
          · exact hqUnsel h
          · exact hqne (by simpa using h)
        · intro d hd
          exact List.mem_append.mpr (Or.inl (hqdeps d hd))
      · rcases (hpushSem q).mp hq with ⟨hqP, hqUnsel, hqne, hAll, _⟩
        refine ⟨hqP, ?_, ?_⟩
        · intro h
          rcases List.mem_append.mp h with h | h
          · exact hqUnsel h
          · exact hqne (by simpa using h)
        · intro d hd
          by_cases hds : d ∈ acc.map (fun r => r.id)
          · exact List.mem_append.mpr (Or.inl hds)
          · exact List.mem_append.mpr (Or.inr (by simp [hAll d hd hds]))
    · rintro ⟨hqP, hqUnsel, hqdeps⟩
      have hq1 : ¬ q.id ∈ acc.map (fun r => r.id) :=
        fun h => hqUnsel (List.mem_append.mpr (Or.inl h))
      have hq2 : ¬ q.id = cur.id :=
        fun h => hqUnsel (List.mem_append.mpr (Or.inr (by simp [h])))
      by_cases hall : ∀ d ∈ q.dependencies, d ∈ acc.map (fun r => r.id)
      · left
        exact (hremMem q).mpr ⟨(inv.readyMem q).mpr ⟨hqP, hq1, hall⟩, hq2⟩
      · right
        push_neg at hall
        rcases hall with ⟨d, hd, hdUnsat⟩
        refine (hpushSem q).mpr ⟨hqP, hq1, hq2, ?_, d, hd, hdUnsat⟩
        intro d' hd' hd'Unsat
        rcases List.mem_append.mp (hqdeps d' hd') with h | h
        · exact absurd h hd'Unsat
        · simpa using h
  · exact neighborsFold_sorted P L ind rest
      (List.pairwise_cons.mp inv.readySorted).2
  · intro q hq d hd
    rw [hσ'ids]
    rcases List.mem_append.mp hq with hq | hq
    · exact List.mem_append.mpr (Or.inl (inv.accClosure q hq d hd))
    · rw [List.mem_singleton.mp hq] at hd
      exact List.mem_append.mpr (Or.inl (hcDeps d hd))

theorem exists_min_nat {α : Type} (f : α → ℕ) :
    ∀ (l : List α), l ≠ [] → ∃ a ∈ l, ∀ b ∈ l, f a ≤ f b := by
  intro l
  induction l with
  | nil => intro h; exact absurd rfl h
  | cons x xs ih =>
    intro _
    by_cases hxs : xs = []
    · subst hxs
      refine ⟨x, List.mem_cons_self x [], ?_⟩
      intro b hb
      rcases List.mem_cons.mp hb with rfl | hb'
      · exact le_refl _
      · cases hb'
    · rcases ih hxs with ⟨a, ha, hmin⟩
      by_cases hc : f x ≤ f a
      · refine ⟨x, List.mem_cons_self x xs, ?_⟩
        intro b hb
        rcases List.mem_cons.mp hb with rfl | hb'
        · exact le_refl _
        · exact le_trans hc (hmin b hb')
      · refine ⟨a, List.mem_cons_of_mem x ha, ?_⟩
        intro b hb
        rcases List.mem_cons.mp hb with rfl | hb'
        · omega
        · exact hmin b hb'

/-- Full characterization of the Kahn loop: run with enough fuel from an
invariant state on an acyclic graph, it emits every project exactly once,
each after its dependencies, and at every step the emitted project has the
least id among the then-available projects. -/
theorem kahnLoop_spec {P : List OptimizationProject}
    (hP : (P.map (fun r => r.id)).Nodup) {adj : Obj (List String)}
    (hadj : ∀ i ∈ P.map (fun r => r.id), ∀ q ∈ P,
      ((objGet adj i).getD []).count q.id = q.dependencies.count i)
    (hdeps : ∀ p ∈ P, ∀ d ∈ p.dependencies, d ∈ P.map (fun r => r.id))
    (hacyc : DepAcyclic P) :
    ∀ (fuel : ℕ) (ind : Obj Int) (ready acc : List OptimizationProject),
      KahnInv P acc ind ready →
      P.length + 1 ≤ fuel + acc.length →
      ∃ τ : List OptimizationProject,
        kahnLoop P adj fuel ind ready acc = acc ++ τ ∧
        ((acc ++ τ).map (fun r => r.id)).Nodup ∧
        (∀ q ∈ acc ++ τ, q ∈ P) ∧
        (∀ q ∈ P, q ∈ acc ++ τ) ∧
        (∀ l1 q l2, acc ++ τ = l1 ++ q :: l2 → acc.length ≤ l1.length →
          (∀ d ∈ q.dependencies, d ∈ l1.map (fun r => r.id)) ∧
          (∀ r ∈ P, ¬ r ∈ l1 →
            (∀ d ∈ r.dependencies, d ∈ l1.map (fun r => r.id)) →
            strLe q.id r.id = true)) := by
  intro fuel
  induction fuel with
  | zero =>
    intro ind ready acc inv hfuel
    exfalso
    have hsub : (acc.map (fun r => r.id)) ⊆ (P.map (fun r => r.id)) := by
      intro a ha
      rcases List.mem_map.mp ha with ⟨q, hq, rfl⟩
      exact List.mem_map_of_mem _ (inv.accMem q hq)
    have hlen := (List.subperm_of_subset inv.accNodup hsub).length_le
    simp only [List.length_map] at hlen
    omega
  | succ fuel ih =>
    intro ind ready acc inv hfuel
    cases ready with
    | nil =>
      refine ⟨[], by simp [kahnLoop], by simpa using inv.accNodup, ?_, ?_, ?_⟩
      · intro q hq
        exact inv.accMem q (by simpa using hq)
      · intro q hqP
        rw [List.append_nil]
        by_contra hqnot
        rcases hacyc with ⟨rank, hrank⟩
        have hU : ∃ u ∈ P.filter
            (fun r => decide (¬ r.id ∈ acc.map (fun r => r.id))),
            ∀ b ∈ P.filter (fun r => decide (¬ r.id ∈ acc.map (fun r => r.id))),
            rank u.id ≤ rank b.id := by
          apply exists_min_nat (fun r : OptimizationProject => rank r.id)
          intro hnil
          have hqin : q ∈ P.filter
              (fun r => decide (¬ r.id ∈ acc.map (fun r => r.id))) := by
            apply List.mem_filter.mpr
            refine ⟨hqP, ?_⟩
            simp only [decide_eq_true_eq]
            intro hid
            rcases List.mem_map.mp hid with ⟨q0, hq0, hq0id⟩
            have hq0q : q0 = q :=
              inj_on_of_ids_nodup hP q0 (inv.accMem q0 hq0) q hqP hq0id
            exact hqnot (hq0q ▸ hq0)
          rw [hnil] at hqin
          cases hqin
        rcases hU with ⟨u, huF, humin⟩
        rcases List.mem_filter.mp huF with ⟨huP, huUn⟩
        have huUnsel : ¬ u.id ∈ acc.map (fun r => r.id) := by simpa using huUn
        have hudeps : ∀ d ∈ u.dependencies, d ∈ acc.map (fun r => r.id) := by
          intro d hd
          by_contra hdnot
          rcases List.mem_map.mp (hdeps u huP d hd) with ⟨r, hrP, hrid⟩
          have hrF : r ∈ P.filter
              (fun r => decide (¬ r.id ∈ acc.map (fun r => r.id))) := by
            apply List.mem_filter.mpr
            refine ⟨hrP, ?_⟩
            simp only [decide_eq_true_eq]
            rw [hrid]
            exact hdnot
          have h1 := humin r hrF
          have h2 : rank d < rank u.id := hrank u huP d hd
          rw [hrid] at h1
          omega
        have hwrong : u ∈ ([] : List OptimizationProject) :=
          (inv.readyMem u).mpr ⟨huP, huUnsel, hudeps⟩
        cases hwrong
      · intro l1 q l2 hsplit hlen
        exfalso
        rw [List.append_nil] at hsplit
        have hlength := congrArg List.length hsplit
        simp [List.length_append] at hlength
        omega
    | cons cur rest =>
      have inv' := kahnStep_spec hP hadj inv
      have hunf : kahnLoop P adj (fuel + 1) ind (cur :: rest) acc
          = kahnLoop P adj fuel
              (kahnNeighbors P ((objGet adj cur.id).getD []) (ind, rest)).1
              (kahnNeighbors P ((objGet adj cur.id).getD []) (ind, rest)).2
              (acc ++ [cur]) := by
        simp [kahnLoop]
      have hfuel' : P.length + 1 ≤ fuel + (acc ++ [cur]).length := by
        rw [List.length_append, List.length_singleton]
        omega
      rcases ih _ _ (acc ++ [cur]) inv' hfuel' with ⟨τ', h1, h2, h3, h4, h5⟩
      have hre : (acc ++ [cur]) ++ τ' = acc ++ (cur :: τ') := by simp
      refine ⟨cur :: τ', ?_, ?_, ?_, ?_, ?_⟩
      · rw [hunf, h1, hre]
      · rw [← hre]
        exact h2
      · intro q hq
        apply h3
        rw [hre]
        exact hq
      · intro q hqP
        rw [← hre]
        exact h4 q hqP
      · intro l1 q l2 hsplit hlen
        by_cases hcase : acc.length = l1.length
        · have hinj := List.append_inj hsplit hcase
          obtain ⟨hl1, htail⟩ := hinj
          injection htail with hq hl2
          subst hl1
          subst hq
          constructor
          · exact ((inv.readyMem cur).mp (List.mem_cons_self cur rest)).2.2
          · intro r hrP hrl1 hrdeps
            have hrid : ¬ r.id ∈ acc.map (fun r => r.id) := by
              intro hin
              rcases List.mem_map.mp hin with ⟨r0, hr0, hr0id⟩
              have hr0r : r0 = r :=
                inj_on_of_ids_nodup hP r0 (inv.accMem r0 hr0) r hrP hr0id
              exact hrl1 (hr0r ▸ hr0)
            have hrready : r ∈ cur :: rest :=
              (inv.readyMem r).mpr ⟨hrP, hrid, hrdeps⟩
            rcases List.mem_cons.mp hrready with rfl | hrrest
            · exact strLe_refl _
            · exact (List.pairwise_cons.mp inv.readySorted).1 r hrrest
        · have hsplit2 : (acc ++ [cur]) ++ τ' = l1 ++ q :: l2 := by
            rw [hre]
            exact hsplit
          have hlen2 : (acc ++ [cur]).length ≤ l1.length := by
            rw [List.length_append, List.length_singleton]
            omega
          exact h5 l1 q l2 hsplit2 hlen2

/-! ### The bruteforce DFS: admissible paths and optimality -/

/-- A feasible selection in the sense of the spec: each known team's
selected effort total is within its capacity, and the selection is closed
under dependencies. -/
def FeasibleSel (caps : Obj ℚ) (S : List OptimizationProject) : Prop :=
  (∀ t c, objGet caps t = some c → sumEffortFor S t ≤ c) ∧
  (∀ q ∈ S, ∀ d ∈ q.dependencies, d ∈ S.map (fun r => r.id))

/-- Admissible include-sequences of the bruteforce DFS: each included project
has all its dependencies already selected and fits its team's remaining
capacity, which is then debited. -/
inductive Adm : Obj ℚ → List String → List OptimizationProject → Prop where
  | nil {cap : Obj ℚ} {sel : List String} : Adm cap sel []
  | cons {cap : Obj ℚ} {sel : List String} {p : OptimizationProject}
      {S : List OptimizationProject} {t : String} {c : ℚ} :
      (∀ d ∈ p.dependencies, d ∈ sel) → p.team = some t →
      objGet cap t = some c → p.effort ≤ c →
      Adm (objModify cap t (fun x => x - p.effort)) (sel ++ [p.id]) S →
      Adm cap sel (p :: S)

theorem dfs_mono : ∀ (l : List OptimizationProject) (cv : ℚ) (cap : Obj ℚ)
    (sel : List String) (best : ℚ × List String),
    best.1 ≤ (dfs l cv cap sel best).1 := by
  intro l
  induction l with
  | nil =>
    intro cv cap sel best
    simp only [dfs]
    by_cases h : best.1 < cv
    · rw [if_pos h]
      exact le_of_lt h
    · rw [if_neg h]
  | cons p rest ih =>
    intro cv cap sel best
    simp only [dfs]
    split
    · split
      · split
        · split
          · exact le_trans (ih cv cap sel best)
              (ih (cv + p.value) _ (sel ++ [p.id]) (dfs rest cv cap sel best))
          · exact ih cv cap sel best
        · exact ih cv cap sel best
      · exact ih cv cap sel best
    · exact ih cv cap sel best

/-- Every admissible include-sequence's value is dominated by the DFS
result. -/
theorem dfs_dominance : ∀ (l : List OptimizationProject) (cv : ℚ)
    (cap : Obj ℚ) (sel : List String) (best : ℚ × List String)
    (S : List OptimizationProject), S.Sublist l → Adm cap sel S →
    cv + (S.map (fun r => r.value)).sum ≤ (dfs l cv cap sel best).1 := by
  intro l
  induction l with
  | nil =>
    intro cv cap sel best S hS hAdm
    rw [List.sublist_nil.mp hS]
    simp only [List.map_nil, List.sum_nil, add_zero, dfs]
    by_cases h : best.1 < cv
    · rw [if_pos h]
    · rw [if_neg h]
      linarith [not_lt.mp h]
  | cons p rest ih =>
    intro cv cap sel best S hS hAdm
    simp only [dfs]
    cases hS with
    | cons _ hS' =>
      -- S avoids p: any branch of the p-step dominates the skip value
      split
      · split
        · split
          · split
            · exact le_trans (ih cv cap sel best S hS' hAdm)
                (dfs_mono rest (cv + p.value) _ (sel ++ [p.id])
                  (dfs rest cv cap sel best))
            · exact ih cv cap sel best S hS' hAdm
          · exact ih cv cap sel best S hS' hAdm
        · exact ih cv cap sel best S hS' hAdm
      · exact ih cv cap sel best S hS' hAdm
    | cons₂ _ hS' =>
      -- S includes p: the DFS include branch is taken
      cases hAdm with
      | cons hdeps hteam hcap hfit hAdm' =>
        rename_i t c
        have hdep : (p.dependencies.all (fun d => sel.contains d)) = true := by
          rw [List.all_eq_true]
          intro d hd
          simpa using hdeps d hd
        rw [if_pos hdep]
        split
        · rename_i t' hteam'
          rw [hteam] at hteam'
          injection hteam' with ht
          subst ht
          split
          · rename_i c' hcap'
            rw [hcap] at hcap'
            injection hcap' with hc
            subst hc
            rw [if_pos hfit]
            have h := ih (cv + p.value) (objModify cap t (fun x => x - p.effort))
              (sel ++ [p.id]) (dfs rest cv cap sel best) _ hS' hAdm'
            rw [List.map_cons, List.sum_cons]
            linarith
          · rename_i hcap'
            rw [hcap] at hcap'
            cases hcap'
        · rename_i hteam'
          rw [hteam] at hteam'
          cases hteam'

/-- The DFS result is either the incoming best or realizes an admissible
include-sequence. -/
theorem dfs_reach : ∀ (l : List OptimizationProject) (cv : ℚ) (cap : Obj ℚ)
    (sel : List String) (best : ℚ × List String),
    dfs l cv cap sel best = best ∨
    ∃ S : List OptimizationProject, S.Sublist l ∧ Adm cap sel S ∧
      dfs l cv cap sel best
        = (cv + (S.map (fun r => r.value)).sum,
           sel ++ S.map (fun r => r.id)) := by
  intro l
  induction l with
  | nil =>
    intro cv cap sel best
    simp only [dfs]
    by_cases h : best.1 < cv
    · right
      refine ⟨[], List.nil_sublist _, Adm.nil, ?_⟩
      rw [if_pos h]
      simp
    · left
      rw [if_neg h]
  | cons p rest ih =>
    intro cv cap sel best
    simp only [dfs]
    split
    · rename_i hdep
      have hskip := ih cv cap sel best
      split
      · rename_i t hteam
        split
        · rename_i c hcap
          split
          · rename_i hfit
            rcases ih (cv + p.value) (objModify cap t (fun x => x - p.effort))
                (sel ++ [p.id]) (dfs rest cv cap sel best) with
              h | ⟨S', hS', hAdm', heq⟩
            · rw [h]
              rcases hskip with h2 | ⟨S, hS, hAdm, heq2⟩
              · left; exact h2
              · right; exact ⟨S, hS.cons p, hAdm, heq2⟩
            · right
              refine ⟨p :: S', hS'.cons₂ p, ?_, ?_⟩
              · refine Adm.cons ?_ hteam hcap hfit hAdm'
                intro d hd
                simpa using List.all_eq_true.mp hdep d hd
              · rw [heq, List.map_cons, List.sum_cons, List.map_cons]
                simp [add_assoc]
          · rcases hskip with h2 | ⟨S, hS, hAdm, heq2⟩
            · left; exact h2
            · right; exact ⟨S, hS.cons p, hAdm, heq2⟩
        · rcases hskip with h2 | ⟨S, hS, hAdm, heq2⟩
          · left; exact h2
          · right; exact ⟨S, hS.cons p, hAdm, heq2⟩
      · rcases hskip with h2 | ⟨S, hS, hAdm, heq2⟩
        · left; exact h2
        · right; exact ⟨S, hS.cons p, hAdm, heq2⟩
    · rcases ih cv cap sel best with h2 | ⟨S, hS, hAdm, heq2⟩
      · left; exact h2
      · right; exact ⟨S, hS.cons p, hAdm, heq2⟩

/-- Along an admissible path, every known team's remaining capacity bounds
the efforts still to be selected, provided every entry is non-negative. -/
theorem adm_capacity : ∀ {S : List OptimizationProject} {cap : Obj ℚ}
    {sel : List String}, Adm cap sel S →
    (∀ t c, objGet cap t = some c → 0 ≤ c) →
    ∀ t c, objGet cap t = some c → sumEffortFor S t ≤ c := by
  intro S
  induction S with
  | nil =>
    intro cap sel _ hnn t c hc
    rw [sumEffortFor_nil]
    exact hnn t c hc
  | cons p S' ih =>
    intro cap sel hAdm hnn t c hc
    cases hAdm with
    | cons hdeps hteam hcap hfit hAdm' =>
      rename_i t0 c0
      have hnn' : ∀ t' c', objGet (objModify cap t0 (fun x => x - p.effort)) t'
          = some c' → 0 ≤ c' := by
        intro t' c' hc'
        rw [objGet_objModify] at hc'
        by_cases ht' : t' = t0
        · rw [if_pos ht', hcap] at hc'
          injection hc' with hc'
          have hcc : c0 - p.effort = c' := hc'
          linarith
        · rw [if_neg ht'] at hc'
          exact hnn t' c' hc'
      rw [show sumEffortFor (p :: S') t
          = (if p.team = some t then p.effort else 0) + sumEffortFor S' t
          from sumEffortFor_cons p S' t]
      by_cases hpt : p.team = some t
      · have htt : t = t0 := Option.some.inj (hpt.symm.trans hteam)
        subst htt
        have hcc : c = c0 := Option.some.inj (hc.symm.trans hcap)
        subst hcc
        have h2 : objGet (objModify cap t (fun x => x - p.effort)) t
            = some (c - p.effort) := by
          rw [objGet_objModify, if_pos rfl, hc]
          rfl
        have h3 := ih hAdm' hnn' t (c - p.effort) h2
        rw [if_pos hpt]
        linarith
      · rw [if_neg hpt, zero_add]
        by_cases htt : t = t0
        · exfalso
          apply hpt
          rw [hteam, htt]
        · have h2 : objGet (objModify cap t0 (fun x => x - p.effort)) t
              = some c := by
            rw [objGet_objModify, if_neg htt, hc]
          exact ih hAdm' hnn' t c h2

theorem adm_closure : ∀ {S : List OptimizationProject} {cap : Obj ℚ}
    {sel : List String}, Adm cap sel S →
    ∀ q ∈ S, ∀ d ∈ q.dependencies, d ∈ sel ∨ d ∈ S.map (fun r => r.id) := by
  intro S
  induction S with
  | nil => intro cap sel _ q hq; cases hq
  | cons p S' ih =>
    intro cap sel hAdm q hq d hd
    cases hAdm with
    | cons hdeps hteam hcap hfit hAdm' =>
      rcases List.mem_cons.mp hq with rfl | hq'
      · exact Or.inl (hdeps d hd)
      · rcases ih hAdm' q hq' d hd with h | h
        · rcases List.mem_append.mp h with h | h
          · exact Or.inl h
          · exact Or.inr (List.mem_cons.mpr (Or.inl (by simpa using h)))
        · exact Or.inr (List.mem_cons.mpr (Or.inr h))

theorem sumEffortFor_nonneg {S : List OptimizationProject}
    (h : ∀ q ∈ S, 0 ≤ q.effort) (t : String) : 0 ≤ sumEffortFor S t := by
  unfold sumEffortFor
  apply List.sum_nonneg
  intro x hx
  rcases List.mem_map.mp hx with ⟨q, hq, rfl⟩
  exact h q (List.mem_of_mem_filter hq)

/-- No element of a dependencies-before list depends on itself. -/
theorem no_self_dep {L : List OptimizationProject}
    (hnd : (L.map (fun r => r.id)).Nodup)
    (hsplit : ∀ l1 q l2, L = l1 ++ q :: l2 →
      ∀ d ∈ q.dependencies, d ∈ l1.map (fun r => r.id)) :
    ∀ q ∈ L, ¬ q.id ∈ q.dependencies := by
  intro q hq hself
  rcases List.append_of_mem hq with ⟨l1, l2, rfl⟩
  have h1 := hsplit l1 q l2 rfl q.id hself
  rw [List.map_append, List.map_cons] at hnd
  rcases (List.nodup_append.mp hnd) with ⟨_, _, hdisj⟩
  exact hdisj h1 (List.mem_cons_self _ _)

/-- A dependencies-before list never has a later element among an earlier
element's dependencies. -/
theorem pairwise_no_later_dep {L : List OptimizationProject}
    (hnd : (L.map (fun r => r.id)).Nodup)
    (hsplit : ∀ l1 q l2, L = l1 ++ q :: l2 →
      ∀ d ∈ q.dependencies, d ∈ l1.map (fun r => r.id)) :
    L.Pairwise (fun a b => ¬ b.id ∈ a.dependencies) := by
  suffices h : ∀ (suf pre : List OptimizationProject), L = pre ++ suf →
      suf.Pairwise (fun a b => ¬ b.id ∈ a.dependencies) by
    exact h L [] rfl
  intro suf
  induction suf with
  | nil => intro pre _; exact List.Pairwise.nil
  | cons x suf' ih =>
    intro pre hL
    refine List.pairwise_cons.mpr ⟨?_, ih (pre ++ [x]) (by rw [hL]; simp)⟩
    intro b hb hbdep
    have h1 := hsplit pre x suf' hL b.id hbdep
    have hnd' := hnd
    rw [hL, List.map_append, List.map_cons] at hnd'
    rcases List.nodup_append.mp hnd' with ⟨_, _, hdisj⟩
    exact hdisj h1 (List.mem_cons.mpr (Or.inr (List.mem_map_of_mem _ hb)))

/-- Build an admissible path for any feasible selection listed in a
dependencies-before order. -/
theorem adm_of_feasible {caps : Obj ℚ} {L : List OptimizationProject}
    (hpair : L.Pairwise (fun a b => ¬ b.id ∈ a.dependencies))
    (hself : ∀ q ∈ L, ¬ q.id ∈ q.dependencies)
    (hteams : ∀ p ∈ L, ∃ t c, p.team = some t ∧ objGet caps t = some c)
    (heff : ∀ p ∈ L, 0 ≤ p.effort) :
    ∀ S, S.Sublist L →
      (∀ t c, objGet caps t = some c → sumEffortFor S t ≤ c) →
      (∀ q ∈ S, ∀ d ∈ q.dependencies, d ∈ S.map (fun r => r.id)) →
      Adm caps [] S := by
  intro S hSL hcap hclos
  have hSP : S.Pairwise (fun a b => ¬ b.id ∈ a.dependencies) :=
    hpair.sublist hSL
  have hmemL : ∀ q ∈ S, q ∈ L := fun q hq => hSL.subset hq
  suffices h : ∀ (S2 S1 : List OptimizationProject) (cap : Obj ℚ),
      S = S1 ++ S2 → CapInv caps S1 cap → Adm cap (S1.map (fun r => r.id)) S2 by
    have h0 := h S [] caps rfl (capInv_init caps)
    simpa using h0
  intro S2
  induction S2 with
  | nil => intro S1 cap _ _; exact Adm.nil
  | cons p S2' ih =>
    intro S1 cap hSeq hInv
    have hpS : p ∈ S := by
      rw [hSeq]
      exact List.mem_append.mpr (Or.inr (List.mem_cons_self p S2'))
    rcases hteams p (hmemL p hpS) with ⟨t, c0, hteam, hcap0⟩
    have hcapt : objGet cap t = some (c0 - sumEffortFor S1 t) := by
      rw [hInv.1 t, hcap0]
      rfl
    have hS2sum : 0 ≤ sumEffortFor S2' t :=
      sumEffortFor_nonneg (fun q hq => heff q (hmemL q (by
        rw [hSeq]
        exact List.mem_append.mpr (Or.inr (List.mem_cons_of_mem p hq))))) t
    have hglob : sumEffortFor S t ≤ c0 := hcap t c0 hcap0
    have hsumsplit : sumEffortFor S t
        = sumEffortFor S1 t + p.effort + sumEffortFor S2' t := by
      rw [hSeq, sumEffortFor_append, sumEffortFor_cons, if_pos hteam]
      ring
    have hfit : p.effort ≤ c0 - sumEffortFor S1 t := by linarith
    have hdeps : ∀ d ∈ p.dependencies, d ∈ S1.map (fun r => r.id) := by
      intro d hd
      have hdS : d ∈ S.map (fun r => r.id) := hclos p hpS d hd
      rcases List.mem_map.mp hdS with ⟨r, hrS, hrid⟩
      have hrS' : r ∈ S1 ∨ r = p ∨ r ∈ S2' := by
        rw [hSeq] at hrS
        rcases List.mem_append.mp hrS with h | h
        · exact Or.inl h
        · rcases List.mem_cons.mp h with h | h
          · exact Or.inr (Or.inl h)
          · exact Or.inr (Or.inr h)
      rcases hrS' with h | h | h
      · rw [← hrid]
        exact List.mem_map_of_mem _ h
      · exfalso
        rw [h] at hrid
        exact hself p (hmemL p hpS) (hrid ▸ hd)
      · exfalso
        have hSP' := hSP
        rw [hSeq] at hSP'
        have hmid := (List.pairwise_append.mp hSP').2.1
        have := (List.pairwise_cons.mp hmid).1 r h
        exact this (hrid ▸ hd)
    refine Adm.cons hdeps hteam hcapt hfit ?_
    have hInv' : CapInv caps (S1 ++ [p]) (objModify cap t (fun x => x - p.effort)) :=
      capInv_select hInv hteam hcapt hfit
    have hmap : (S1.map (fun r => r.id)) ++ [p.id]
        = (S1 ++ [p]).map (fun r => r.id) := by
      rw [List.map_append]
      rfl
    rw [hmap]
    apply ih (S1 ++ [p])
    · rw [hSeq, List.append_assoc]
      rfl
    · exact hInv'

/-- Restricting a duplicate-free list to the members of one of its sublists
by id recovers that sublist. -/
theorem filter_mem_ids_of_sublist :
    ∀ {L S : List OptimizationProject}, (L.map (fun r => r.id)).Nodup →
      S.Sublist L →
      L.filter (fun p => (S.map (fun r => r.id)).contains p.id) = S := by
  intro L
  induction L with
  | nil =>
    intro S _ hS
    rw [List.sublist_nil.mp hS]
    rfl
  | cons x L' ih =>
    intro S hnd hS
    have hnd' := hnd
    rw [List.map_cons, List.nodup_cons] at hnd'
    cases hS with
    | cons _ hS' =>
      rw [List.filter_cons]
      have hxno : ((S.map (fun r => r.id)).contains x.id) = false := by
        rw [Bool.eq_false_iff]
        intro hcon
        have hmem : x.id ∈ S.map (fun r => r.id) := by simpa using hcon
        rcases List.mem_map.mp hmem with ⟨r, hrS, hrid⟩
        apply hnd'.1
        rw [← hrid]
        exact List.mem_map_of_mem _ (hS'.subset hrS)
      rw [hxno]
      simp only [Bool.false_eq_true, if_false]
      exact ih hnd'.2 hS'
    | cons₂ _ hS' =>
      rename_i S'
      rw [List.filter_cons]
      have hxyes : (((x :: S').map (fun r => r.id)).contains x.id) = true := by
        simp
      rw [hxyes]
      simp only [if_true]
      congr 1
      have hcongr : ∀ p ∈ L', (((x :: S').map (fun r => r.id)).contains p.id)
          = ((S'.map (fun r => r.id)).contains p.id) := by
        intro p hp
        rw [List.map_cons]
        by_cases hps : p.id ∈ S'.map (fun r => r.id)
        · simp [hps]
        · have hpx : ¬ p.id = x.id := by
            intro h
            apply hnd'.1
            rw [← h]
            exact List.mem_map_of_mem _ hp
          simp [hps, hpx]
      rw [List.filter_congr hcongr]
      exact ih hnd'.2 hS'

/-! ## Claim theorems -/

/-- C6: for every solver, mode and input, no project id occurs in both
`selectedProjects` and `unselectedProjects` of `prioritizeProjects`, and the
union of their id sets is the id set of the input projects. -/
theorem prioritizeProjects_partitions_ids (solve : LPModel → SolverResult)
    (mode : Mode) (inputProjects : List Project) (inputTeams : List Team)
    (dependencies : List Dependency) :
    (((prioritizeProjects solve mode inputProjects inputTeams dependencies).selectedProjects.map
          (fun p => p.id)).toFinset
        ∪ ((prioritizeProjects solve mode inputProjects inputTeams dependencies).unselectedProjects.map
          (fun p => p.id)).toFinset
      = (inputProjects.map (fun p => p.id)).toFinset)
    ∧ ∀ i : String,
        ¬(i ∈ (prioritizeProjects solve mode inputProjects inputTeams dependencies).selectedProjects.map
            (fun p => p.id)
          ∧ i ∈ (prioritizeProjects solve mode inputProjects inputTeams dependencies).unselectedProjects.map
            (fun p => p.id)) := by
  set A := inputProjects.map coerceProject with hA
  set seq := (runPlanner solve mode (teamCapacitiesOf inputTeams)
    (optimizationProjectsOf inputTeams A dependencies)).sequence with hseq
  have hsel : (prioritizeProjects solve mode inputProjects inputTeams dependencies).selectedProjects
      = selectedProjectsOf A seq := rfl
  have hunsel : (prioritizeProjects solve mode inputProjects inputTeams dependencies).unselectedProjects
      = A.filter (fun p => !seq.contains p.id) := rfl
  have hids : A.map (fun p => p.id) = inputProjects.map (fun p => p.id) := by
    simp [hA, Function.comp, coerceProject_id]
  have hmemsel : ∀ q : Project, q ∈ selectedProjectsOf A seq → q.id ∈ seq :=
    fun _ hq => id_mem_sequence_of_mem_selectedProjectsOf hq
  constructor
  · rw [hsel, hunsel]
    ext i
    simp only [Finset.mem_union, List.mem_toFinset, List.mem_map, ← hids]
    constructor
    · rintro (⟨q, hq, rfl⟩ | ⟨q, hq, rfl⟩)
      · exact ⟨q, selectedProjectsOf_subset hq, rfl⟩
      · exact ⟨q, (List.mem_filter.mp hq).1, rfl⟩
    · rintro ⟨p, hp, rfl⟩
      by_cases hc : p.id ∈ seq
      · left
        have hsome : (A.find? (fun r => r.id = p.id)).isSome :=
          List.find?_isSome.mpr ⟨p, hp, by simp⟩
        rcases Option.isSome_iff_exists.mp hsome with ⟨q, hq⟩
        refine ⟨q, mem_selectedProjectsOf.mpr ⟨p.id, hc, hq⟩, ?_⟩
        simpa using List.find?_some hq
      · right
        exact ⟨p, List.mem_filter.mpr ⟨hp, by simpa using hc⟩, rfl⟩
  · intro i ⟨hiSel, hiUnsel⟩
    rw [hsel] at hiSel
    rw [hunsel] at hiUnsel
    rcases List.mem_map.mp hiSel with ⟨q, hq, rfl⟩
    have hin : q.id ∈ seq := hmemsel q hq
    rcases List.mem_map.mp hiUnsel with ⟨r, hr, hid⟩
    have : ¬ r.id ∈ seq := by simpa using (List.mem_filter.mp hr).2
    exact this (hid ▸ hin)

/-- C9: whenever the solver reports a status that is neither optimal nor
feasible, `planProjectsMIP` returns exactly the result of `planProjectsNaive`
on the same team capacities and projects (the embedding is total, so no error
reaches the caller on this path). -/
theorem planProjectsMIP_falls_back_to_naive (solve : LPModel → SolverResult)
    (teamCapacities : Obj ℚ) (projects : List OptimizationProject)
    (h : (solve (buildLPModel teamCapacities projects)).status ≠ SolverStatus.opt ∧
         (solve (buildLPModel teamCapacities projects)).status ≠ SolverStatus.feas) :
    planProjectsMIP solve teamCapacities projects
      = planProjectsNaive teamCapacities projects := by
  simp only [planProjectsMIP]
  rw [if_neg]
  rintro (hc | hc)
  · exact h.1 hc
  · exact h.2 hc

/-- C9 witness: a concrete run in which the solver reports an unusable status
and the fallback result is exactly the greedy planner's result. -/
theorem planProjectsMIP_falls_back_to_naive_witness :
    ((dummySolve (buildLPModel [("A", 10)] [⟨"p1", some "A", 5, 3, []⟩])).status
        ≠ SolverStatus.opt ∧
     (dummySolve (buildLPModel [("A", 10)] [⟨"p1", some "A", 5, 3, []⟩])).status
        ≠ SolverStatus.feas) ∧
    planProjectsMIP dummySolve [("A", 10)] [⟨"p1", some "A", 5, 3, []⟩]
      = planProjectsNaive [("A", 10)] [⟨"p1", some "A", 5, 3, []⟩] :=
  ⟨⟨by decide, by decide⟩,
   planProjectsMIP_falls_back_to_naive dummySolve [("A", 10)]
     [⟨"p1", some "A", 5, 3, []⟩] ⟨by decide, by decide⟩⟩

/-- C5 counterexample: a project with unset (`null`) effort and value is
returned with both fields replaced by `0` — the returned object does not
retain the original unset fields. -/
theorem returned_project_not_original :
    (prioritizeProjects dummySolve Mode.naive [⟨"p", "t", "T", none, none⟩] []
        []).unselectedProjects
      = [⟨"p", "t", "T", some 0, some 0⟩]
    ∧ (⟨"p", "t", "T", some 0, some 0⟩ : Project) ≠ ⟨"p", "t", "T", none, none⟩ := by
  with_unfolding_all decide

/-- C5 amended: every project object returned in `selectedProjects` or
`unselectedProjects` is the *coerced* copy of an input project: `effort` and
`value` are replaced by their numeric coercions (unset becomes `0`), while
`id`, `teamId` and the display fields are retained. -/
theorem prioritize_returns_coerced_projects (solve : LPModel → SolverResult)
    (mode : Mode) (inputProjects : List Project) (inputTeams : List Team)
    (dependencies : List Dependency) :
    ∀ q : Project,
      (q ∈ (prioritizeProjects solve mode inputProjects inputTeams dependencies).selectedProjects
       ∨ q ∈ (prioritizeProjects solve mode inputProjects inputTeams dependencies).unselectedProjects) →
      ∃ p ∈ inputProjects, q = coerceProject p := by
  intro q hq
  have hmem : q ∈ inputProjects.map coerceProject := by
    rcases hq with h | h
    · exact selectedProjectsOf_subset h
    · exact (List.mem_filter.mp h).1
  rcases List.mem_map.mp hmem with ⟨p, hp, hpq⟩
  exact ⟨p, hp, hpq.symm⟩

/-- C5 amended witness: on the unset-fields input, the returned object is the
coercion of the input project. -/
theorem prioritize_returns_coerced_projects_witness :
    ((⟨"p", "t", "T", some 0, some 0⟩ : Project)
        ∈ (prioritizeProjects dummySolve Mode.naive [⟨"p", "t", "T", none, none⟩] []
            []).selectedProjects
     ∨ (⟨"p", "t", "T", some 0, some 0⟩ : Project)
        ∈ (prioritizeProjects dummySolve Mode.naive [⟨"p", "t", "T", none, none⟩] []
            []).unselectedProjects) ∧
    ∃ p ∈ [(⟨"p", "t", "T", none, none⟩ : Project)],
      (⟨"p", "t", "T", some 0, some 0⟩ : Project) = coerceProject p :=
  ⟨by with_unfolding_all decide,
   prioritize_returns_coerced_projects dummySolve Mode.naive
     [⟨"p", "t", "T", none, none⟩] [] [] ⟨"p", "t", "T", some 0, some 0⟩
     (by with_unfolding_all decide)⟩

/-- C4 (code evaluation at the failing input): `p3` has effort `1` but unset
value, so it is unactionable, and `p2` (actionable, fitting capacity) depends
on it.  The spec says the edge `p3 → p2` is dropped and `p2` becomes
selectable; the code keeps the edge (the `actionableProjectIds` filter does
not test `value > 0`), so in mode `naive-deps` `p2` is never selected. -/
theorem unactionable_source_blocks_dependent :
    (prioritizeProjects dummySolve Mode.naiveDeps
        [⟨"p3", "tA", "P3", some 1, none⟩, ⟨"p2", "tA", "P2", some 2, some 5⟩]
        [⟨"tA", "A", 10⟩] [⟨"p3", "p2"⟩]).selectedProjects = []
    ∧ (prioritizeProjects dummySolve Mode.naiveDeps
        [⟨"p3", "tA", "P3", some 1, none⟩, ⟨"p2", "tA", "P2", some 2, some 5⟩]
        [⟨"tA", "A", 10⟩] [⟨"p3", "p2"⟩]).unselectedProjects.map (fun p => p.id)
      = ["p3", "p2"] := by
  with_unfolding_all decide

/-- C3 counterexample: two teams share the name `A`; the capacity map is
keyed by name, so team `t1` (capacity `0`) is planned against team `t2`'s
capacity `100`, and its summary shows `allocated = 50 > 0 = capacity`. -/
theorem shared_team_name_overallocates :
    objGet (prioritizeProjects dummySolve Mode.naive
        [⟨"p", "t1", "P", some 50, some 10⟩]
        [⟨"t1", "A", 0⟩, ⟨"t2", "A", 100⟩] []).teamSummaries "t1"
      = some ⟨50, 10⟩
    ∧ ¬ ((50 : ℚ) ≤ (Team.mk "t1" "A" 0).capacity) := by
  with_unfolding_all decide

/-- C8 counterexample: the zero-effort, positive-value project `p` depends on
the positive-effort project `q`, so `p` is not in the initial frontier and is
selected *after* `q` — not first. -/
theorem zero_effort_project_not_first :
    (prioritizeProjects dummySolve Mode.naiveDeps
        [⟨"p", "tA", "P", some 0, some 5⟩, ⟨"q", "tA", "Q", some 1, some 1⟩]
        [⟨"tA", "A", 10⟩] [⟨"q", "p"⟩]).selectedProjects.map (fun p => (p.id, p.effort))
      = [("q", some 1), ("p", some 0)] := by
  with_unfolding_all decide

/-- C8 (amended): in mode `naive-deps`, for distinct project ids and distinct
team ids and names, a project `p` with coerced effort `0` and positive coerced
value, no dependency edge targeting it, and an existing team of non-negative
capacity is always selected, and every project selected before it also has
(coerced) effort `0` — so it precedes every positive-effort project. -/
theorem zero_effort_actionable_selected_first
    (solve : LPModel → SolverResult)
    (inputProjects : List Project) (inputTeams : List Team)
    (dependencies : List Dependency) (p : Project) (T : Team)
    (hids : (inputProjects.map (fun a => a.id)).Nodup)
    (htid : (inputTeams.map (fun t => t.id)).Nodup)
    (htname : (inputTeams.map (fun t => t.name)).Nodup)
    (hp : p ∈ inputProjects)
    (hpe : coerceNum p.effort = 0) (hpv : 0 < coerceNum p.value)
    (hnodep : ∀ dep ∈ dependencies, dep.targetId ≠ p.id)
    (hT : T ∈ inputTeams) (hTid : p.teamId = T.id) (hTcap : 0 ≤ T.capacity) :
    ∃ L1 L2,
      (prioritizeProjects solve Mode.naiveDeps inputProjects inputTeams
          dependencies).selectedProjects
        = L1 ++ coerceProject p :: L2 ∧
      ∀ q ∈ L1, q.effort = some 0 := by
  have hvalid : isValidProject (coerceProject p) = true := by
    simp [isValidProject, coerceProject, coerceNum]
    constructor
    · rw [show p.effort.getD 0 = coerceNum p.effort from rfl, hpe]
    · exact hpv
  have hAids : ((inputProjects.map coerceProject).map (fun a => a.id)).Nodup := by
    rw [coerce_map_ids]
    exact hids
  have hopMem := @optimizationProjectsOf_mem_of inputTeams
    (inputProjects.map coerceProject) dependencies (coerceProject p)
    (List.mem_map_of_mem coerceProject hp) hvalid
  rcases planProjectsNaive_zero_effort_first (teamCapacitiesOf inputTeams)
      (optimizationProjectsOf inputTeams (inputProjects.map coerceProject)
        dependencies)
      (optimizationProjectsOf_ids_nodup hids)
      (optimizationProjectsOf_value_pos)
      hopMem
      (show coerceNum (coerceProject p).effort = 0 by
        simpa [coerceProject, coerceNum] using hpe)
      (by
        show ((dependencies.filter _).map _) = []
        rw [List.map_eq_nil_iff]
        rw [List.filter_eq_nil_iff]
        intro dep hdep
        simp [coerceProject_id, hnodep dep hdep])
      (show objGet (teamIdToNameOf inputTeams) p.teamId = some T.name by
        rw [hTid]
        exact teamIdToNameOf_lookup htid hT)
      (teamCapacitiesOf_lookup htname hT) hTcap with
    ⟨ids1, ids2, hseq0, hids1⟩
  have hseq : (planProjectsNaive (teamCapacitiesOf inputTeams)
      (optimizationProjectsOf inputTeams (inputProjects.map coerceProject)
        dependencies)).sequence = ids1 ++ p.id :: ids2 := hseq0
  have hres : (prioritizeProjects solve Mode.naiveDeps inputProjects inputTeams
      dependencies).selectedProjects
      = selectedProjectsOf (inputProjects.map coerceProject)
          ((planProjectsNaive (teamCapacitiesOf inputTeams)
            (optimizationProjectsOf inputTeams (inputProjects.map coerceProject)
              dependencies)).sequence) := rfl
  have hfind : (inputProjects.map coerceProject).find? (fun q => q.id = p.id)
      = some (coerceProject p) := find?_coerce_eq hids hp
  refine ⟨ids1.filterMap
      (fun i => (inputProjects.map coerceProject).find? (fun q => q.id = i)),
    ids2.filterMap
      (fun i => (inputProjects.map coerceProject).find? (fun q => q.id = i)),
    ?_, ?_⟩
  · rw [hres, hseq, selectedProjectsOf_eq_filterMap, List.filterMap_append]
    simp only [List.filterMap_cons, hfind]
  · intro q hq
    rcases List.mem_filterMap.mp hq with ⟨i, hi, hqfind⟩
    have hqA : q ∈ inputProjects.map coerceProject :=
      List.mem_of_find?_eq_some hqfind
    have hqid : q.id = i := by simpa using List.find?_some hqfind
    rcases hids1 i hi with ⟨r, hrP, hrid, hre⟩
    rcases optimizationProjectsOf_mem_shape hrP with ⟨a, haA, _, hraid, _, _, hraeff⟩
    have haq : a = q := by
      apply inj_on_of_ids_nodup hAids a haA q hqA
      rw [← hraid, hrid, hqid]
    have haeff : a.effort = some 0 := by
      rcases List.mem_map.mp haA with ⟨b, _, rfl⟩
      rw [coerced_effort_eq, ← hraeff, hre]
    rw [← haq, haeff]

/-- Witness for C8 (amended) at a concrete input: the zero-effort project
`p` is selected and nothing precedes it. -/
theorem zero_effort_actionable_selected_first_witness :
    ∃ L1 L2,
      (prioritizeProjects dummySolve Mode.naiveDeps
          [⟨"p", "tA", "P", some 0, some 5⟩, ⟨"q", "tA", "Q", some 2, some 1⟩]
          [⟨"tA", "A", 10⟩] []).selectedProjects
        = L1 ++ coerceProject ⟨"p", "tA", "P", some 0, some 5⟩ :: L2 ∧
      ∀ q ∈ L1, q.effort = some 0 :=
  zero_effort_actionable_selected_first dummySolve
    [⟨"p", "tA", "P", some 0, some 5⟩, ⟨"q", "tA", "Q", some 2, some 1⟩]
    [⟨"tA", "A", 10⟩] [] ⟨"p", "tA", "P", some 0, some 5⟩ ⟨"tA", "A", 10⟩
    (by with_unfolding_all decide) (by with_unfolding_all decide)
    (by with_unfolding_all decide) (by with_unfolding_all decide)
    (by with_unfolding_all decide) (by with_unfolding_all decide)
    (by intro dep hdep; cases hdep) (by with_unfolding_all decide)
    (by with_unfolding_all decide) (by with_unfolding_all decide)

/-- C10: in modes `naive` and `naive-deps`, a project whose `teamId` matches
no input team id is never selected: its remaining-capacity lookup yields no
value, so the capacity test fails, the project lands in `unselectedProjects`,
and (the embedding being total) no error is raised. -/
theorem unknown_team_never_selected
    (solve : LPModel → SolverResult) (mode : Mode)
    (inputProjects : List Project) (inputTeams : List Team)
    (dependencies : List Dependency) (p : Project)
    (hmode : mode = Mode.naive ∨ mode = Mode.naiveDeps)
    (hids : (inputProjects.map (fun a => a.id)).Nodup)
    (hp : p ∈ inputProjects)
    (hpt : ∀ T ∈ inputTeams, T.id ≠ p.teamId) :
    coerceProject p ∈ (prioritizeProjects solve mode inputProjects inputTeams
        dependencies).unselectedProjects ∧
    ∀ q ∈ (prioritizeProjects solve mode inputProjects inputTeams
        dependencies).selectedProjects, q.id ≠ p.id := by
  have hAids : ((inputProjects.map coerceProject).map (fun a => a.id)).Nodup := by
    rw [coerce_map_ids]
    exact hids
  have hkey : ¬ p.id ∈ (runPlanner solve mode (teamCapacitiesOf inputTeams)
      (optimizationProjectsOf inputTeams (inputProjects.map coerceProject)
        dependencies)).sequence := by
    intro hi
    have hteamknown : ∃ q ∈ optimizationProjectsOf inputTeams
        (inputProjects.map coerceProject) dependencies, q.id = p.id ∧
        ∃ t, q.team = some t ∧ (objGet (teamCapacitiesOf inputTeams) t).isSome := by
      rcases hmode with rfl | rfl
      · exact planProjectsSequential_selected_team_known _ _ p.id hi
      · exact planProjectsNaive_selected_team_known _ _
          (optimizationProjectsOf_ids_nodup hids) p.id hi
    rcases hteamknown with ⟨q, hqP, hqid, t, hqt, _⟩
    rcases optimizationProjectsOf_mem_shape hqP with ⟨a, haA, _, hqaid, hqteam, _, _⟩
    have ha : a = coerceProject p := by
      apply inj_on_of_ids_nodup hAids a haA (coerceProject p)
        (List.mem_map_of_mem coerceProject hp)
      rw [← hqaid, hqid, coerceProject_id]
    rw [hqt, ha] at hqteam
    have hnone : objGet (teamIdToNameOf inputTeams) p.teamId = none :=
      teamIdToNameOf_none hpt
    rw [show (coerceProject p).teamId = p.teamId from rfl, hnone] at hqteam
    cases hqteam
  constructor
  · have hres : (prioritizeProjects solve mode inputProjects inputTeams
        dependencies).unselectedProjects
        = (inputProjects.map coerceProject).filter
            (fun a => !((runPlanner solve mode (teamCapacitiesOf inputTeams)
              (optimizationProjectsOf inputTeams (inputProjects.map coerceProject)
                dependencies)).sequence.contains a.id)) := rfl
    rw [hres]
    apply List.mem_filter.mpr
    refine ⟨List.mem_map_of_mem coerceProject hp, ?_⟩
    simpa [coerceProject_id] using hkey
  · intro q hq hqp
    have hres : (prioritizeProjects solve mode inputProjects inputTeams
        dependencies).selectedProjects
        = selectedProjectsOf (inputProjects.map coerceProject)
            ((runPlanner solve mode (teamCapacitiesOf inputTeams)
              (optimizationProjectsOf inputTeams (inputProjects.map coerceProject)
                dependencies)).sequence) := rfl
    rw [hres] at hq
    have := id_mem_sequence_of_mem_selectedProjectsOf hq
    rw [hqp] at this
    exact hkey this

/-- Witness for C10 at a concrete input: a project referencing the
non-existent team `tX` is unselected and nothing selected carries its id. -/
theorem unknown_team_never_selected_witness :
    coerceProject ⟨"p", "tX", "P", some 1, some 5⟩
       ∈ (prioritizeProjects dummySolve Mode.naive
           [⟨"p", "tX", "P", some 1, some 5⟩] [⟨"tA", "A", 10⟩] []).unselectedProjects ∧
    ∀ q ∈ (prioritizeProjects dummySolve Mode.naive
        [⟨"p", "tX", "P", some 1, some 5⟩] [⟨"tA", "A", 10⟩] []).selectedProjects,
      q.id ≠ "p" :=
  unknown_team_never_selected dummySolve Mode.naive
    [⟨"p", "tX", "P", some 1, some 5⟩] [⟨"tA", "A", 10⟩] []
    ⟨"p", "tX", "P", some 1, some 5⟩
    (Or.inl rfl) (by with_unfolding_all decide) (by with_unfolding_all decide)
    (by with_unfolding_all decide)

/-- C2: in modes `naive-deps` and `optimized` (the latter whenever the
external solver is honest), for every dependency edge `(s, t)` whose endpoints
are both actionable input projects, if `t` is selected then `s` is selected. -/
theorem dependency_edges_respected
    (solve : LPModel → SolverResult) (mode : Mode)
    (inputProjects : List Project) (inputTeams : List Team)
    (dependencies : List Dependency) (s tproj : Project) (dep : Dependency)
    (hmode : mode = Mode.naiveDeps ∨ mode = Mode.optimized)
    (hsolver : mode = Mode.optimized → SolverFaithful solve)
    (hids : (inputProjects.map (fun a => a.id)).Nodup)
    (hs : s ∈ inputProjects) (ht : tproj ∈ inputProjects)
    (hdep : dep ∈ dependencies) (hsrc : dep.sourceId = s.id)
    (htgt : dep.targetId = tproj.id)
    (hsv : isValidProject (coerceProject s) = true)
    (htv : isValidProject (coerceProject tproj) = true)
    (hsel : coerceProject tproj ∈ (prioritizeProjects solve mode inputProjects
        inputTeams dependencies).selectedProjects) :
    coerceProject s ∈ (prioritizeProjects solve mode inputProjects inputTeams
        dependencies).selectedProjects := by
  have hAids : ((inputProjects.map coerceProject).map (fun a => a.id)).Nodup := by
    rw [coerce_map_ids]
    exact hids
  have hPnd := @optimizationProjectsOf_ids_nodup inputTeams dependencies
    inputProjects hids
  have hotMem := @optimizationProjectsOf_mem_of inputTeams
    (inputProjects.map coerceProject) dependencies (coerceProject tproj)
    (List.mem_map_of_mem coerceProject ht) htv
  have hex : ∃ q ∈ optimizationProjectsOf inputTeams
      (inputProjects.map coerceProject) dependencies,
      q.id = tproj.id ∧ s.id ∈ q.dependencies := by
    refine ⟨_, hotMem, rfl, ?_⟩
    show s.id ∈ (dependencies.filter (fun dp =>
        dp.targetId = (coerceProject tproj).id &&
        (((inputProjects.map coerceProject).filter isActionableIdProject).map
          (fun x => x.id)).contains dp.sourceId)).map (fun x => x.sourceId)
    refine List.mem_map.mpr ⟨dep, ?_, hsrc⟩
    apply List.mem_filter.mpr
    refine ⟨hdep, ?_⟩
    have hsact : s.id ∈ ((inputProjects.map coerceProject).filter
        isActionableIdProject).map (fun x => x.id) := by
      refine List.mem_map.mpr ⟨coerceProject s, ?_, coerceProject_id s⟩
      exact List.mem_filter.mpr ⟨List.mem_map_of_mem coerceProject hs,
        actionable_of_valid hsv⟩
    simp [coerceProject_id, htgt, hsrc, hsact]
  have hseqS : s.id ∈ (runPlanner solve mode (teamCapacitiesOf inputTeams)
      (optimizationProjectsOf inputTeams (inputProjects.map coerceProject)
        dependencies)).sequence →
      coerceProject s ∈ (prioritizeProjects solve mode inputProjects inputTeams
        dependencies).selectedProjects := by
    intro hmem
    have hres : (prioritizeProjects solve mode inputProjects inputTeams
        dependencies).selectedProjects
        = selectedProjectsOf (inputProjects.map coerceProject)
            ((runPlanner solve mode (teamCapacitiesOf inputTeams)
              (optimizationProjectsOf inputTeams (inputProjects.map coerceProject)
                dependencies)).sequence) := rfl
    rw [hres]
    exact mem_selectedProjectsOf.mpr ⟨s.id, hmem, find?_coerce_eq hids hs⟩
  apply hseqS
  have htid : tproj.id ∈ (runPlanner solve mode (teamCapacitiesOf inputTeams)
      (optimizationProjectsOf inputTeams (inputProjects.map coerceProject)
        dependencies)).sequence := by
    have hres : (prioritizeProjects solve mode inputProjects inputTeams
        dependencies).selectedProjects
        = selectedProjectsOf (inputProjects.map coerceProject)
            ((runPlanner solve mode (teamCapacitiesOf inputTeams)
              (optimizationProjectsOf inputTeams (inputProjects.map coerceProject)
                dependencies)).sequence) := rfl
    rw [hres] at hsel
    have h := id_mem_sequence_of_mem_selectedProjectsOf hsel
    simpa [coerceProject_id] using h
  rcases hex with ⟨q, hqP, hqid, hqdep⟩
  rcases hmode with rfl | rfl
  · exact planProjectsNaive_closed (teamCapacitiesOf inputTeams) _ hPnd hqP
      (by rw [hqid]; exact htid) s.id hqdep
  · have hfaith := hsolver rfl
    by_cases hst : (solve (buildLPModel (teamCapacitiesOf inputTeams)
        (optimizationProjectsOf inputTeams (inputProjects.map coerceProject)
          dependencies))).status = SolverStatus.opt ∨
        (solve (buildLPModel (teamCapacitiesOf inputTeams)
          (optimizationProjectsOf inputTeams (inputProjects.map coerceProject)
            dependencies))).status = SolverStatus.feas
    · have hseqeq : (runPlanner solve Mode.optimized (teamCapacitiesOf inputTeams)
          (optimizationProjectsOf inputTeams (inputProjects.map coerceProject)
            dependencies)).sequence
          = jsSetDedup ((((solve (buildLPModel (teamCapacitiesOf inputTeams)
              (optimizationProjectsOf inputTeams (inputProjects.map coerceProject)
                dependencies))).vars.filter
              (fun v => v.2 = 1)).map (fun v => v.1))) := by
        show (planProjectsMIP solve _ _).sequence = _
        unfold planProjectsMIP
        rw [if_pos hst]
      rcases hfaith _ hst with ⟨hnd, hvals, hcons⟩
      rw [hseqeq, mem_jsSetDedup] at htid
      rcases List.mem_map.mp htid with ⟨v, hvmem, hv1⟩
      have hv2 : v.2 = 1 := by simpa using List.of_mem_filter hvmem
      have hlookt : objGet (solve (buildLPModel (teamCapacitiesOf inputTeams)
          (optimizationProjectsOf inputTeams (inputProjects.map coerceProject)
            dependencies))).vars tproj.id = some 1 := by
        have hv : v = (tproj.id, (1 : ℚ)) := Prod.ext hv1 hv2
        exact lookup_eq_of_mem_nodup hnd (hv ▸ List.mem_of_mem_filter hvmem)
      have hrow := hcons _ (buildLPModel_dep_constraint_mem hqP hqdep)
      simp only [List.map_cons, List.map_nil, List.sum_cons, List.sum_nil] at hrow
      rw [hqid] at hrow
      rw [hlookt] at hrow
      cases hls : objGet (solve (buildLPModel (teamCapacitiesOf inputTeams)
          (optimizationProjectsOf inputTeams (inputProjects.map coerceProject)
            dependencies))).vars s.id with
      | none =>
        exfalso
        rw [hls] at hrow
        simp at hrow
        linarith
      | some w =>
        have hw : w = 0 ∨ w = 1 := (hvals (s.id, w) (mem_of_lookup hls)).2
        rcases hw with rfl | rfl
        · exfalso
          rw [hls] at hrow
          simp at hrow
          linarith
        · rw [hseqeq, mem_jsSetDedup]
          refine List.mem_map.mpr ⟨(s.id, 1), ?_, rfl⟩
          apply List.mem_filter.mpr
          exact ⟨mem_of_lookup hls, by simp⟩
    · have hseqeq : (runPlanner solve Mode.optimized (teamCapacitiesOf inputTeams)
          (optimizationProjectsOf inputTeams (inputProjects.map coerceProject)
            dependencies))
          = planProjectsNaive (teamCapacitiesOf inputTeams)
              (optimizationProjectsOf inputTeams (inputProjects.map coerceProject)
                dependencies) := by
        show planProjectsMIP solve _ _ = _
        unfold planProjectsMIP
        rw [if_neg hst]
      rw [hseqeq] at htid ⊢
      exact planProjectsNaive_closed (teamCapacitiesOf inputTeams) _ hPnd hqP
        (by rw [hqid]; exact htid) s.id hqdep

/-- Witness for C2 at a concrete input: `t` depends on `s`, `t` is selected,
and so is `s`. -/
theorem dependency_edges_respected_witness :
    coerceProject ⟨"s", "tA", "S", some 1, some 2⟩
      ∈ (prioritizeProjects dummySolve Mode.naiveDeps
          [⟨"s", "tA", "S", some 1, some 2⟩, ⟨"t", "tA", "T", some 1, some 3⟩]
          [⟨"tA", "A", 10⟩] [⟨"s", "t"⟩]).selectedProjects :=
  dependency_edges_respected dummySolve Mode.naiveDeps
    [⟨"s", "tA", "S", some 1, some 2⟩, ⟨"t", "tA", "T", some 1, some 3⟩]
    [⟨"tA", "A", 10⟩] [⟨"s", "t"⟩]
    ⟨"s", "tA", "S", some 1, some 2⟩ ⟨"t", "tA", "T", some 1, some 3⟩ ⟨"s", "t"⟩
    (Or.inl rfl) (fun h => Mode.noConfusion h)
    (by with_unfolding_all decide) (by with_unfolding_all decide)
    (by with_unfolding_all decide) (by with_unfolding_all decide)
    (by with_unfolding_all decide) (by with_unfolding_all decide)
    (by with_unfolding_all decide) (by with_unfolding_all decide)
    (by with_unfolding_all decide)

/-- C3 (amended): for inputs with pairwise-distinct team ids, team names and
project ids, and non-negative team capacities, every mode's `teamSummaries`
entry for every input team `T` satisfies `allocated ≤ T.capacity` (in mode
`optimized` under an honest external solver; otherwise the fallback runs).
With duplicate team names the name-keyed capacity map merges teams and the
bound fails (see the C3 counterexample). -/
theorem team_capacity_never_exceeded
    (solve : LPModel → SolverResult) (mode : Mode)
    (inputProjects : List Project) (inputTeams : List Team)
    (dependencies : List Dependency) (T : Team)
    (hids : (inputProjects.map (fun a => a.id)).Nodup)
    (htid : (inputTeams.map (fun t => t.id)).Nodup)
    (htname : (inputTeams.map (fun t => t.name)).Nodup)
    (hcaps : ∀ t ∈ inputTeams, 0 ≤ t.capacity)
    (hsolver : mode = Mode.optimized → SolverFaithful solve)
    (hT : T ∈ inputTeams) :
    ∃ s : TeamSummary,
      objGet ((prioritizeProjects solve mode inputProjects inputTeams
        dependencies).teamSummaries) T.id = some s ∧
      s.allocated ≤ T.capacity := by
  have hPnd := @optimizationProjectsOf_ids_nodup inputTeams dependencies
    inputProjects hids
  have hcapT := teamCapacitiesOf_lookup htname hT
  have hc0 := hcaps T hT
  have hkey : (∀ i ∈ (runPlanner solve mode (teamCapacitiesOf inputTeams)
        (optimizationProjectsOf inputTeams (inputProjects.map coerceProject)
          dependencies)).sequence,
        ∃ r ∈ optimizationProjectsOf inputTeams (inputProjects.map coerceProject)
          dependencies, r.id = i) ∧
      sumEffortFor ((runPlanner solve mode (teamCapacitiesOf inputTeams)
          (optimizationProjectsOf inputTeams (inputProjects.map coerceProject)
            dependencies)).sequence.filterMap
        (fun i => (optimizationProjectsOf inputTeams
          (inputProjects.map coerceProject) dependencies).find?
          (fun r => r.id = i))) T.name ≤ T.capacity := by
    cases mode with
    | naive => exact planProjectsSequential_bound _ _ hPnd hcapT hc0
    | naiveDeps => exact planProjectsNaive_bound _ _ hPnd hcapT hc0
    | optimized =>
      by_cases hst : (solve (buildLPModel (teamCapacitiesOf inputTeams)
          (optimizationProjectsOf inputTeams (inputProjects.map coerceProject)
            dependencies))).status = SolverStatus.opt ∨
          (solve (buildLPModel (teamCapacitiesOf inputTeams)
            (optimizationProjectsOf inputTeams (inputProjects.map coerceProject)
              dependencies))).status = SolverStatus.feas
      · have hfaith := hsolver rfl
        rcases hfaith _ hst with ⟨hnd, hvals, hcons⟩
        have hseqeq : (runPlanner solve Mode.optimized (teamCapacitiesOf inputTeams)
            (optimizationProjectsOf inputTeams (inputProjects.map coerceProject)
              dependencies)).sequence
            = jsSetDedup ((((solve (buildLPModel (teamCapacitiesOf inputTeams)
                (optimizationProjectsOf inputTeams (inputProjects.map coerceProject)
                  dependencies))).vars.filter
                (fun v => v.2 = 1)).map (fun v => v.1))) := by
          show (planProjectsMIP solve _ _).sequence = _
          unfold planProjectsMIP
          rw [if_pos hst]
        rw [hseqeq]
        constructor
        · intro i hi
          rw [mem_jsSetDedup] at hi
          rcases List.mem_map.mp hi with ⟨v, hvmem, hv1⟩
          have hbin : v.1 ∈ (optimizationProjectsOf inputTeams
              (inputProjects.map coerceProject) dependencies).map
              (fun r => r.id) :=
            (hvals v (List.mem_of_mem_filter hvmem)).1
          rcases List.mem_map.mp hbin with ⟨r, hr, hrid⟩
          exact ⟨r, hr, by rw [hrid, hv1]⟩
        · have hrowmem := @buildLPModel_cap_constraint_mem
            (teamCapacitiesOf inputTeams)
            (optimizationProjectsOf inputTeams (inputProjects.map coerceProject)
              dependencies)
            T.name T.capacity (mem_of_lookup hcapT)
          have hrow := hcons _ hrowmem
          exact mip_selection_bound hPnd
            (@optimizationProjectsOf_effort_nonneg inputTeams
              (inputProjects.map coerceProject) dependencies) hnd
            (fun v hv => (hvals v hv).2) hrow
      · have hseqeq : (runPlanner solve Mode.optimized (teamCapacitiesOf inputTeams)
            (optimizationProjectsOf inputTeams (inputProjects.map coerceProject)
              dependencies))
            = planProjectsNaive (teamCapacitiesOf inputTeams)
                (optimizationProjectsOf inputTeams (inputProjects.map coerceProject)
                  dependencies) := by
          show planProjectsMIP solve _ _ = _
          unfold planProjectsMIP
          rw [if_neg hst]
        rw [hseqeq]
        exact planProjectsNaive_bound _ _ hPnd hcapT hc0
  have hres : (prioritizeProjects solve mode inputProjects inputTeams
      dependencies).teamSummaries
      = teamSummariesOf inputTeams (selectedProjectsOf
          (inputProjects.map coerceProject)
          ((runPlanner solve mode (teamCapacitiesOf inputTeams)
            (optimizationProjectsOf inputTeams (inputProjects.map coerceProject)
              dependencies)).sequence)) := rfl
  have hsum := teamSummariesOf_lookup htid hT
    (@selected_isSome inputProjects
      ((runPlanner solve mode (teamCapacitiesOf inputTeams)
        (optimizationProjectsOf inputTeams (inputProjects.map coerceProject)
          dependencies)).sequence))
  rw [hres, hsum]
  refine ⟨_, rfl, ?_⟩
  show ((((selectedProjectsOf (inputProjects.map coerceProject)
        ((runPlanner solve mode (teamCapacitiesOf inputTeams)
          (optimizationProjectsOf inputTeams (inputProjects.map coerceProject)
            dependencies)).sequence)).filter
        (fun p => p.teamId = T.id)).map (fun p => coerceNum p.effort)).sum)
      ≤ T.capacity
  rw [selected_alloc_eq_sumEffort hids htid htname hT _ hkey.1]
  exact hkey.2

/-- Witness for C3 (amended) at a concrete input in mode `naive`. -/
theorem team_capacity_never_exceeded_witness :
    ∃ s : TeamSummary,
      objGet ((prioritizeProjects dummySolve Mode.naive
          [⟨"p", "tA", "P", some 5, some 5⟩] [⟨"tA", "A", 10⟩]
          []).teamSummaries) (Team.mk "tA" "A" 10).id = some s ∧
      s.allocated ≤ (Team.mk "tA" "A" 10).capacity :=
  team_capacity_never_exceeded dummySolve Mode.naive
    [⟨"p", "tA", "P", some 5, some 5⟩] [⟨"tA", "A", 10⟩] [] ⟨"tA", "A", 10⟩
    (by with_unfolding_all decide) (by with_unfolding_all decide)
    (by with_unfolding_all decide) (by with_unfolding_all decide)
    (fun h => Mode.noConfusion h) (by with_unfolding_all decide)

/-- Shared characterization of `topologicalSort` on well-formed acyclic
input: permutation, dependencies-before, and least-id-among-available at
every position. -/
theorem topologicalSort_spec (projects : List OptimizationProject)
    (hnd : (projects.map (fun r => r.id)).Nodup)
    (hdeps : ∀ p ∈ projects, ∀ d ∈ p.dependencies,
      d ∈ projects.map (fun r => r.id))
    (hacyc : DepAcyclic projects) :
    (topologicalSort projects ~ projects) ∧
    ∀ l1 q l2, topologicalSort projects = l1 ++ q :: l2 →
      (∀ d ∈ q.dependencies, d ∈ l1.map (fun r => r.id)) ∧
      (∀ r ∈ projects, ¬ r ∈ l1 →
        (∀ d ∈ r.dependencies, d ∈ l1.map (fun r => r.id)) →
        strLe q.id r.id = true) := by
  have hproj1 : ∀ p ∈ projects,
      p.dependencies.filter (fun d => (projects.map (fun x : OptimizationProject => x.id)).contains d)
        = p.dependencies := by
    intro p hp
    apply List.filter_eq_self.mpr
    intro d hd
    simpa using hdeps p hp d hd
  have hprojs : projects.map (fun p =>
      { p with dependencies := p.dependencies.filter (fun d => (projects.map (fun x : OptimizationProject => x.id)).contains d) }) = projects := by
    have hstep : projects.map (fun p =>
        { p with dependencies := p.dependencies.filter (fun d => (projects.map (fun x : OptimizationProject => x.id)).contains d) })
        = projects.map id := by
      apply List.map_congr_left
      intro p hp
      rw [hproj1 p hp]
      rfl
    rw [hstep, List.map_id]
  have htopo0 : topologicalSort projects
      = kahnLoop
          (projects.map (fun p => { p with dependencies := p.dependencies.filter (fun d => (projects.map (fun x : OptimizationProject => x.id)).contains d) }))
          (kahnAdjBuild (projects.map (fun p => { p with dependencies := p.dependencies.filter (fun d => (projects.map (fun x : OptimizationProject => x.id)).contains d) })))
          ((projects.map (fun p => { p with dependencies := p.dependencies.filter (fun d => (projects.map (fun x : OptimizationProject => x.id)).contains d) })).length
            + ((projects.map (fun p => { p with dependencies := p.dependencies.filter (fun d => (projects.map (fun x : OptimizationProject => x.id)).contains d) })).map (fun r => r.dependencies.length)).sum + 1)
          (indegree0 (projects.map (fun p => { p with dependencies := p.dependencies.filter (fun d => (projects.map (fun x : OptimizationProject => x.id)).contains d) })))
          (sortBy idLeB ((projects.map (fun p => { p with dependencies := p.dependencies.filter (fun d => (projects.map (fun x : OptimizationProject => x.id)).contains d) })).filter
            (fun p => objGet (indegree0 (projects.map (fun p => { p with dependencies := p.dependencies.filter (fun d => (projects.map (fun x : OptimizationProject => x.id)).contains d) }))) p.id
              = some 0))) [] := rfl
  rw [hprojs] at htopo0
  rcases kahnLoop_spec hnd (kahnAdjBuild_count projects hnd) hdeps hacyc
      (projects.length + (projects.map (fun r => r.dependencies.length)).sum + 1)
      (indegree0 projects)
      (sortBy idLeB (projects.filter
        (fun p => objGet (indegree0 projects) p.id = some 0))) []
      (kahnInv_init projects hnd)
      (by simp only [List.length_nil]; omega) with ⟨τ, h1, h2, h3, h4, h5⟩
  rw [List.nil_append] at h1 h2 h3 h4
  constructor
  · rw [htopo0, h1]
    apply List.perm_of_nodup_nodup_toFinset_eq
    · exact List.Nodup.of_map _ h2
    · exact List.Nodup.of_map _ hnd
    · ext a
      simp only [List.mem_toFinset]
      exact ⟨fun h => h3 a h, fun h => h4 a h⟩
  · intro l1 q l2 hsplit
    rw [htopo0, h1] at hsplit
    exact h5 l1 q l2 (by rw [List.nil_append]; exact hsplit) (by simp)

/-- C7: for every acyclic node list with pairwise-distinct ids whose
dependencies all refer to present ids, `topologicalSort` returns a
permutation of the nodes in which every node appears after all of its
dependencies, and the node at each position has the least id among the nodes
then available (unemitted, dependencies emitted) — so simultaneously
available nodes are emitted in ascending id order and the output is
deterministic for identical input. -/
theorem topologicalSort_correct (projects : List OptimizationProject)
    (hnd : (projects.map (fun r => r.id)).Nodup)
    (hdeps : ∀ p ∈ projects, ∀ d ∈ p.dependencies,
      d ∈ projects.map (fun r => r.id))
    (hacyc : DepAcyclic projects) :
    (topologicalSort projects ~ projects) ∧
    ∀ l1 q l2, topologicalSort projects = l1 ++ q :: l2 →
      (∀ d ∈ q.dependencies, d ∈ l1.map (fun r => r.id)) ∧
      (∀ r ∈ projects, ¬ r ∈ l1 →
        (∀ d ∈ r.dependencies, d ∈ l1.map (fun r => r.id)) →
        strLe q.id r.id = true) :=
  topologicalSort_spec projects hnd hdeps hacyc

/-- Witness for C7 at a concrete two-node graph `b → a` (b depends on a):
the sort emits `a` first. -/
theorem topologicalSort_correct_witness :
    ((topologicalSort [⟨"b", none, 1, 1, ["a"]⟩, ⟨"a", none, 1, 1, []⟩]
      ~ [⟨"b", none, 1, 1, ["a"]⟩, ⟨"a", none, 1, 1, []⟩]) ∧
    ∀ l1 q l2,
      topologicalSort [⟨"b", none, 1, 1, ["a"]⟩, ⟨"a", none, 1, 1, []⟩]
        = l1 ++ q :: l2 →
      (∀ d ∈ q.dependencies, d ∈ l1.map (fun r => r.id)) ∧
      (∀ r ∈ [(⟨"b", none, 1, 1, ["a"]⟩ : OptimizationProject),
          ⟨"a", none, 1, 1, []⟩], ¬ r ∈ l1 →
        (∀ d ∈ r.dependencies, d ∈ l1.map (fun r => r.id)) →
        strLe q.id r.id = true)) :=
  topologicalSort_correct
    [⟨"b", none, 1, 1, ["a"]⟩, ⟨"a", none, 1, 1, []⟩]
    (by with_unfolding_all decide) (by with_unfolding_all decide)
    ⟨fun i => if i = "a" then 0 else 1, by with_unfolding_all decide⟩

/-- C1: on an acyclic dependency graph over well-formed projects (distinct
ids, dependencies among the given ids, known teams, non-negative efforts and
capacities), `planProjectsBruteforce` returns a feasible selection — per-team
effort within capacity, dependency-closed — of maximal total value among all
such selections, and the returned `value` equals the sum of the values of the
returned sequence. -/
theorem planProjectsBruteforce_optimal (teamCapacities : Obj ℚ)
    (projects : List OptimizationProject)
    (hnd : (projects.map (fun r => r.id)).Nodup)
    (hdeps : ∀ p ∈ projects, ∀ d ∈ p.dependencies,
      d ∈ projects.map (fun r => r.id))
    (hacyc : DepAcyclic projects)
    (hteams : ∀ p ∈ projects, ∃ t c, p.team = some t ∧
      objGet teamCapacities t = some c)
    (heff : ∀ p ∈ projects, 0 ≤ p.effort)
    (hcaps : ∀ t c, objGet teamCapacities t = some c → 0 ≤ c) :
    ∃ S : List OptimizationProject,
      (planProjectsBruteforce teamCapacities projects).sequence
        = S.map (fun r => r.id) ∧
      (∀ q ∈ S, q ∈ projects) ∧
      (S.map (fun r => r.id)).Nodup ∧
      FeasibleSel teamCapacities S ∧
      (planProjectsBruteforce teamCapacities projects).value
        = (S.map (fun r => r.value)).sum ∧
      (∀ S' : List OptimizationProject, S'.Sublist projects →
        FeasibleSel teamCapacities S' →
        (S'.map (fun r => r.value)).sum
          ≤ (planProjectsBruteforce teamCapacities projects).value) := by
  rcases topologicalSort_spec projects hnd hdeps hacyc with ⟨hperm, hsplits⟩
  have hLnd : ((topologicalSort projects).map (fun r => r.id)).Nodup :=
    ((hperm.map (fun r => r.id)).nodup_iff).mpr hnd
  have hsplit2 : ∀ l1 q l2, topologicalSort projects = l1 ++ q :: l2 →
      ∀ d ∈ q.dependencies, d ∈ l1.map (fun r => r.id) :=
    fun l1 q l2 h => (hsplits l1 q l2 h).1
  have hpair := pairwise_no_later_dep hLnd hsplit2
  have hselfd := no_self_dep hLnd hsplit2
  have hteamsL : ∀ p ∈ topologicalSort projects, ∃ t c, p.team = some t ∧
      objGet teamCapacities t = some c :=
    fun p hp => hteams p (hperm.subset hp)
  have heffL : ∀ p ∈ topologicalSort projects, 0 ≤ p.effort :=
    fun p hp => heff p (hperm.subset hp)
  have hopt : ∀ S' : List OptimizationProject, S'.Sublist projects →
      FeasibleSel teamCapacities S' →
      (S'.map (fun r => r.value)).sum
        ≤ (dfs (topologicalSort projects) 0 teamCapacities [] (0, [])).1 := by
    rintro S' hS'sub ⟨hS'cap, hS'clos⟩
    have hS'nodup : S'.Nodup := hS'sub.nodup (List.Nodup.of_map _ hnd)
    have htoponodup : (topologicalSort projects).Nodup :=
      List.Nodup.of_map _ hLnd
    have hS''sub : ((topologicalSort projects).filter
        (fun p => decide (p ∈ S'))).Sublist (topologicalSort projects) :=
      List.filter_sublist _
    have hS''mem : ∀ p, p ∈ (topologicalSort projects).filter
        (fun p => decide (p ∈ S')) ↔ p ∈ S' := by
      intro p
      rw [List.mem_filter]
      constructor
      · rintro ⟨_, h⟩
        simpa using h
      · intro h
        exact ⟨hperm.mem_iff.mpr (hS'sub.subset h), by simpa using h⟩
    have hS''perm : (topologicalSort projects).filter
        (fun p => decide (p ∈ S')) ~ S' := by
      apply List.perm_of_nodup_nodup_toFinset_eq
      · exact hS''sub.nodup htoponodup
      · exact hS'nodup
      · ext a
        simp only [List.mem_toFinset]
        exact hS''mem a
    have hval : (((topologicalSort projects).filter
        (fun p => decide (p ∈ S'))).map (fun r => r.value)).sum
        = (S'.map (fun r => r.value)).sum :=
      (hS''perm.map _).sum_eq
    have hcap'' : ∀ t c, objGet teamCapacities t = some c →
        sumEffortFor ((topologicalSort projects).filter
          (fun p => decide (p ∈ S'))) t ≤ c := by
      intro t c hc
      have heq : sumEffortFor ((topologicalSort projects).filter
          (fun p => decide (p ∈ S'))) t = sumEffortFor S' t := by
        unfold sumEffortFor
        exact ((hS''perm.filter _).map _).sum_eq
      rw [heq]
      exact hS'cap t c hc
    have hclos'' : ∀ q ∈ (topologicalSort projects).filter
        (fun p => decide (p ∈ S')), ∀ d ∈ q.dependencies,
        d ∈ ((topologicalSort projects).filter
          (fun p => decide (p ∈ S'))).map (fun r => r.id) := by
      intro q hq d hd
      have h1 := hS'clos q ((hS''mem q).mp hq) d hd
      rcases List.mem_map.mp h1 with ⟨r, hr, hrid⟩
      rw [← hrid]
      exact List.mem_map_of_mem _ ((hS''mem r).mpr hr)
    have hAdm'' := adm_of_feasible hpair hselfd hteamsL heffL
      ((topologicalSort projects).filter (fun p => decide (p ∈ S')))
      hS''sub hcap'' hclos''
    have hdom := dfs_dominance (topologicalSort projects) 0 teamCapacities []
      (0, []) ((topologicalSort projects).filter (fun p => decide (p ∈ S')))
      hS''sub hAdm''
    rw [← hval]
    linarith
  rcases dfs_reach (topologicalSort projects) 0 teamCapacities [] (0, []) with
    hdfs | ⟨Smax, hSmax, hAdm, hdfs⟩
  · refine ⟨[], ?_, ?_, by simp, ⟨?_, ?_⟩, ?_, ?_⟩
    · show ((topologicalSort projects).filter (fun p =>
          (dfs (topologicalSort projects) 0 teamCapacities []
            (0, [])).2.contains p.id)).map (fun r => r.id)
          = ([] : List OptimizationProject).map (fun r => r.id)
      rw [hdfs]
      simp
    · intro q hq
      cases hq
    · intro t c hc
      rw [sumEffortFor_nil]
      exact hcaps t c hc
    · intro q hq
      cases hq
    · show (dfs (topologicalSort projects) 0 teamCapacities [] (0, [])).1
        = (([] : List OptimizationProject).map (fun r => r.value)).sum
      rw [hdfs]
      simp
    · intro S' h1 h2
      exact hopt S' h1 h2
  · refine ⟨Smax, ?_, ?_, ?_, ⟨?_, ?_⟩, ?_, ?_⟩
    · show ((topologicalSort projects).filter (fun p =>
          (dfs (topologicalSort projects) 0 teamCapacities []
            (0, [])).2.contains p.id)).map (fun r => r.id)
          = Smax.map (fun r => r.id)
      rw [hdfs]
      simp only [List.nil_append]
      rw [filter_mem_ids_of_sublist hLnd hSmax]
    · intro q hq
      exact hperm.subset (hSmax.subset hq)
    · exact List.Nodup.sublist (hSmax.map _) hLnd
    · exact adm_capacity hAdm hcaps
    · intro q hq d hd
      rcases adm_closure hAdm q hq d hd with h | h
      · exact absurd h (List.not_mem_nil d)
      · exact h
    · show (dfs (topologicalSort projects) 0 teamCapacities [] (0, [])).1
        = (Smax.map (fun r => r.value)).sum
      rw [hdfs]
      simp
    · intro S' h1 h2
      exact hopt S' h1 h2

/-- Witness for C1 at a concrete input: two projects on one team with
capacity for only one; the higher-value project is chosen. -/
theorem planProjectsBruteforce_optimal_witness :
    ∃ S : List OptimizationProject,
      (planProjectsBruteforce [("A", 2)]
          [⟨"p", some "A", 5, 2, []⟩, ⟨"q", some "A", 3, 2, []⟩]).sequence
        = S.map (fun r => r.id) ∧
      (∀ q ∈ S, q ∈ [(⟨"p", some "A", 5, 2, []⟩ : OptimizationProject),
        ⟨"q", some "A", 3, 2, []⟩]) ∧
      (S.map (fun r => r.id)).Nodup ∧
      FeasibleSel [("A", 2)] S ∧
      (planProjectsBruteforce [("A", 2)]
          [⟨"p", some "A", 5, 2, []⟩, ⟨"q", some "A", 3, 2, []⟩]).value
        = (S.map (fun r => r.value)).sum ∧
      (∀ S' : List OptimizationProject,
        S'.Sublist [⟨"p", some "A", 5, 2, []⟩, ⟨"q", some "A", 3, 2, []⟩] →
        FeasibleSel [("A", 2)] S' →
        (S'.map (fun r => r.value)).sum
          ≤ (planProjectsBruteforce [("A", 2)]
              [⟨"p", some "A", 5, 2, []⟩, ⟨"q", some "A", 3, 2, []⟩]).value) :=
  planProjectsBruteforce_optimal [("A", 2)]
    [⟨"p", some "A", 5, 2, []⟩, ⟨"q", some "A", 3, 2, []⟩]
    (by with_unfolding_all decide) (by with_unfolding_all decide)
    ⟨fun _ => 0, by intro p hp d hd; rcases List.mem_cons.mp hp with rfl | hp' <;>
      first
        | cases hd
        | (rcases List.mem_cons.mp hp' with rfl | h <;> first | cases hd | cases h)⟩
    (by
      intro p hp
      rcases List.mem_cons.mp hp with rfl | hp'
      · exact ⟨"A", 2, rfl, rfl⟩
      · rcases List.mem_cons.mp hp' with rfl | h
        · exact ⟨"A", 2, rfl, rfl⟩
        · cases h)
    (by with_unfolding_all decide)
    (by
      intro t c hc
      have hc' : t = "A" ∧ c = 2 := by
        rw [show objGet [("A", (2 : ℚ))] t
            = if t = "A" then some 2 else none from lookup_cons' "A" t 2 []] at hc
        by_cases ht : t = "A"
        · rw [if_pos ht] at hc
          injection hc with hc
          exact ⟨ht, hc.symm⟩
        · rw [if_neg ht] at hc
          cases hc
      rw [hc'.2]
      with_unfolding_all decide)

end TLO
